import Mathlib

/-!
# Smart Calculator (Go): a shallow embedding of `task/main.go`

Go strings are modelled as lists of Unicode characters (`Str`), that is, as valid
UTF-8 text; every pattern the program searches for is ASCII, so working on characters
and on bytes agree. Go `int` is `Int` wrapped to 64-bit two's complement after every
arithmetic operation, the global `variables` map is an explicit store that is passed
in and returned, and the text written to standard output by one call of
`processInput` is an `Option Str` (`none` when nothing is printed, `some l` for the
single printed line `l`).

The Unicode letter table behind `unicode.IsLetter` belongs to Go's standard library;
it enters as a parameter `isLetter`, constrained by `LetterTable`.
-/

namespace SmartCalc

/-- A Go string, as the list of its characters. -/
abbrev Str := List Char

/-- The global `variables` map: name to value, `none` for an absent key. -/
abbrev Store := Str → Option Int

/-- The store after `variables[key] = value`. -/
def Store.set (vars : Store) (key : Str) (value : Int) : Store :=
  fun k => if k = key then some value else vars k

/-! ## Go library functions used by the program -/

/-- Go `int` arithmetic on a 64-bit platform: results wrap to two's complement. -/
def wrap (x : Int) : Int := (x + 2 ^ 63) % 2 ^ 64 - 2 ^ 63

/-- The function `unicode.IsSpace`: the White_Space property. -/
def isSpace (c : Char) : Bool :=
  let n := c.toNat
  (9 ≤ n && n ≤ 13) || n = 32 || n = 0x85 || n = 0xA0 || n = 0x1680 ||
    (0x2000 ≤ n && n ≤ 0x200A) || n = 0x2028 || n = 0x2029 || n = 0x202F ||
    n = 0x205F || n = 0x3000

/-- What the program relies on from `unicode.IsLetter`: on ASCII it accepts exactly
`a`-`z` and `A`-`Z`, and no letter is white space. -/
def LetterTable (isLetter : Char → Bool) : Prop :=
  (∀ c : Char, c.toNat < 128 → isLetter c = c.isAlpha) ∧
  (∀ c : Char, isLetter c = true → isSpace c = false)

/-- The ASCII restriction of `unicode.IsLetter`, used to evaluate concrete lines. -/
def asciiLetter (c : Char) : Bool := c.isAlpha

/-- Scanning loop of `strings.ReplaceAll` for a non-empty `old`: `skip` counts the
characters of a match that are still to be passed over. -/
def replaceFrom (old new : Str) : Nat → Str → Str
  | _, [] => []
  | skip + 1, _ :: cs => replaceFrom old new skip cs
  | 0, c :: cs =>
    if old.isPrefixOf (c :: cs) then new ++ replaceFrom old new (old.length - 1) cs
    else c :: replaceFrom old new 0 cs

/-- The function `strings.ReplaceAll`: non-overlapping matches, leftmost first. -/
def ReplaceAll (s old new : Str) : Str :=
  if old = [] then new ++ s.flatMap (fun c => c :: new) else replaceFrom old new 0 s

/-- Scanning loop of `strings.Fields`; `cur` is the field being read. -/
def fieldsFrom : Str → Str → List Str
  | cur, [] => if cur = [] then [] else [cur]
  | cur, c :: cs =>
    if isSpace c then (if cur = [] then fieldsFrom [] cs else cur :: fieldsFrom [] cs)
    else fieldsFrom (cur ++ [c]) cs

/-- The function `strings.Fields`: the maximal runs of non-space characters. -/
def Fields (s : Str) : List Str := fieldsFrom [] s

/-- The function `strings.TrimSpace`. -/
def TrimSpace (s : Str) : Str :=
  ((s.dropWhile isSpace).reverse.dropWhile isSpace).reverse

/-- The function `strings.Split` for a one-character separator. -/
def Split : Str → Char → List Str
  | [], _ => [[]]
  | c :: cs, sep =>
    if c = sep then [] :: Split cs sep
    else match Split cs sep with
      | [] => [[c]]
      | p :: ps => (c :: p) :: ps

/-- The function `strings.Count` for a one-character pattern. -/
def Count (s : Str) (c : Char) : Nat := s.count c

/-- The function `strings.Contains` for a one-character pattern. -/
def Contains (s : Str) (c : Char) : Bool := s.contains c

/-- Value of a string of decimal digits. -/
def digitsVal (ds : Str) : Nat := ds.foldl (fun n c => n * 10 + (c.toNat - 48)) 0

/-- The function `strconv.Atoi` on a 64-bit platform: an optional sign, then one or
more ASCII digits, the value within the range of `int`; `none` is a parse error. -/
def Atoi (s : Str) : Option Int :=
  match s with
  | [] => none
  | c :: cs =>
    let ds := if c = '-' ∨ c = '+' then cs else c :: cs
    if ds = [] ∨ ds.all Char.isDigit = false then none
    else if c = '-' then
      (if digitsVal ds ≤ 2 ^ 63 then some (-(digitsVal ds : Int)) else none)
    else
      (if digitsVal ds < 2 ^ 63 then some (digitsVal ds : Int) else none)

/-- Decimal text of an `int`, as `fmt.Println` writes it. -/
def formatInt (n : Int) : Str :=
  if n < 0 then '-' :: Nat.toDigits 10 n.natAbs else Nat.toDigits 10 n.toNat

/-! ## The program -/

/-- The `precedence` map. -/
def precedence (token : Str) : Option Nat :=
  if token = ['+'] then some 1
  else if token = ['-'] then some 1
  else if token = ['*'] then some 2
  else if token = ['/'] then some 2
  else if token = ['^'] then some 3
  else none

/-- The indexing expression `precedence[token]`: the zero value for an absent key. -/
def precOf (token : Str) : Nat := (precedence token).getD 0

/-- The function `isOperator`. -/
def isOperator (token : Str) : Bool := (precedence token).isSome

/-- The function `isValidVariable`. -/
def isValidVariable (isLetter : Char → Bool) (input : Str) : Bool :=
  input.all (fun r => isLetter r || isSpace r)

/-- The function `normalizeOperators`. -/
def normalizeOperators (input : Str) : Str :=
  let input := ReplaceAll input [' '] []
  let input := ReplaceAll input ['-', '-', '-'] ['-']
  let input := ReplaceAll input ['-', '-'] ['+']
  let input := ReplaceAll input ['+'] [' ', '+', ' ']
  let input := ReplaceAll input ['-'] [' ', '-', ' ']
  let input := ReplaceAll input ['='] [' ', '=', ' ']
  let input := ReplaceAll input ['^'] [' ', '^', ' ']
  let input := ReplaceAll input ['*'] [' ', '*', ' ']
  let input := ReplaceAll input ['/'] [' ', '/', ' ']
  let input := ReplaceAll input ['('] [' ', '(', ' ']
  let input := ReplaceAll input [')'] [' ', ')', ' ']
  input

/-- The function `getNumFromString`. -/
def getNumFromString (isLetter : Char → Bool) (vars : Store) (input : Str) :
    Except Str Int :=
  if isValidVariable isLetter input then
    match vars input with
    | some num => .ok num
    | none => .error "unknown variable".toList
  else
    match Atoi (TrimSpace input) with
    | some value => .ok value
    | none => .error "invalid identifier".toList

/-- The function `handleAssignment`: the new store and the printed line, if any. -/
def handleAssignment (isLetter : Char → Bool) (vars : Store) (input : Str) :
    Store × Option Str :=
  match Split input '=' with
  | [p0, p1] =>
    if isValidVariable isLetter (TrimSpace p0) = false then
      (vars, some "Invalid assignment".toList)
    else
      match getNumFromString isLetter vars (TrimSpace p1) with
      | .error _ => (vars, some "Invalid assignment".toList)
      | .ok value => (vars.set (TrimSpace p0) value, none)
  | _ => (vars, some "Invalid assignment".toList)

/-- Loop of the `)` case in `infixToPostfix`: pop to the output until the top of the
stack is `(` or the stack is empty. Stacks have their top at the head. -/
def popToParen : List Str → List Str → List Str × List Str
  | [], output => ([], output)
  | top :: stack, output =>
    if top ≠ ['('] then popToParen stack (output ++ [top]) else (top :: stack, output)

/-- Loop of the operator case in `infixToPostfix`. -/
def popOperators (token : Str) : List Str → List Str → List Str × List Str
  | [], output => ([], output)
  | top :: stack, output =>
    if precOf token ≤ precOf top ∧ top ≠ ['('] then
      popOperators token stack (output ++ [top])
    else (top :: stack, output)

/-- Final loop of `infixToPostfix`: empty the stack, failing on a `(`. -/
def drainStack : List Str → List Str → List Str × Option Str
  | [], output => (output, none)
  | top :: stack, output =>
    if top = ['('] then ([], some "invalid expression".toList)
    else drainStack stack (output ++ [top])

/-- Main loop of `infixToPostfix` over the remaining tokens. -/
def convertLoop : List Str → List Str → List Str → List Str × Option Str
  | [], stack, output => drainStack stack output
  | token :: rest, stack, output =>
    if token = ['('] then convertLoop rest (token :: stack) output
    else if token = [')'] then
      let r := popToParen stack output
      convertLoop rest r.1.tail r.2
    else if token = ['+'] ∨ token = ['-'] ∨ token = ['*'] ∨ token = ['/'] ∨
        token = ['^'] then
      let r := popOperators token stack output
      convertLoop rest (token :: r.1) r.2
    else convertLoop rest stack (output ++ [token])

/-- The function `infixToPostfix`: the resulting slice (nil on failure) and the error. -/
def infixToPostfix (tokens : List Str) : List Str × Option Str :=
  convertLoop tokens [] []

/-- Loop of `calculatePostfix`; the value stack has its top at the head. -/
def calcLoop (isLetter : Char → Bool) (vars : Store) :
    List Str → List Int → Except Str Int
  | [], stack =>
    match stack with
    | [v] => .ok v
    | _ => .error "invalid expression".toList
  | token :: rest, stack =>
    if isOperator token then
      match stack with
      | b :: a :: below =>
        if token = ['+'] then calcLoop isLetter vars rest (wrap (a + b) :: below)
        else if token = ['-'] then calcLoop isLetter vars rest (wrap (a - b) :: below)
        else if token = ['*'] then calcLoop isLetter vars rest (wrap (a * b) :: below)
        else if token = ['/'] then
          if b = 0 then .error "division by zero".toList
          else calcLoop isLetter vars rest (wrap (Int.tdiv a b) :: below)
        else .error ("invalid operator ".toList ++ token)
      | _ => .error "invalid expression".toList
    else
      match getNumFromString isLetter vars token with
      | .error err => .error err
      | .ok val => calcLoop isLetter vars rest (val :: stack)

/-- The function `calculatePostfix`. -/
def calculatePostfix (isLetter : Char → Bool) (vars : Store) (output : List Str) :
    Except Str Int :=
  calcLoop isLetter vars output []

/-- The function `processInput`: the store afterwards and the printed line, if any.
The error of `infixToPostfix` is overwritten unread; only its slice is used. -/
def processInput (isLetter : Char → Bool) (vars : Store) (input : Str) :
    Store × Option Str :=
  if Count input '(' ≠ Count input ')' then (vars, some "invalid expression".toList)
  else if Contains input '=' then handleAssignment isLetter vars input
  else
    let input := normalizeOperators input
    let output := (infixToPostfix (Fields input)).1
    match calculatePostfix isLetter vars output with
    | .error err => (vars, some err)
    | .ok result => (vars, some (formatInt result))

/-- The store before any assignment. -/
def emptyStore : Store := fun _ => none

/-! ## Auxiliary definitions for the statements -/

/-- The characters that `normalizeOperators` treats specially. -/
def isSpecial (c : Char) : Bool :=
  c = ' ' || c = '+' || c = '-' || c = '=' || c = '^' || c = '*' || c = '/' ||
    c = '(' || c = ')'

/-- A word: no white space and no special character. -/
def isWord (w : Str) : Bool := w.all (fun c => !isSpace c && !isSpecial c)

/-- Lines 76-83 of `normalizeOperators` on one character: an operator, `=` or a
parenthesis gets a space on both sides. -/
def padChar (c : Char) : Str :=
  if c = '+' ∨ c = '-' ∨ c = '=' ∨ c = '^' ∨ c = '*' ∨ c = '/' ∨ c = '(' ∨ c = ')' then
    [' ', c, ' ']
  else [c]

/-- Lines 74-75 of `normalizeOperators`: the two minus-run substitutions. -/
def collapseMinus (s : Str) : Str :=
  ReplaceAll (ReplaceAll s ['-', '-', '-'] ['-']) ['-', '-'] ['+']

/-- Rendering of the result of `calculatePostfix` as `processInput` prints it. -/
def printed : Except Str Int → Str
  | .error err => err
  | .ok result => formatInt result

/-- A non-negative decimal literal that fits `int`: one or more ASCII digits with a
value below `2 ^ 63`. -/
def isDecimalLiteral (t : Str) : Bool :=
  t ≠ [] && t.all Char.isDigit && decide (digitsVal t < 2 ^ 63)

/-- The digits of an optionally signed literal. -/
def literalDigits : Str → Str
  | [] => []
  | c :: cs => if c = '+' ∨ c = '-' then cs else c :: cs

/-- The value denoted by an optionally signed decimal literal. -/
def literalValue : Str → Int
  | [] => 0
  | c :: cs =>
    if c = '-' then -(digitsVal cs : Int) else (digitsVal (literalDigits (c :: cs)) : Int)

/-- An optionally signed decimal literal within the range of `int`. -/
def isIntLiteral (n : Str) : Bool :=
  literalDigits n ≠ [] && (literalDigits n).all Char.isDigit &&
    decide (-(2 ^ 63 : Int) ≤ literalValue n) && decide (literalValue n < 2 ^ 63)

/-! ## Well-formed infix expressions and the reference evaluator -/

/-- The binary operators of the calculator. -/
inductive Op where
  | add | sub | mul | div | pow
  deriving DecidableEq

/-- The character of an operator. -/
def Op.symbol : Op → Char
  | .add => '+'
  | .sub => '-'
  | .mul => '*'
  | .div => '/'
  | .pow => '^'

/-- The token of an operator. -/
def Op.token (op : Op) : Str := [op.symbol]

/-- Binding strength: `+ -` bind weakest, `* /` tighter, `^` tightest. -/
def Op.prec : Op → Nat
  | .add => 1
  | .sub => 1
  | .mul => 2
  | .div => 2
  | .pow => 3

/-- Parse tree of an infix expression: literal, variable, parenthesised expression,
binary operation. -/
inductive Expr where
  | lit (digits : Str)
  | var (name : Str)
  | paren (inner : Expr)
  | bin (op : Op) (lhs rhs : Expr)

/-- The token sequence of an expression, in writing order. -/
def Expr.tokens : Expr → List Str
  | .lit digits => [digits]
  | .var name => [name]
  | .paren inner => ['('] :: (inner.tokens ++ [[')']])
  | .bin op lhs rhs => lhs.tokens ++ op.token :: rhs.tokens

/-- The expression written without any space. -/
def Expr.text (e : Expr) : Str := e.tokens.flatten

/-- The tree `e` is the parse of its token sequence at binding level `p`: operators of
equal precedence group to the left, tighter operators group first, and a
parenthesised expression restarts at the weakest level. -/
def Expr.fits : Nat → Expr → Bool
  | _, .lit _ => true
  | _, .var _ => true
  | _, .paren inner => inner.fits 1
  | p, .bin op lhs rhs => decide (p ≤ op.prec) && lhs.fits op.prec && rhs.fits (op.prec + 1)

/-- Every literal is a non-negative decimal literal that fits `int`, every variable
name is non-empty, made of letters only and present in the store. -/
def Expr.operandsOK (isLetter : Char → Bool) (vars : Store) : Expr → Bool
  | .lit digits => isDecimalLiteral digits
  | .var name => name ≠ [] && name.all isLetter && (vars name).isSome
  | .paren inner => inner.operandsOK isLetter vars
  | .bin _ lhs rhs => lhs.operandsOK isLetter vars && rhs.operandsOK isLetter vars

/-- The expression uses only `+ - * /`. -/
def Expr.fourOps : Expr → Bool
  | .lit _ => true
  | .var _ => true
  | .paren inner => inner.fourOps
  | .bin op lhs rhs => decide (op ≠ Op.pow) && lhs.fourOps && rhs.fourOps

/-- Reference arithmetic on Go `int`: wrap-around, division truncating toward zero and
undefined for a zero divisor, `^` as exponentiation. -/
def Op.apply : Op → Int → Int → Option Int
  | .add, a, b => some (wrap (a + b))
  | .sub, a, b => some (wrap (a - b))
  | .mul, a, b => some (wrap (a * b))
  | .div, a, b => if b = 0 then none else some (wrap (Int.tdiv a b))
  | .pow, a, b => some (wrap (a ^ b.toNat))

/-- Reference evaluator: the value of the parse tree, `none` when an operand or an
operation has no value. -/
def Expr.value (vars : Store) : Expr → Option Int
  | .lit digits => some (digitsVal digits : Int)
  | .var name => vars name
  | .paren inner => inner.value vars
  | .bin op lhs rhs =>
    match lhs.value vars, rhs.value vars with
    | some a, some b => op.apply a b
    | _, _ => none

/-- The reference evaluation reaches a division whose right operand evaluates to 0. -/
def Expr.dividesByZero (vars : Store) : Expr → Bool
  | .lit _ => false
  | .var _ => false
  | .paren inner => inner.dividesByZero vars
  | .bin op lhs rhs =>
    lhs.dividesByZero vars || rhs.dividesByZero vars ||
      (decide (op = Op.div) && decide (rhs.value vars = some 0))

/-- Postfix form of the parse tree: operands in writing order, each operator after its
two operands. -/
def Expr.rpn : Expr → List Str
  | .lit digits => [digits]
  | .var name => [name]
  | .paren inner => inner.rpn
  | .bin op lhs rhs => lhs.rpn ++ rhs.rpn ++ [op.token]

/-- Operators of `e` still on the converter stack when its last token has been read,
top first. -/
def Expr.pending : Expr → List Str
  | .lit _ => []
  | .var _ => []
  | .paren _ => []
  | .bin op _ rhs => rhs.pending ++ [op.token]

/-- Tokens of `e` already in the converter output when its last token has been read. -/
def Expr.emitted : Expr → List Str
  | .lit digits => [digits]
  | .var name => [name]
  | .paren inner => inner.rpn
  | .bin _ lhs rhs => lhs.rpn ++ rhs.emitted

/-- What `calculatePostfix` computes on the postfix form of `e`, read off the tree. -/
def Expr.outcome (vars : Store) : Expr → Except Str Int
  | .lit digits => .ok (digitsVal digits : Int)
  | .var name => .ok ((vars name).getD 0)
  | .paren inner => inner.outcome vars
  | .bin op lhs rhs =>
    match lhs.outcome vars with
    | .error err => .error err
    | .ok a =>
      match rhs.outcome vars with
      | .error err => .error err
      | .ok b =>
        match op with
        | .add => .ok (wrap (a + b))
        | .sub => .ok (wrap (a - b))
        | .mul => .ok (wrap (a * b))
        | .div => if b = 0 then .error "division by zero".toList else .ok (wrap (Int.tdiv a b))
        | .pow => .error "invalid operator ^".toList

/-- The top of the converter stack does not bind at level `p`: the stack is empty or
its top has precedence below `p` (the precedence of `(` is 0). -/
def stackBelow (p : Nat) : List Str → Prop
  | [] => True
  | top :: _ => precOf top < p

/-- An operand: a literal or a variable. -/
def Expr.isOperand : Expr → Bool
  | .lit _ => true
  | .var _ => true
  | _ => false

/-- What a maximal run of `k` minus signs is replaced by: a run of exactly three by a
single `-`, a run of exactly two by a single `+`, any other run by itself. -/
def emitRun (k : Nat) : Str :=
  if k = 3 then ['-'] else if k = 2 then ['+'] else List.replicate k '-'

/-- Replace every maximal run of minus signs by `emitRun` of its length; `k` minus
signs of the current run have been read. -/
def collapseRunsFrom : Nat → Str → Str
  | k, [] => emitRun k
  | k, c :: cs =>
    if c = '-' then collapseRunsFrom (k + 1) cs else emitRun k ++ c :: collapseRunsFrom 0 cs

/-- The line in which every run of exactly three `-` is replaced by a single `-` and
every run of exactly two `-` by a single `+`. -/
def collapseRuns (s : Str) : Str := collapseRunsFrom 0 s

/-- Every maximal run of minus signs has length at most `m`; `k` minus signs of the
current run have been read. -/
def runsAtMost (m : Nat) : Nat → Str → Bool
  | k, [] => decide (k ≤ m)
  | k, c :: cs =>
    if c = '-' then runsAtMost m (k + 1) cs else decide (k ≤ m) && runsAtMost m 0 cs

/-- The line with every white-space character deleted. -/
def deleteWhitespace (s : Str) : Str := s.filter (fun c => !isSpace c)

/-- The line with every U+0020 space deleted. -/
def deleteSpaces (s : Str) : Str := s.filter (fun c => c != ' ')

/-- An operand token of the converter: not a parenthesis and not an operator (the
`default` case of the `switch` in `infixToPostfix`). -/
def isOperandToken (t : Str) : Bool := t ≠ ['('] && t ≠ [')'] && !isOperator t

/-- The value-stack depth, starting from `d`, is at least 2 immediately before every
operator and exactly 1 after the last token. -/
def depthOK : Nat → List Str → Bool
  | d, [] => decide (d = 1)
  | d, t :: ts =>
    if isOperator t then decide (2 ≤ d) && depthOK (d - 1) ts else depthOK (d + 1) ts

/-- A parenthesis token. -/
def isParenToken (t : Str) : Bool := t = ['('] || t = [')']

/-- Nesting depth after reading the characters of a line from depth `d`: `(` opens, `)`
closes one level if one is open and is otherwise passed over. -/
def charDepth : Nat → Str → Nat
  | d, [] => d
  | d, c :: cs =>
    if c = '(' then charDepth (d + 1) cs
    else if c = ')' then charDepth (d - 1) cs
    else charDepth d cs

/-- Nesting depth after reading a token sequence from depth `d`. -/
def tokenDepth : Nat → List Str → Nat
  | d, [] => d
  | d, t :: ts =>
    if t = ['('] then tokenDepth (d + 1) ts
    else if t = [')'] then tokenDepth (d - 1) ts
    else tokenDepth d ts

/-- Loop condition of the `)` case: the top of the stack is not `(`. -/
def notOpen (t : Str) : Bool := decide (t ≠ ['('])

/-- Loop condition of the operator case: the top binds at least as tightly as `token`
and is not `(`. -/
def popsBefore (token t : Str) : Bool := decide (precOf token ≤ precOf t ∧ t ≠ ['('])

/-! # Theorems -/

/-! ## Characters and words -/

theorem letter_not_space {L : Char → Bool} (hL : LetterTable L) {c : Char}
    (h : L c = true) : isSpace c = false := hL.2 c h

theorem letter_not_special {L : Char → Bool} (hL : LetterTable L) {c : Char}
    (h : L c = true) : isSpecial c = false := by
  cases hs : isSpecial c
  · rfl
  · exfalso
    simp only [isSpecial, Bool.or_eq_true, decide_eq_true_eq] at hs
    have key : ∀ d : Char, d.toNat < 128 → d.isAlpha = false → c ≠ d := by
      intro d hd hd' hcd
      subst hcd
      rw [hL.1 c hd, hd'] at h
      exact Bool.false_ne_true h
    rcases hs with ((((((((h1 | h1) | h1) | h1) | h1) | h1) | h1) | h1) | h1) <;>
      exact key _ (by decide) (by decide) h1

theorem letter_not_digit {L : Char → Bool} (hL : LetterTable L) {c : Char}
    (h : L c = true) : c.isDigit = false := by
  cases hd : c.isDigit
  · rfl
  · exfalso
    have h1 : c.toNat < 128 := by
      simp only [Char.isDigit, Bool.and_eq_true, decide_eq_true_eq] at hd
      have := hd.2
      simp only [Char.toNat]
      have h2 : c.val.toNat ≤ 57 := this
      omega
    rw [hL.1 c h1] at h
    simp only [Char.isDigit, Bool.and_eq_true, decide_eq_true_eq] at hd
    simp only [Char.isAlpha, Char.isUpper, Char.isLower, Bool.or_eq_true, Bool.and_eq_true,
      decide_eq_true_eq] at h
    have a1 : 48 ≤ c.val.toNat := hd.1
    have a2 : c.val.toNat ≤ 57 := hd.2
    rcases h with ⟨b1, _⟩ | ⟨b1, _⟩
    · have : 65 ≤ c.val.toNat := b1
      omega
    · have : 97 ≤ c.val.toNat := b1
      omega

theorem asciiLetter_table : LetterTable asciiLetter := by
  refine ⟨fun c _ => rfl, ?_⟩
  intro c h
  simp only [asciiLetter, Char.isAlpha, Char.isUpper, Char.isLower, Bool.or_eq_true,
    Bool.and_eq_true, decide_eq_true_eq] at h
  cases hs : isSpace c
  · rfl
  · exfalso
    simp only [isSpace, Char.toNat, Bool.or_eq_true, Bool.and_eq_true,
      decide_eq_true_eq] at hs
    rcases h with ⟨b1, b2⟩ | ⟨b1, b2⟩
    · have c1 : 65 ≤ c.val.toNat := b1
      have c2 : c.val.toNat ≤ 90 := b2
      omega
    · have c1 : 97 ≤ c.val.toNat := b1
      have c2 : c.val.toNat ≤ 122 := b2
      omega

/-! ## Library lemmas: `ReplaceAll`, `Fields`, `TrimSpace`, `Split` -/

theorem replaceFrom_absent (x : Char) (old new : Str) (s : Str) (h : x ∉ s) :
    replaceFrom (x :: old) new 0 s = s := by
  induction s with
  | nil => rfl
  | cons c cs ih =>
    have hc : x ≠ c := fun e => h (by simp [e])
    have hcs : x ∉ cs := fun e => h (by simp [e])
    simp [replaceFrom, List.isPrefixOf, hc, ih hcs]

theorem ReplaceAll_absent (x : Char) (old new : Str) (s : Str) (h : x ∉ s) :
    ReplaceAll s (x :: old) new = s := by
  simp [ReplaceAll, replaceFrom_absent x old new s h]

theorem ReplaceAll_single (x : Char) (new : Str) (s : Str) :
    ReplaceAll s [x] new = s.flatMap (fun c => if c = x then new else [c]) := by
  simp only [ReplaceAll, List.cons_ne_nil, if_false]
  induction s with
  | nil => rfl
  | cons c cs ih =>
    by_cases hc : c = x
    · subst hc
      simp [replaceFrom, List.isPrefixOf, ih]
    · have hc' : x ≠ c := fun e => hc e.symm
      simp [replaceFrom, List.isPrefixOf, hc, hc', ih]

theorem ReplaceAll_space (s : Str) :
    ReplaceAll s [' '] [] = s.filter (fun c => c != ' ') := by
  rw [ReplaceAll_single]
  induction s with
  | nil => rfl
  | cons c cs ih =>
    by_cases hc : c = ' '
    · simp [hc, List.flatMap_cons] at ih ⊢
      exact ih
    · simp [hc, List.flatMap_cons, List.filter_cons] at ih ⊢
      exact ih

theorem fieldsFrom_word (w : Str) (hw : ∀ c ∈ w, isSpace c = false) (cur rest : Str) :
    fieldsFrom cur (w ++ rest) = fieldsFrom (cur ++ w) rest := by
  induction w generalizing cur with
  | nil => simp
  | cons c cs ih =>
    have hc : isSpace c = false := hw c (by simp)
    have hcs : ∀ d ∈ cs, isSpace d = false := fun d hd => hw d (by simp [hd])
    simp [fieldsFrom, hc, ih hcs]

theorem Fields_word (w : Str) (hne : w ≠ []) (hw : ∀ c ∈ w, isSpace c = false) :
    Fields w = [w] := by
  have h := fieldsFrom_word w hw [] []
  simp only [List.append_nil, List.nil_append] at h
  simp [Fields, h, fieldsFrom, hne]

theorem dropWhile_head_false (p : Char → Bool) (s : Str)
    (h : ∀ c, s.head? = some c → p c = false) : s.dropWhile p = s := by
  cases s with
  | nil => rfl
  | cons c cs => simp [List.dropWhile_cons, h c rfl]

theorem TrimSpace_word (w : Str) (hw : ∀ c ∈ w, isSpace c = false) : TrimSpace w = w := by
  unfold TrimSpace
  rw [dropWhile_head_false isSpace w (fun c hc => hw c (List.mem_of_mem_head? hc))]
  rw [dropWhile_head_false isSpace w.reverse
    (fun c hc => hw c (List.mem_reverse.mp (List.mem_of_mem_head? hc)))]
  simp

theorem dropWhile_spaces_append (pre s : Str) (hpre : ∀ c ∈ pre, isSpace c = true) :
    (pre ++ s).dropWhile isSpace = s.dropWhile isSpace := by
  induction pre with
  | nil => rfl
  | cons c cs ih =>
    have hc : isSpace c = true := hpre c (by simp)
    simp [List.dropWhile_cons, hc]
    exact ih (fun d hd => hpre d (by simp [hd]))

theorem TrimSpace_padded (pre w post : Str) (hpre : ∀ c ∈ pre, isSpace c = true)
    (hpost : ∀ c ∈ post, isSpace c = true) (hw : ∀ c ∈ w, isSpace c = false) :
    TrimSpace (pre ++ w ++ post) = w := by
  have h1 : TrimSpace (pre ++ w ++ post) = TrimSpace (w ++ post) := by
    unfold TrimSpace
    rw [List.append_assoc, dropWhile_spaces_append pre _ hpre]
  rw [h1]
  unfold TrimSpace
  cases w with
  | nil =>
    have h2 : ([] ++ post).dropWhile isSpace = [] := by
      have := dropWhile_spaces_append post [] hpost
      simpa using this
    rw [h2]
    rfl
  | cons c cs =>
    have hc : isSpace c = false := hw c (by simp)
    have h2 : (c :: cs ++ post).dropWhile isSpace = c :: cs ++ post := by
      simp [List.dropWhile_cons, hc]
    rw [h2, List.reverse_append,
      dropWhile_spaces_append post.reverse _ (fun d hd => hpost d (List.mem_reverse.mp hd)),
      dropWhile_head_false isSpace (c :: cs).reverse
        (fun d hd => hw d (List.mem_reverse.mp (List.mem_of_mem_head? hd)))]
    simp

theorem Split_absent (s : Str) (sep : Char) (h : sep ∉ s) : Split s sep = [s] := by
  induction s with
  | nil => rfl
  | cons c cs ih =>
    have hc : c ≠ sep := fun e => h (by simp [e])
    have hcs : sep ∉ cs := fun e => h (by simp [e])
    simp [Split, hc, ih hcs]

theorem Split_ne_nil (s : Str) (sep : Char) : Split s sep ≠ [] := by
  induction s with
  | nil => simp [Split]
  | cons c cs ih =>
    by_cases hc : c = sep
    · simp [Split, hc]
    · simp only [Split, hc, if_false]
      cases h : Split cs sep with
      | nil => exact absurd h ih
      | cons p ps => simp

theorem Split_first (l r : Str) (sep : Char) (h : sep ∉ l) :
    Split (l ++ sep :: r) sep = l :: Split r sep := by
  induction l with
  | nil => simp [Split]
  | cons c cs ih =>
    have hc : c ≠ sep := fun e => h (by simp [e])
    have hcs : sep ∉ cs := fun e => h (by simp [e])
    simp [Split, hc, ih hcs]

theorem Split_length_of_mem (s : Str) (sep : Char) (h : sep ∈ s) :
    2 ≤ (Split s sep).length := by
  induction s with
  | nil => simp at h
  | cons c cs ih =>
    by_cases hc : c = sep
    · have := Split_ne_nil cs sep
      cases hs : Split cs sep with
      | nil => exact absurd hs this
      | cons p ps => simp [Split, hc, hs]
    · have hcs : sep ∈ cs := by
        rcases List.mem_cons.mp h with e | e
        · exact absurd e.symm hc
        · exact e
      have := ih hcs
      cases hs : Split cs sep with
      | nil => simp [hs] at this
      | cons p ps =>
        rw [hs] at this
        simpa [Split, hc, hs] using this

/-! ## The tokenizer -/

theorem normalizeOperators_eq (s : Str) :
    normalizeOperators s = (collapseMinus (s.filter (fun c => c != ' '))).flatMap padChar := by
  unfold normalizeOperators collapseMinus
  simp only [ReplaceAll_space]
  generalize ReplaceAll (ReplaceAll (s.filter (fun c => c != ' ')) ['-', '-', '-'] ['-'])
    ['-', '-'] ['+'] = t
  simp only [ReplaceAll_single, List.flatMap_assoc]
  congr 1
  funext c
  unfold padChar
  by_cases h1 : c = '+'
  · subst h1; simp
  by_cases h2 : c = '-'
  · subst h2; simp
  by_cases h3 : c = '='
  · subst h3; simp
  by_cases h4 : c = '^'
  · subst h4; simp
  by_cases h5 : c = '*'
  · subst h5; simp
  by_cases h6 : c = '/'
  · subst h6; simp
  by_cases h7 : c = '('
  · subst h7; simp
  by_cases h8 : c = ')'
  · subst h8; simp
  simp [h1, h2, h3, h4, h5, h6, h7, h8]

theorem isWord_iff (w : Str) :
    isWord w = true ↔ ∀ c ∈ w, isSpace c = false ∧ isSpecial c = false := by
  simp [isWord, List.all_eq_true]

theorem word_not_mem {w : Str} (hw : isWord w = true) {d : Char} (hd : isSpecial d = true) :
    d ∉ w := by
  intro hmem
  have := ((isWord_iff w).mp hw d hmem).2
  rw [hd] at this
  exact Bool.noConfusion this

theorem padChar_plain {c : Char} (h : isSpecial c = false) : padChar c = [c] := by
  unfold padChar
  rw [if_neg]
  intro hc
  have : isSpecial c = true := by
    simp only [isSpecial, Bool.or_eq_true, decide_eq_true_eq]
    tauto
  rw [h] at this
  exact Bool.noConfusion this

theorem flatMap_padChar_word {w : Str} (hw : isWord w = true) : w.flatMap padChar = w := by
  induction w with
  | nil => rfl
  | cons c cs ih =>
    have h := (isWord_iff _).mp hw
    have hc := (h c (by simp)).2
    have hcs : isWord cs = true := (isWord_iff cs).mpr (fun d hd => h d (by simp [hd]))
    simp [List.flatMap_cons, padChar_plain hc, ih hcs]

theorem filter_space_word {w : Str} (hw : isWord w = true) :
    w.filter (fun c => c != ' ') = w := by
  rw [List.filter_eq_self]
  intro c hc
  have h : c ≠ ' ' := fun e => word_not_mem hw (d := ' ') (by decide) (e ▸ hc)
  simpa using h

theorem collapseMinus_absent {s : Str} (h : '-' ∉ s) : collapseMinus s = s := by
  unfold collapseMinus
  rw [ReplaceAll_absent _ _ _ _ h, ReplaceAll_absent _ _ _ _ h]

theorem normalizeOperators_word {w : Str} (hw : isWord w = true) :
    normalizeOperators w = w := by
  rw [normalizeOperators_eq, filter_space_word hw,
    collapseMinus_absent (word_not_mem hw (by decide)), flatMap_padChar_word hw]

theorem word_ne_single {w : Str} (hw : isWord w = true) {d : Char}
    (hd : isSpecial d = true) : w ≠ [d] := by
  intro e
  exact word_not_mem hw hd (by simp [e])

theorem isOperator_word {w : Str} (hw : isWord w = true) : isOperator w = false := by
  simp [isOperator, precedence, word_ne_single hw (d := '+') (by decide),
    word_ne_single hw (d := '-') (by decide), word_ne_single hw (d := '*') (by decide),
    word_ne_single hw (d := '/') (by decide), word_ne_single hw (d := '^') (by decide)]

theorem convertLoop_word {w : Str} (hw : isWord w = true) (rest stack output : List Str) :
    convertLoop (w :: rest) stack output = convertLoop rest stack (output ++ [w]) := by
  simp [convertLoop, word_ne_single hw (d := '+') (by decide),
    word_ne_single hw (d := '-') (by decide), word_ne_single hw (d := '*') (by decide),
    word_ne_single hw (d := '/') (by decide), word_ne_single hw (d := '^') (by decide),
    word_ne_single hw (d := '(') (by decide), word_ne_single hw (d := ')') (by decide)]

theorem calcLoop_word (L : Char → Bool) (vars : Store) {w : Str} (hw : isWord w = true)
    (rest : List Str) (stack : List Int) :
    calcLoop L vars (w :: rest) stack =
      match getNumFromString L vars w with
      | .error err => .error err
      | .ok val => calcLoop L vars rest (val :: stack) := by
  simp [calcLoop, isOperator_word hw]

theorem processInput_expression (L : Char → Bool) (vars : Store) (s : Str)
    (hpar : s.count '(' = s.count ')') (heq : '=' ∉ s) :
    processInput L vars s =
      (vars, some (printed (calculatePostfix L vars
        (infixToPostfix (Fields (normalizeOperators s))).1))) := by
  unfold processInput
  simp only [Count, hpar, ne_eq, not_true_eq_false, if_false, Contains]
  have : s.contains '=' = false := by simpa using heq
  simp only [this, Bool.false_eq_true, if_false]
  cases calculatePostfix L vars (infixToPostfix (Fields (normalizeOperators s))).1 <;> rfl

theorem word_ne_nil_all {w : Str} (hw : isWord w = true) :
    ∀ c ∈ w, isSpace c = false := fun c hc => ((isWord_iff w).mp hw c hc).1

theorem processInput_word (L : Char → Bool) (vars : Store) {w : Str} (hne : w ≠ [])
    (hw : isWord w = true) :
    processInput L vars w = (vars, some (printed (getNumFromString L vars w))) := by
  have hpar : w.count '(' = w.count ')' := by
    rw [List.count_eq_zero_of_not_mem (word_not_mem hw (by decide)),
      List.count_eq_zero_of_not_mem (word_not_mem hw (by decide))]
  rw [processInput_expression L vars w hpar (word_not_mem hw (by decide)),
    normalizeOperators_word hw, Fields_word w hne (word_ne_nil_all hw)]
  have h1 : infixToPostfix [w] = ([w], none) := by
    unfold infixToPostfix
    rw [convertLoop_word hw]
    simp [convertLoop, drainStack]
  rw [h1]
  unfold calculatePostfix
  rw [calcLoop_word L vars hw]
  cases getNumFromString L vars w <;> simp [calcLoop]

theorem letters_isWord {L : Char → Bool} (hL : LetterTable L) {v : Str}
    (hv : ∀ c ∈ v, L c = true) : isWord v = true :=
  (isWord_iff v).mpr
    (fun c hc => ⟨letter_not_space hL (hv c hc), letter_not_special hL (hv c hc)⟩)

theorem letters_isValidVariable {L : Char → Bool} {v : Str} (hv : ∀ c ∈ v, L c = true) :
    isValidVariable L v = true := by
  simp only [isValidVariable, List.all_eq_true, Bool.or_eq_true]
  exact fun c hc => Or.inl (hv c hc)

/-! ## Literals and `strconv.Atoi` -/

theorem digit_not_space {c : Char} (h : c.isDigit = true) : isSpace c = false := by
  simp only [Char.isDigit, Bool.and_eq_true, decide_eq_true_eq] at h
  have a1 : 48 ≤ c.val.toNat := h.1
  have a2 : c.val.toNat ≤ 57 := h.2
  cases hs : isSpace c
  · rfl
  · exfalso
    simp only [isSpace, Char.toNat, Bool.or_eq_true, Bool.and_eq_true,
      decide_eq_true_eq] at hs
    omega

theorem digit_ne {c d : Char} (h : c.isDigit = true) (hd : d.isDigit = false) : c ≠ d := by
  intro e
  rw [e, hd] at h
  exact Bool.noConfusion h

theorem digit_not_special {c : Char} (h : c.isDigit = true) : isSpecial c = false := by
  cases hs : isSpecial c
  · rfl
  · exfalso
    simp only [isSpecial, Bool.or_eq_true, decide_eq_true_eq] at hs
    rcases hs with ((((((((h1 | h1) | h1) | h1) | h1) | h1) | h1) | h1) | h1) <;>
      exact digit_ne h (by decide) h1

theorem digits_isWord {t : Str} (h : ∀ c ∈ t, c.isDigit = true) : isWord t = true :=
  (isWord_iff t).mpr (fun c hc => ⟨digit_not_space (h c hc), digit_not_special (h c hc)⟩)

theorem Atoi_unsigned (c : Char) (cs : Str) (h1 : c ≠ '-') (h2 : c ≠ '+') :
    Atoi (c :: cs) =
      if (c :: cs).all Char.isDigit = true ∧ digitsVal (c :: cs) < 2 ^ 63 then
        some (digitsVal (c :: cs) : Int)
      else none := by
  unfold Atoi
  simp only [h1, h2, or_self, if_false, List.cons_ne_nil, false_or]
  by_cases hd : (c :: cs).all Char.isDigit = true
  · simp only [hd, Bool.true_eq_false, if_false, true_and]
  · have hd' : (c :: cs).all Char.isDigit = false := by simpa using hd
    simp only [hd', if_true, Bool.false_eq_true, false_and, if_false]

theorem isDecimalLiteral_iff (t : Str) :
    isDecimalLiteral t = true ↔
      t ≠ [] ∧ (∀ c ∈ t, c.isDigit = true) ∧ digitsVal t < 2 ^ 63 := by
  simp [isDecimalLiteral, List.all_eq_true, and_assoc]

theorem Atoi_decimal {t : Str} (h : isDecimalLiteral t = true) :
    Atoi t = some (digitsVal t : Int) := by
  obtain ⟨hne, hd, hr⟩ := (isDecimalLiteral_iff t).mp h
  cases t with
  | nil => exact absurd rfl hne
  | cons c cs =>
    have hc : c.isDigit = true := hd c (by simp)
    rw [Atoi_unsigned c cs (digit_ne hc (by decide)) (digit_ne hc (by decide))]
    have hall : (c :: cs).all Char.isDigit = true := List.all_eq_true.mpr hd
    rw [if_pos ⟨hall, hr⟩]

theorem Atoi_word_not_decimal {t : Str} (hw : isWord t = true)
    (h : isDecimalLiteral t = false) : Atoi t = none := by
  cases t with
  | nil => rfl
  | cons c cs =>
    have h1 : c ≠ '-' := fun e => word_not_mem hw (d := '-') (by decide) (by simp [e])
    have h2 : c ≠ '+' := fun e => word_not_mem hw (d := '+') (by decide) (by simp [e])
    rw [Atoi_unsigned c cs h1 h2, if_neg]
    intro hh
    have : isDecimalLiteral (c :: cs) = true :=
      (isDecimalLiteral_iff _).mpr ⟨by simp, List.all_eq_true.mp hh.1, hh.2⟩
    rw [h] at this
    exact Bool.noConfusion this

theorem Atoi_signed {n : Str} (h : isIntLiteral n = true) :
    Atoi n = some (literalValue n) := by
  simp only [isIntLiteral, Bool.and_eq_true, decide_eq_true_eq, bne_iff_ne, ne_eq,
    Bool.not_eq_true, List.all_eq_true] at h
  obtain ⟨⟨⟨hne, hd⟩, hlo⟩, hhi⟩ := h
  cases n with
  | nil => simp [literalDigits] at hne
  | cons c cs =>
    by_cases hm : c = '-'
    · subst hm
      simp only [literalDigits, literalValue] at hne hd hlo hhi ⊢
      simp only [or_true, if_true] at hne hd hlo hhi
      have hall : cs.all Char.isDigit = true := List.all_eq_true.mpr hd
      have hne' : cs ≠ [] := by simpa using hne
      unfold Atoi
      simp only [true_or, if_true, hne', hall, Bool.true_eq_false, or_self, if_false]
      rw [if_pos]
      have : (digitsVal cs : Int) ≤ 2 ^ 63 := by omega
      exact_mod_cast this
    · by_cases hp : c = '+'
      · subst hp
        simp only [literalDigits, literalValue] at hne hd hlo hhi ⊢
        simp only [true_or, if_true, hm, if_false] at hne hd hlo hhi ⊢
        have hall : cs.all Char.isDigit = true := List.all_eq_true.mpr hd
        have hne' : cs ≠ [] := by simpa using hne
        unfold Atoi
        simp only [or_true, if_true, hne', hall, Bool.true_eq_false, or_self, if_false, hm]
        rw [if_pos]
        exact_mod_cast hhi
      · simp only [literalDigits, literalValue] at hne hd hlo hhi ⊢
        simp only [hm, hp, or_self, if_false] at hne hd hlo hhi ⊢
        rw [Atoi_unsigned c cs hm hp, if_pos]
        exact ⟨List.all_eq_true.mpr hd, by exact_mod_cast hhi⟩

/-! ## Operand resolution and assignment -/

theorem getNumFromString_variable (L : Char → Bool) (vars : Store) {v : Str}
    (hv : ∀ c ∈ v, L c = true) :
    getNumFromString L vars v =
      match vars v with
      | some num => .ok num
      | none => .error "unknown variable".toList := by
  simp [getNumFromString, letters_isValidVariable hv]

theorem isValidVariable_false (L : Char → Bool) {t : Str} {c : Char} (hc : c ∈ t)
    (h1 : L c = false) (h2 : isSpace c = false) : isValidVariable L t = false := by
  cases h : isValidVariable L t
  · rfl
  · exfalso
    simp only [isValidVariable, List.all_eq_true, Bool.or_eq_true] at h
    rcases h c hc with h | h
    · rw [h1] at h; exact Bool.noConfusion h
    · rw [h2] at h; exact Bool.noConfusion h

theorem digit_not_letter {L : Char → Bool} (hL : LetterTable L) {c : Char}
    (h : c.isDigit = true) : L c = false := by
  cases hl : L c
  · rfl
  · rw [letter_not_digit hL hl] at h
    exact Bool.noConfusion h

theorem getNumFromString_decimal {L : Char → Bool} (hL : LetterTable L) (vars : Store)
    {t : Str} (h : isDecimalLiteral t = true) :
    getNumFromString L vars t = .ok (digitsVal t : Int) := by
  obtain ⟨hne, hd, _⟩ := (isDecimalLiteral_iff t).mp h
  obtain ⟨c, hc⟩ := List.exists_mem_of_ne_nil t hne
  have hv := isValidVariable_false L hc (digit_not_letter hL (hd c hc))
    (digit_not_space (hd c hc))
  simp only [getNumFromString, hv, Bool.false_eq_true, if_false]
  rw [TrimSpace_word t (fun d hd' => digit_not_space (hd d hd')), Atoi_decimal h]

theorem intLiteral_chars {n : Str} (h : isIntLiteral n = true) :
    n ≠ [] ∧ (∀ c ∈ n, isSpace c = false ∧ c ≠ '=' ∧ c ≠ '(' ∧ c ≠ ')') ∧
      ∃ c ∈ n, c.isDigit = true := by
  simp only [isIntLiteral, Bool.and_eq_true, decide_eq_true_eq, bne_iff_ne, ne_eq,
    Bool.not_eq_true, List.all_eq_true] at h
  obtain ⟨⟨⟨hne, hd⟩, _⟩, _⟩ := h
  have hdig : ∀ c : Char, c.isDigit = true →
      isSpace c = false ∧ c ≠ '=' ∧ c ≠ '(' ∧ c ≠ ')' := fun c hc =>
    ⟨digit_not_space hc, digit_ne hc (by decide), digit_ne hc (by decide),
      digit_ne hc (by decide)⟩
  cases n with
  | nil => simp [literalDigits] at hne
  | cons c cs =>
    refine ⟨by simp, ?_, ?_⟩
    · intro d hmem
      by_cases hs : c = '+' ∨ c = '-'
      · simp only [literalDigits, hs, if_true] at hd
        rcases List.mem_cons.mp hmem with e | e
        · subst e
          rcases hs with hs | hs <;> subst hs <;> decide
        · exact hdig d (hd d e)
      · simp only [literalDigits, hs, if_false] at hd
        exact hdig d (hd d hmem)
    · by_cases hs : c = '+' ∨ c = '-'
      · simp only [literalDigits, hs, if_true] at hd hne
        obtain ⟨d, hmem⟩ := List.exists_mem_of_ne_nil cs (by simpa using hne)
        exact ⟨d, by simp [hmem], hd d hmem⟩
      · simp only [literalDigits, hs, if_false] at hd
        exact ⟨c, by simp, hd c (by simp)⟩

theorem getNumFromString_intLiteral {L : Char → Bool} (hL : LetterTable L) (vars : Store)
    {n : Str} (h : isIntLiteral n = true) :
    getNumFromString L vars n = .ok (literalValue n) := by
  obtain ⟨_, hch, c, hc, hcd⟩ := intLiteral_chars h
  have hv := isValidVariable_false L hc (digit_not_letter hL hcd) (digit_not_space hcd)
  simp only [getNumFromString, hv, Bool.false_eq_true, if_false]
  rw [TrimSpace_word n (fun d hd => (hch d hd).1), Atoi_signed h]

theorem processInput_assignment (L : Char → Bool) (vars : Store) (s : Str)
    (hpar : s.count '(' = s.count ')') (heq : '=' ∈ s) :
    processInput L vars s = handleAssignment L vars s := by
  unfold processInput
  simp only [Count, hpar, ne_eq, not_true_eq_false, if_false, Contains]
  have : s.contains '=' = true := by simpa using heq
  simp only [this, if_true]

theorem handleAssignment_ok (L : Char → Bool) (vars : Store) (lhs rhs : Str) (value : Int)
    (hl : '=' ∉ lhs) (hr : '=' ∉ rhs)
    (hk : isValidVariable L (TrimSpace lhs) = true)
    (hv : getNumFromString L vars (TrimSpace rhs) = .ok value) :
    handleAssignment L vars (lhs ++ '=' :: rhs) = (vars.set (TrimSpace lhs) value, none) := by
  unfold handleAssignment
  rw [Split_first lhs rhs '=' hl, Split_absent rhs '=' hr]
  simp only [hk, Bool.true_eq_false, if_false, hv]

theorem handleAssignment_invalid (L : Char → Bool) (vars : Store) (lhs rhs : Str)
    (hl : '=' ∉ lhs)
    (h : '=' ∈ rhs ∨ isValidVariable L (TrimSpace lhs) = false ∨
      ∃ err, getNumFromString L vars (TrimSpace rhs) = .error err) :
    handleAssignment L vars (lhs ++ '=' :: rhs) = (vars, some "Invalid assignment".toList) := by
  unfold handleAssignment
  rw [Split_first lhs rhs '=' hl]
  by_cases hr : '=' ∈ rhs
  · have hlen := Split_length_of_mem rhs '=' hr
    cases hs : Split rhs '=' with
    | nil => simp [hs] at hlen
    | cons p ps =>
      cases ps with
      | nil => simp [hs] at hlen
      | cons q qs => rfl
  · rw [Split_absent rhs '=' hr]
    rcases h with h | h | ⟨err, h⟩
    · exact absurd h hr
    · simp only [h, if_true]
    · by_cases hk : isValidVariable L (TrimSpace lhs) = false
      · simp only [hk, if_true]
      · simp only [hk, if_false, h, Bool.true_eq_false]

/-! ## Expressions: text and tokens -/

theorem replaceFrom_absent_append (x : Char) (old new : Str) (w rest : Str) (h : x ∉ w) :
    replaceFrom (x :: old) new 0 (w ++ rest) = w ++ replaceFrom (x :: old) new 0 rest := by
  induction w with
  | nil => rfl
  | cons c cs ih =>
    have hc : x ≠ c := fun e => h (by simp [e])
    have hcs : x ∉ cs := fun e => h (by simp [e])
    simp [replaceFrom, List.isPrefixOf, hc, ih hcs]

theorem replaceFrom_skip_first (x : Char) (old new : Str) (c : Char) (cs : Str) (h : c ≠ x) :
    replaceFrom (x :: old) new 0 (c :: cs) = c :: replaceFrom (x :: old) new 0 cs := by
  have hc : x ≠ c := fun e => h e.symm
  simp [replaceFrom, List.isPrefixOf, hc]

theorem replaceFrom_skip_second (x y : Char) (old new : Str) (c d : Char) (ds : Str)
    (h : d ≠ y) :
    replaceFrom (x :: y :: old) new 0 (c :: d :: ds) =
      c :: replaceFrom (x :: y :: old) new 0 (d :: ds) := by
  have hd : y ≠ d := fun e => h e.symm
  simp [replaceFrom, List.isPrefixOf, hd]

theorem text_lit (d : Str) : (Expr.lit d).text = d := by
  simp [Expr.text, Expr.tokens]

theorem text_var (v : Str) : (Expr.var v).text = v := by
  simp [Expr.text, Expr.tokens]

theorem text_paren (e : Expr) : (Expr.paren e).text = '(' :: (e.text ++ [')']) := by
  simp [Expr.text, Expr.tokens]

theorem text_bin (op : Op) (l r : Expr) :
    (Expr.bin op l r).text = l.text ++ op.symbol :: r.text := by
  simp [Expr.text, Expr.tokens, Op.token]

theorem lit_word {L : Char → Bool} {vars : Store} {d : Str}
    (h : (Expr.lit d).operandsOK L vars = true) : d ≠ [] ∧ isWord d = true := by
  have h' : isDecimalLiteral d = true := h
  obtain ⟨hne, hd, _⟩ := (isDecimalLiteral_iff d).mp h'
  exact ⟨hne, digits_isWord hd⟩

theorem var_ok {L : Char → Bool} {vars : Store} {v : Str}
    (h : (Expr.var v).operandsOK L vars = true) :
    v ≠ [] ∧ (∀ c ∈ v, L c = true) ∧ (vars v).isSome = true := by
  simpa [Expr.operandsOK, List.all_eq_true, and_assoc] using h

theorem var_word {L : Char → Bool} (hL : LetterTable L) {vars : Store} {v : Str}
    (h : (Expr.var v).operandsOK L vars = true) : v ≠ [] ∧ isWord v = true :=
  ⟨(var_ok h).1, letters_isWord hL (var_ok h).2.1⟩

theorem operandsOK_bin {L : Char → Bool} {vars : Store} {op : Op} {l r : Expr}
    (h : (Expr.bin op l r).operandsOK L vars = true) :
    l.operandsOK L vars = true ∧ r.operandsOK L vars = true := by
  simpa [Expr.operandsOK] using h

theorem symbol_special (op : Op) : isSpecial op.symbol = true := by
  cases op <;> decide

theorem text_head {L : Char → Bool} (hL : LetterTable L) {vars : Store} (e : Expr)
    (h : e.operandsOK L vars = true) : ∃ c cs, e.text = c :: cs ∧ c ≠ '-' := by
  induction e with
  | lit d =>
    obtain ⟨hne, hw⟩ := lit_word h
    cases d with
    | nil => exact absurd rfl hne
    | cons c cs =>
      exact ⟨c, cs, text_lit _, fun e => word_not_mem hw (d := '-') (by decide) (by simp [e])⟩
  | var v =>
    obtain ⟨hne, hw⟩ := var_word hL h
    cases v with
    | nil => exact absurd rfl hne
    | cons c cs =>
      exact ⟨c, cs, text_var _, fun e => word_not_mem hw (d := '-') (by decide) (by simp [e])⟩
  | paren e _ => exact ⟨'(', e.text ++ [')'], text_paren e, by decide⟩
  | bin op l r ihl _ =>
    obtain ⟨c, cs, hc, hne⟩ := ihl (operandsOK_bin h).1
    exact ⟨c, cs ++ op.symbol :: r.text, by rw [text_bin, hc]; rfl, hne⟩

theorem replaceFrom_text {L : Char → Bool} (hL : LetterTable L) {vars : Store} (old new : Str)
    (e : Expr) (h : e.operandsOK L vars = true) (rest : Str) :
    replaceFrom ('-' :: '-' :: old) new 0 (e.text ++ rest) =
      e.text ++ replaceFrom ('-' :: '-' :: old) new 0 rest := by
  induction e generalizing rest with
  | lit d =>
    rw [text_lit]
    exact replaceFrom_absent_append _ _ _ _ _ (word_not_mem (lit_word h).2 (by decide))
  | var v =>
    rw [text_var]
    exact replaceFrom_absent_append _ _ _ _ _ (word_not_mem (var_word hL h).2 (by decide))
  | paren e ih =>
    have h' : e.operandsOK L vars = true := h
    rw [text_paren]
    simp only [List.cons_append, List.append_assoc, List.singleton_append]
    rw [replaceFrom_skip_first _ _ _ _ _ (by decide), ih h',
      replaceFrom_skip_first _ _ _ _ _ (by decide)]
    rfl
  | bin op l r ihl ihr =>
    obtain ⟨hl, hr⟩ := operandsOK_bin h
    obtain ⟨c, cs, hc, hne⟩ := text_head hL r hr
    rw [text_bin]
    simp only [List.cons_append, List.append_assoc]
    rw [ihl hl]
    have step : replaceFrom ('-' :: '-' :: old) new 0 (op.symbol :: (r.text ++ rest)) =
        op.symbol :: replaceFrom ('-' :: '-' :: old) new 0 (r.text ++ rest) := by
      rw [hc]
      exact replaceFrom_skip_second _ _ _ _ _ _ _ hne
    rw [step, ihr hr]

theorem collapseMinus_text {L : Char → Bool} (hL : LetterTable L) {vars : Store}
    (e : Expr) (h : e.operandsOK L vars = true) : collapseMinus e.text = e.text := by
  have key : ∀ old new : Str, ReplaceAll e.text ('-' :: '-' :: old) new = e.text := by
    intro old new
    have := replaceFrom_text hL old new e h []
    simp only [List.append_nil] at this
    simp only [ReplaceAll, List.cons_ne_nil, if_false, this]
    simp [replaceFrom]
  unfold collapseMinus
  rw [key, key]

theorem fieldsFrom_padded (c : Char) (hc : isSpace c = false) (cs : Str) :
    fieldsFrom [] (' ' :: c :: ' ' :: cs) = [c] :: fieldsFrom [] cs := by
  simp [fieldsFrom, isSpace, hc]
  simpa [isSpace] using hc

theorem fieldsFrom_word_then (w : Str) (hne : w ≠ []) (hw : isWord w = true) (rest : Str)
    (hrest : rest = [] ∨ ∃ r, rest = ' ' :: r) :
    fieldsFrom [] (w ++ rest) = w :: fieldsFrom [] rest := by
  rw [fieldsFrom_word w (word_ne_nil_all hw) [] rest]
  rcases hrest with h | ⟨r, h⟩
  · subst h
    simp [fieldsFrom, hne]
  · subst h
    simp [fieldsFrom, isSpace, hne]

theorem padChar_special {c : Char} (h : isSpecial c = true) (hc : c ≠ ' ') :
    padChar c = [' ', c, ' '] := by
  unfold padChar
  rw [if_pos]
  simp only [isSpecial, Bool.or_eq_true, decide_eq_true_eq] at h
  tauto

theorem symbol_not_space (op : Op) : isSpace op.symbol = false ∧ op.symbol ≠ ' ' := by
  cases op <;> decide

theorem Fields_text {L : Char → Bool} (hL : LetterTable L) {vars : Store} (e : Expr)
    (h : e.operandsOK L vars = true) (rest : Str) (hrest : rest = [] ∨ ∃ r, rest = ' ' :: r) :
    fieldsFrom [] (e.text.flatMap padChar ++ rest) = e.tokens ++ fieldsFrom [] rest := by
  induction e generalizing rest with
  | lit d =>
    obtain ⟨hne, hw⟩ := lit_word h
    rw [text_lit, flatMap_padChar_word hw, fieldsFrom_word_then d hne hw rest hrest]
    rfl
  | var v =>
    obtain ⟨hne, hw⟩ := var_word hL h
    rw [text_var, flatMap_padChar_word hw, fieldsFrom_word_then v hne hw rest hrest]
    rfl
  | paren e ih =>
    have h' : e.operandsOK L vars = true := h
    rw [text_paren]
    simp only [List.flatMap_cons, List.flatMap_append, List.flatMap_nil, List.append_nil,
      padChar_special (c := '(') (by decide) (by decide),
      padChar_special (c := ')') (by decide) (by decide), List.cons_append, List.nil_append,
      List.append_assoc]
    rw [fieldsFrom_padded '(' (by decide), ih h' _ (Or.inr ⟨_, rfl⟩),
      fieldsFrom_padded ')' (by decide)]
    simp [Expr.tokens]
  | bin op l r ihl ihr =>
    obtain ⟨hl, hr⟩ := operandsOK_bin h
    rw [text_bin]
    simp only [List.flatMap_cons, List.flatMap_append,
      padChar_special (symbol_special op) (symbol_not_space op).2, List.cons_append,
      List.nil_append, List.append_assoc]
    rw [ihl hl _ (Or.inr ⟨_, rfl⟩), fieldsFrom_padded _ (symbol_not_space op).1,
      ihr hr rest hrest]
    simp [Expr.tokens, Op.token]

/-! ## The converter on a parse tree -/

theorem precOf_token (op : Op) : precOf op.token = op.prec := by
  cases op <;> rfl

theorem token_ne_lparen (op : Op) : op.token ≠ ['('] := by
  cases op <;> decide

theorem convertLoop_lparen (rest stack output : List Str) :
    convertLoop (['('] :: rest) stack output = convertLoop rest (['('] :: stack) output := by
  simp [convertLoop]

theorem convertLoop_rparen (rest stack output : List Str) :
    convertLoop ([')'] :: rest) stack output =
      convertLoop rest (popToParen stack output).1.tail (popToParen stack output).2 := by
  simp [convertLoop]

theorem convertLoop_op (op : Op) (rest stack output : List Str) :
    convertLoop (op.token :: rest) stack output =
      convertLoop rest (op.token :: (popOperators op.token stack output).1)
        (popOperators op.token stack output).2 := by
  cases op <;> simp [convertLoop, Op.token, Op.symbol]

theorem pending_ops (e : Expr) (p : Nat) (h : e.fits p = true) :
    ∀ t ∈ e.pending, ∃ o : Op, t = o.token ∧ p ≤ o.prec := by
  induction e generalizing p with
  | lit d => simp [Expr.pending]
  | var v => simp [Expr.pending]
  | paren e _ => simp [Expr.pending]
  | bin op l r _ ihr =>
    simp only [Expr.fits, Bool.and_eq_true, decide_eq_true_eq] at h
    obtain ⟨⟨hp, _⟩, hr⟩ := h
    intro t ht
    simp only [Expr.pending, List.mem_append, List.mem_singleton] at ht
    rcases ht with ht | ht
    · obtain ⟨o, ho, hle⟩ := ihr _ hr t ht
      exact ⟨o, ho, by omega⟩
    · exact ⟨op, ht, hp⟩

theorem stackBelow_mono {p q : Nat} (hpq : p ≤ q) {stack : List Str}
    (h : stackBelow p stack) : stackBelow q stack := by
  cases stack with
  | nil => trivial
  | cons top st => exact Nat.lt_of_lt_of_le h hpq

theorem popOperators_stop (token : Str) (stack output : List Str)
    (h : stackBelow (precOf token) stack) :
    popOperators token stack output = (stack, output) := by
  cases stack with
  | nil => rfl
  | cons top st =>
    have h' : precOf top < precOf token := h
    have : ¬ (precOf token ≤ precOf top ∧ top ≠ ['(']) := fun hh => by omega
    simp only [popOperators, this, if_false]

theorem popOperators_pending (op : Op) (ps stack output : List Str)
    (hps : ∀ t ∈ ps, ∃ o : Op, t = o.token ∧ op.prec ≤ o.prec)
    (hst : stackBelow op.prec stack) :
    popOperators op.token (ps ++ stack) output = (stack, output ++ ps) := by
  induction ps generalizing output with
  | nil =>
    simp only [List.nil_append, List.append_nil]
    exact popOperators_stop _ _ _ (by rw [precOf_token]; exact hst)
  | cons t ts ih =>
    obtain ⟨o, ho, hle⟩ := hps t (by simp)
    have hcond : precOf op.token ≤ precOf t ∧ t ≠ ['('] := by
      rw [ho, precOf_token, precOf_token]
      exact ⟨hle, token_ne_lparen o⟩
    rw [List.cons_append, popOperators, if_pos hcond,
      ih _ (fun u hu => hps u (by simp [hu]))]
    simp

theorem popToParen_pending (ps stack output : List Str)
    (hps : ∀ t ∈ ps, ∃ o : Op, t = o.token) :
    popToParen (ps ++ ['('] :: stack) output = (['('] :: stack, output ++ ps) := by
  induction ps generalizing output with
  | nil => simp [popToParen]
  | cons t ts ih =>
    obtain ⟨o, ho⟩ := hps t (by simp)
    have hne : t ≠ ['('] := ho ▸ token_ne_lparen o
    rw [List.cons_append, popToParen, if_pos hne, ih _ (fun u hu => hps u (by simp [hu]))]
    simp

theorem drainStack_pending (ps output : List Str) (hps : ∀ t ∈ ps, ∃ o : Op, t = o.token) :
    drainStack ps output = (output ++ ps, none) := by
  induction ps generalizing output with
  | nil => simp [drainStack]
  | cons t ts ih =>
    obtain ⟨o, ho⟩ := hps t (by simp)
    have hne : t ≠ ['('] := ho ▸ token_ne_lparen o
    simp only [drainStack, hne, if_false]
    rw [ih _ (fun u hu => hps u (by simp [hu]))]
    simp

theorem emitted_pending (e : Expr) : e.emitted ++ e.pending = e.rpn := by
  induction e with
  | lit d => rfl
  | var v => rfl
  | paren e _ => simp [Expr.emitted, Expr.pending, Expr.rpn]
  | bin op l r _ ihr =>
    simp only [Expr.emitted, Expr.pending, Expr.rpn, List.append_assoc]
    rw [← List.append_assoc r.emitted, ihr]

theorem convertLoop_expr {L : Char → Bool} (hL : LetterTable L) {vars : Store} (e : Expr)
    (hok : e.operandsOK L vars = true) (p : Nat) (hfit : e.fits p = true)
    (rest stack output : List Str) (hst : stackBelow p stack) :
    convertLoop (e.tokens ++ rest) stack output =
      convertLoop rest (e.pending ++ stack) (output ++ e.emitted) := by
  induction e generalizing p rest stack output with
  | lit d =>
    simp only [Expr.tokens, List.singleton_append, Expr.pending, Expr.emitted, List.nil_append]
    exact convertLoop_word (lit_word hok).2 _ _ _
  | var v =>
    simp only [Expr.tokens, List.singleton_append, Expr.pending, Expr.emitted, List.nil_append]
    exact convertLoop_word (var_word hL hok).2 _ _ _
  | paren e ih =>
    have hok' : e.operandsOK L vars = true := hok
    have hfit' : e.fits 1 = true := hfit
    simp only [Expr.tokens, List.cons_append, List.append_assoc, List.singleton_append,
      Expr.pending, Expr.emitted, List.nil_append]
    rw [convertLoop_lparen, ih hok' 1 hfit' _ _ _ (by simp [stackBelow, precOf, precedence]),
      convertLoop_rparen,
      popToParen_pending _ _ _ (fun t ht => by
        obtain ⟨o, ho, _⟩ := pending_ops e 1 hfit' t ht
        exact ⟨o, ho⟩)]
    simp only [List.tail_cons, List.append_assoc, emitted_pending]
  | bin op l r ihl ihr =>
    obtain ⟨hl, hr⟩ := operandsOK_bin hok
    simp only [Expr.fits, Bool.and_eq_true, decide_eq_true_eq] at hfit
    obtain ⟨⟨hp, hfl⟩, hfr⟩ := hfit
    simp only [Expr.tokens, List.append_assoc, List.cons_append, Expr.pending, Expr.emitted]
    rw [ihl hl op.prec hfl _ _ _ (stackBelow_mono hp hst), convertLoop_op,
      popOperators_pending op _ _ _ (pending_ops l op.prec hfl) (stackBelow_mono hp hst)]
    simp only []
    rw [ihr hr (op.prec + 1) hfr _ _ _
      (by simp only [stackBelow, precOf_token]; omega)]
    simp only [List.append_assoc, List.singleton_append, emitted_pending, List.nil_append]

theorem infixToPostfix_expr {L : Char → Bool} (hL : LetterTable L) {vars : Store} (e : Expr)
    (hok : e.operandsOK L vars = true) (hfit : e.fits 1 = true) :
    infixToPostfix e.tokens = (e.rpn, none) := by
  unfold infixToPostfix
  have := convertLoop_expr hL e hok 1 hfit [] [] [] trivial
  simp only [List.append_nil, List.nil_append] at this
  rw [this]
  simp only [convertLoop]
  rw [drainStack_pending _ _ (fun t ht => by
    obtain ⟨o, ho, _⟩ := pending_ops e 1 hfit t ht
    exact ⟨o, ho⟩), emitted_pending]

/-! ## The evaluator on a parse tree -/

theorem calcLoop_op (L : Char → Bool) (vars : Store) (op : Op) (rest : List Str)
    (a b : Int) (below : List Int) :
    calcLoop L vars (op.token :: rest) (b :: a :: below) =
      match op with
      | .add => calcLoop L vars rest (wrap (a + b) :: below)
      | .sub => calcLoop L vars rest (wrap (a - b) :: below)
      | .mul => calcLoop L vars rest (wrap (a * b) :: below)
      | .div =>
        if b = 0 then .error "division by zero".toList
        else calcLoop L vars rest (wrap (Int.tdiv a b) :: below)
      | .pow => .error "invalid operator ^".toList := by
  cases op <;> simp [calcLoop, isOperator, precedence, Op.token, Op.symbol]

theorem calcLoop_rpn {L : Char → Bool} (hL : LetterTable L) (vars : Store) (e : Expr)
    (hok : e.operandsOK L vars = true) (rest : List Str) (stack : List Int) :
    calcLoop L vars (e.rpn ++ rest) stack =
      match e.outcome vars with
      | .error err => .error err
      | .ok v => calcLoop L vars rest (v :: stack) := by
  induction e generalizing rest stack with
  | lit d =>
    have hd : isDecimalLiteral d = true := hok
    simp only [Expr.rpn, List.singleton_append, Expr.outcome]
    rw [calcLoop_word L vars (lit_word hok).2, getNumFromString_decimal hL vars hd]
  | var v =>
    obtain ⟨_, hv, hsome⟩ := var_ok hok
    obtain ⟨x, hx⟩ := Option.isSome_iff_exists.mp hsome
    simp only [Expr.rpn, List.singleton_append, Expr.outcome]
    rw [calcLoop_word L vars (var_word hL hok).2, getNumFromString_variable L vars hv, hx]
    rfl
  | paren e ih =>
    have hok' : e.operandsOK L vars = true := hok
    simpa [Expr.rpn, Expr.outcome] using ih hok' rest stack
  | bin op l r ihl ihr =>
    obtain ⟨hl, hr⟩ := operandsOK_bin hok
    simp only [Expr.rpn, List.append_assoc, List.singleton_append, Expr.outcome]
    rw [ihl hl]
    cases hlo : l.outcome vars with
    | error err => rfl
    | ok a =>
      simp only []
      rw [ihr hr]
      cases hro : r.outcome vars with
      | error err => rfl
      | ok b =>
        simp only []
        rw [calcLoop_op]
        cases op <;> simp only []
        split <;> rfl

theorem calculatePostfix_expr {L : Char → Bool} (hL : LetterTable L) (vars : Store)
    (e : Expr) (hok : e.operandsOK L vars = true) :
    calculatePostfix L vars e.rpn = e.outcome vars := by
  unfold calculatePostfix
  have := calcLoop_rpn hL vars e hok [] []
  simp only [List.append_nil] at this
  rw [this]
  cases e.outcome vars <;> simp [calcLoop]

/-! ## The whole pipeline on a well-formed expression -/

theorem text_chars {L : Char → Bool} (hL : LetterTable L) {vars : Store} (e : Expr)
    (hok : e.operandsOK L vars = true) :
    '=' ∉ e.text ∧ ' ' ∉ e.text ∧ e.text.count '(' = e.text.count ')' := by
  induction e with
  | lit d =>
    have hw := (lit_word hok).2
    rw [text_lit]
    exact ⟨word_not_mem hw (by decide), word_not_mem hw (by decide), by
      rw [List.count_eq_zero_of_not_mem (word_not_mem hw (by decide)),
        List.count_eq_zero_of_not_mem (word_not_mem hw (by decide))]⟩
  | var v =>
    have hw := (var_word hL hok).2
    rw [text_var]
    exact ⟨word_not_mem hw (by decide), word_not_mem hw (by decide), by
      rw [List.count_eq_zero_of_not_mem (word_not_mem hw (by decide)),
        List.count_eq_zero_of_not_mem (word_not_mem hw (by decide))]⟩
  | paren e ih =>
    have hok' : e.operandsOK L vars = true := hok
    obtain ⟨h1, h2, h3⟩ := ih hok'
    rw [text_paren]
    refine ⟨?_, ?_, ?_⟩
    · simp only [List.mem_cons, List.mem_append, List.mem_singleton, not_or]
      exact ⟨by decide, h1, by decide, List.not_mem_nil _⟩
    · simp only [List.mem_cons, List.mem_append, List.mem_singleton, not_or]
      exact ⟨by decide, h2, by decide, List.not_mem_nil _⟩
    · simp [List.count_cons, List.count_append, h3]
  | bin op l r ihl ihr =>
    obtain ⟨hl, hr⟩ := operandsOK_bin hok
    obtain ⟨l1, l2, l3⟩ := ihl hl
    obtain ⟨r1, r2, r3⟩ := ihr hr
    rw [text_bin]
    refine ⟨?_, ?_, ?_⟩
    · simp only [List.mem_append, List.mem_cons, not_or]
      exact ⟨l1, by cases op <;> decide, r1⟩
    · simp only [List.mem_append, List.mem_cons, not_or]
      exact ⟨l2, by cases op <;> decide, r2⟩
    · have a1 : [op.symbol].count '(' = 0 := by cases op <;> decide
      have a2 : [op.symbol].count ')' = 0 := by cases op <;> decide
      have e1 : l.text ++ op.symbol :: r.text = l.text ++ ([op.symbol] ++ r.text) := rfl
      rw [e1, List.count_append, List.count_append, List.count_append, List.count_append,
        a1, a2, l3, r3]

theorem filter_count (s : Str) (c : Char) (hc : c ≠ ' ') :
    (s.filter (fun x => x != ' ')).count c = s.count c := by
  induction s with
  | nil => rfl
  | cons x xs ih =>
    by_cases hx : x = ' '
    · subst hx
      have : (' ' == c) = false := by simpa using fun e : ' ' = c => hc e.symm
      simp [List.filter_cons, List.count_cons, ih, this]
    · simp [List.filter_cons, hx, List.count_cons, ih]

theorem filter_mem (s : Str) (c : Char) (hc : c ≠ ' ') :
    c ∈ s.filter (fun x => x != ' ') ↔ c ∈ s := by
  simp [List.mem_filter, hc]

/-- On a line that is a well-formed expression with spaces placed anywhere,
`processInput` prints the outcome of evaluating the parse tree. -/
theorem processInput_expr {L : Char → Bool} (hL : LetterTable L) (vars : Store) (e : Expr)
    (hok : e.operandsOK L vars = true) (hfit : e.fits 1 = true) (s : Str)
    (hs : s.filter (fun c => c != ' ') = e.text) :
    processInput L vars s = (vars, some (printed (e.outcome vars))) := by
  obtain ⟨h1, _, h3⟩ := text_chars hL e hok
  have hpar : s.count '(' = s.count ')' := by
    rw [← filter_count s '(' (by decide), ← filter_count s ')' (by decide), hs, h3]
  have heq : '=' ∉ s := fun hmem => h1 (hs ▸ (filter_mem s '=' (by decide)).mpr hmem)
  rw [processInput_expression L vars s hpar heq, normalizeOperators_eq, hs,
    collapseMinus_text hL e hok]
  have hf : Fields (e.text.flatMap padChar) = e.tokens := by
    have := Fields_text hL e hok [] (Or.inl rfl)
    simpa [Fields, fieldsFrom] using this
  rw [hf, infixToPostfix_expr hL e hok hfit, calculatePostfix_expr hL vars e hok]

/-! ## The reference evaluator and the printed text -/

theorem outcome_fourOps {L : Char → Bool} (vars : Store) (e : Expr)
    (hok : e.operandsOK L vars = true) (h4 : e.fourOps = true) :
    e.outcome vars =
      match e.value vars with
      | some v => .ok v
      | none => .error "division by zero".toList := by
  induction e with
  | lit d => rfl
  | var v =>
    obtain ⟨x, hx⟩ := Option.isSome_iff_exists.mp (var_ok hok).2.2
    simp [Expr.outcome, Expr.value, hx]
  | paren e ih =>
    have hok' : e.operandsOK L vars = true := hok
    have h4' : e.fourOps = true := h4
    simpa [Expr.outcome, Expr.value] using ih hok' h4'
  | bin op l r ihl ihr =>
    obtain ⟨hl, hr⟩ := operandsOK_bin hok
    simp only [Expr.fourOps, Bool.and_eq_true, decide_eq_true_eq] at h4
    obtain ⟨⟨hop, h4l⟩, h4r⟩ := h4
    simp only [Expr.outcome, Expr.value, ihl hl h4l, ihr hr h4r]
    cases l.value vars with
    | none => rfl
    | some a =>
      cases r.value vars with
      | none => rfl
      | some b =>
        cases op with
        | add => rfl
        | sub => rfl
        | mul => rfl
        | div =>
          by_cases hb : b = 0
          · simp [Op.apply, hb]
          · simp [Op.apply, hb]
        | pow => exact absurd rfl hop

theorem dividesByZero_iff {L : Char → Bool} (vars : Store) (e : Expr)
    (hok : e.operandsOK L vars = true) (h4 : e.fourOps = true) :
    e.dividesByZero vars = true ↔ e.value vars = none := by
  induction e with
  | lit d => simp [Expr.dividesByZero, Expr.value]
  | var v =>
    obtain ⟨x, hx⟩ := Option.isSome_iff_exists.mp (var_ok hok).2.2
    simp [Expr.dividesByZero, Expr.value, hx]
  | paren e ih =>
    have hok' : e.operandsOK L vars = true := hok
    have h4' : e.fourOps = true := h4
    simpa [Expr.dividesByZero, Expr.value] using ih hok' h4'
  | bin op l r ihl ihr =>
    obtain ⟨hl, hr⟩ := operandsOK_bin hok
    simp only [Expr.fourOps, Bool.and_eq_true, decide_eq_true_eq] at h4
    obtain ⟨⟨hop, h4l⟩, h4r⟩ := h4
    have il := ihl hl h4l
    have ir := ihr hr h4r
    simp only [Expr.dividesByZero, Expr.value, Bool.or_eq_true, Bool.and_eq_true,
      decide_eq_true_eq, il, ir]
    cases hlv : l.value vars with
    | none => simp
    | some a =>
      cases hrv : r.value vars with
      | none => simp
      | some b =>
        cases op with
        | add => simp [Op.apply]
        | sub => simp [Op.apply]
        | mul => simp [Op.apply]
        | div =>
          by_cases hb : b = 0
          · simp [Op.apply, hb]
          · simp [Op.apply, hb]
        | pow => exact absurd rfl hop

theorem digitChar_isDigit (n : Nat) (h : n < 10) : (Nat.digitChar n).isDigit = true := by
  interval_cases n <;> rfl

theorem toDigitsCore_digits (fuel n : Nat) (ds : List Char)
    (hds : ∀ c ∈ ds, c.isDigit = true) :
    ∀ c ∈ Nat.toDigitsCore 10 fuel n ds, c.isDigit = true := by
  induction fuel generalizing n ds with
  | zero => simpa [Nat.toDigitsCore] using hds
  | succ f ih =>
    have hd : (Nat.digitChar (n % 10)).isDigit = true :=
      digitChar_isDigit _ (Nat.mod_lt _ (by decide))
    have hds' : ∀ c ∈ Nat.digitChar (n % 10) :: ds, c.isDigit = true := by
      intro c hc
      rcases List.mem_cons.mp hc with e | e
      · rw [e]; exact hd
      · exact hds c e
    simp only [Nat.toDigitsCore]
    split
    · exact hds'
    · exact ih _ _ hds'

theorem formatInt_chars (n : Int) : ∀ c ∈ formatInt n, c = '-' ∨ c.isDigit = true := by
  intro c hc
  unfold formatInt at hc
  split at hc
  · rcases List.mem_cons.mp hc with e | e
    · exact Or.inl e
    · exact Or.inr (toDigitsCore_digits _ _ [] (by simp) c e)
  · exact Or.inr (toDigitsCore_digits _ _ [] (by simp) c hc)

theorem formatInt_ne_division (n : Int) : formatInt n ≠ "division by zero".toList := by
  intro h
  have hd : 'd' ∈ formatInt n := by rw [h]; decide
  rcases formatInt_chars n 'd' hd with e | e
  · revert e; decide
  · revert e; decide

/-! ## Minus runs -/

theorem replicate_minus_cons (k : Nat) (cs : Str) :
    List.replicate k '-' ++ '-' :: cs = List.replicate (k + 1) '-' ++ cs := by
  induction k with
  | zero => rfl
  | succ n ih =>
    simp only [List.replicate_succ, List.cons_append] at ih ⊢
    rw [ih]

theorem collapseMinus_run_then (k : Nat) (hk : k ≤ 3) (c : Char) (hc : c ≠ '-') (cs : Str) :
    collapseMinus (List.replicate k '-' ++ c :: cs) = emitRun k ++ c :: collapseMinus cs := by
  have hc' : '-' ≠ c := fun e => hc e.symm
  interval_cases k <;>
    simp [collapseMinus, ReplaceAll, replaceFrom, List.isPrefixOf, hc, hc', emitRun,
      List.replicate]

theorem collapseMinus_runs (t : Str) (k : Nat) (h : runsAtMost 3 k t = true) :
    collapseMinus (List.replicate k '-' ++ t) = collapseRunsFrom k t := by
  induction t generalizing k with
  | nil =>
    have hk : k ≤ 3 := by simpa [runsAtMost] using h
    interval_cases k <;> rfl
  | cons c cs ih =>
    by_cases hc : c = '-'
    · subst hc
      have h' : runsAtMost 3 (k + 1) cs = true := by simpa [runsAtMost] using h
      rw [replicate_minus_cons, ih _ h']
      simp [collapseRunsFrom]
    · simp only [runsAtMost, hc, if_false, Bool.and_eq_true, decide_eq_true_eq] at h
      rw [collapseMinus_run_then k h.1 c hc cs]
      have := ih 0 h.2
      simp only [List.replicate_zero, List.nil_append] at this
      rw [this]
      simp [collapseRunsFrom, hc]

theorem runsAtMost_mono {m n : Nat} (hmn : m ≤ n) (t : Str) (k : Nat)
    (h : runsAtMost m k t = true) : runsAtMost n k t = true := by
  induction t generalizing k with
  | nil =>
    have : k ≤ m := by simpa [runsAtMost] using h
    simp only [runsAtMost, decide_eq_true_eq]
    omega
  | cons c cs ih =>
    by_cases hc : c = '-'
    · simp only [runsAtMost, hc, if_true] at h ⊢
      exact ih _ h
    · simp only [runsAtMost, hc, if_false, Bool.and_eq_true, decide_eq_true_eq] at h ⊢
      exact ⟨by omega, ih _ h.2⟩

theorem collapseRunsFrom_single (t : Str) (k : Nat) (h : runsAtMost 1 k t = true) :
    collapseRunsFrom k t = List.replicate k '-' ++ t := by
  induction t generalizing k with
  | nil =>
    have hk : k ≤ 1 := by simpa [runsAtMost] using h
    interval_cases k <;> rfl
  | cons c cs ih =>
    by_cases hc : c = '-'
    · subst hc
      have h' : runsAtMost 1 (k + 1) cs = true := by simpa [runsAtMost] using h
      rw [replicate_minus_cons, ← ih _ h']
      simp [collapseRunsFrom]
    · simp only [runsAtMost, hc, if_false, Bool.and_eq_true, decide_eq_true_eq] at h
      have := ih 0 h.2
      simp only [List.replicate_zero, List.nil_append] at this
      simp only [collapseRunsFrom, hc, if_false, this]
      have hk := h.1
      interval_cases k <;> rfl

theorem runsAtMost_emit (k : Nat) (hk : k ≤ 3) (c : Char) (hc : c ≠ '-') (rest : Str)
    (h : runsAtMost 1 0 rest = true) : runsAtMost 1 0 (emitRun k ++ c :: rest) = true := by
  interval_cases k <;> simp [emitRun, runsAtMost, hc, h]

theorem collapseRunsFrom_runs (t : Str) (k : Nat) (h : runsAtMost 3 k t = true) :
    runsAtMost 1 0 (collapseRunsFrom k t) = true := by
  induction t generalizing k with
  | nil =>
    have hk : k ≤ 3 := by simpa [runsAtMost] using h
    interval_cases k <;> rfl
  | cons c cs ih =>
    by_cases hc : c = '-'
    · subst hc
      have h' : runsAtMost 3 (k + 1) cs = true := by simpa [runsAtMost] using h
      simpa [collapseRunsFrom] using ih _ h'
    · simp only [runsAtMost, hc, if_false, Bool.and_eq_true, decide_eq_true_eq] at h
      simp only [collapseRunsFrom, hc, if_false]
      exact runsAtMost_emit k h.1 c hc _ (ih 0 h.2)

theorem emitRun_no_space (k : Nat) : ' ' ∉ emitRun k := by
  unfold emitRun
  split
  · decide
  · split
    · decide
    · intro h
      have := List.eq_of_mem_replicate h
      revert this
      decide

theorem collapseRunsFrom_no_space (t : Str) (k : Nat) (h : ' ' ∉ t) :
    ' ' ∉ collapseRunsFrom k t := by
  induction t generalizing k with
  | nil => exact emitRun_no_space k
  | cons c cs ih =>
    have hc : ' ' ≠ c := fun e => h (List.mem_cons.mpr (Or.inl e))
    have hcs : ' ' ∉ cs := fun e => h (by simp [e])
    by_cases hm : c = '-'
    · simpa [collapseRunsFrom, hm] using ih (k + 1) hcs
    · simp only [collapseRunsFrom, hm, if_false, List.mem_append, List.mem_cons, not_or]
      exact ⟨emitRun_no_space k, hc, ih 0 hcs⟩

theorem normalizeOperators_collapsed (t : Str) (hsp : ' ' ∉ t)
    (h : runsAtMost 3 0 t = true) :
    normalizeOperators (collapseRuns t) = (collapseRuns t).flatMap padChar := by
  have h1 : runsAtMost 1 0 (collapseRuns t) = true := collapseRunsFrom_runs t 0 h
  have h3 : runsAtMost 3 0 (collapseRuns t) = true := runsAtMost_mono (by decide) _ _ h1
  have hf : (collapseRuns t).filter (fun c => c != ' ') = collapseRuns t := by
    rw [List.filter_eq_self]
    intro c hc
    have : c ≠ ' ' := fun e => collapseRunsFrom_no_space t 0 hsp (e ▸ hc)
    simpa using this
  have hcm : collapseMinus (collapseRuns t) = collapseRuns t := by
    have a := collapseMinus_runs _ 0 h3
    have b := collapseRunsFrom_single _ 0 h1
    simp only [List.replicate_zero, List.nil_append] at a b
    rw [a, b]
  rw [normalizeOperators_eq, hf, hcm]

theorem collapseMinus_double (a b : Str) (ha : '-' ∉ a) (hb : '-' ∉ b) (hne : b ≠ []) :
    collapseMinus (a ++ '-' :: '-' :: b) = a ++ '+' :: b := by
  cases b with
  | nil => exact absurd rfl hne
  | cons c cs =>
    have hc : '-' ≠ c := fun e => hb (List.mem_cons.mpr (Or.inl e))
    have hcs : '-' ∉ cs := fun e => hb (by simp [e])
    simp only [collapseMinus, ReplaceAll, List.cons_ne_nil, if_false]
    rw [replaceFrom_absent_append _ _ _ _ _ ha]
    have r3 : replaceFrom ['-', '-', '-'] ['-'] 0 ('-' :: '-' :: c :: cs) =
        '-' :: '-' :: c :: cs := by
      simp [replaceFrom, List.isPrefixOf, hc, replaceFrom_absent _ _ _ _ hcs]
    rw [r3, replaceFrom_absent_append _ _ _ _ _ ha]
    simp [replaceFrom, List.isPrefixOf, hc, replaceFrom_absent _ _ _ _ hcs]

theorem collapseMinus_triple (a b : Str) (ha : '-' ∉ a) (hb : '-' ∉ b) :
    collapseMinus (a ++ '-' :: '-' :: '-' :: b) = a ++ '-' :: b := by
  simp only [collapseMinus, ReplaceAll, List.cons_ne_nil, if_false]
  rw [replaceFrom_absent_append _ _ _ _ _ ha]
  have r3 : replaceFrom ['-', '-', '-'] ['-'] 0 ('-' :: '-' :: '-' :: b) = '-' :: b := by
    simp [replaceFrom, List.isPrefixOf, replaceFrom_absent _ _ _ _ hb]
  rw [r3, replaceFrom_absent_append _ _ _ _ _ ha]
  cases b with
  | nil => simp [replaceFrom, List.isPrefixOf]
  | cons c cs =>
    have hc : '-' ≠ c := fun e => hb (List.mem_cons.mpr (Or.inl e))
    have hcs : '-' ∉ cs := fun e => hb (by simp [e])
    simp [replaceFrom, List.isPrefixOf, hc, replaceFrom_absent _ _ _ _ hcs]

/-- The pipeline on a line whose space-free text becomes, after the two minus-run
substitutions, the text of a well-formed expression. -/
theorem processInput_collapsed {L : Char → Bool} (hL : LetterTable L) (vars : Store)
    (e : Expr) (hok : e.operandsOK L vars = true) (hfit : e.fits 1 = true) (s : Str)
    (hpar : s.count '(' = s.count ')') (heq : '=' ∉ s)
    (hs : collapseMinus (s.filter (fun c => c != ' ')) = e.text) :
    processInput L vars s = (vars, some (printed (e.outcome vars))) := by
  rw [processInput_expression L vars s hpar heq, normalizeOperators_eq, hs]
  have hf : Fields (e.text.flatMap padChar) = e.tokens := by
    have := Fields_text hL e hok [] (Or.inl rfl)
    simpa [Fields, fieldsFrom] using this
  rw [hf, infixToPostfix_expr hL e hok hfit, calculatePostfix_expr hL vars e hok]

/-! ## Frames and trimming -/

theorem processInput_store_of_no_eq (L : Char → Bool) (vars : Store) (s : Str)
    (heq : '=' ∉ s) : (processInput L vars s).1 = vars := by
  unfold processInput
  have : s.contains '=' = false := by simpa using heq
  simp only [Contains, this, Bool.false_eq_true, if_false]
  split
  · rfl
  · split <;> rfl

theorem TrimSpace_ends (pre s post : Str) (hpre : ∀ c ∈ pre, isSpace c = true)
    (hpost : ∀ c ∈ post, isSpace c = true)
    (hhead : ∀ c, s.head? = some c → isSpace c = false)
    (hlast : ∀ c, s.getLast? = some c → isSpace c = false) :
    TrimSpace (pre ++ s ++ post) = s := by
  unfold TrimSpace
  rw [List.append_assoc, dropWhile_spaces_append pre _ hpre]
  cases s with
  | nil =>
    have h2 : ([] ++ post).dropWhile isSpace = [] := by
      have := dropWhile_spaces_append post [] hpost
      simpa using this
    rw [h2]
    rfl
  | cons c cs =>
    have hc : isSpace c = false := hhead c rfl
    have h2 : (c :: cs ++ post).dropWhile isSpace = c :: cs ++ post := by
      simp [List.dropWhile_cons, hc]
    rw [h2, List.reverse_append,
      dropWhile_spaces_append post.reverse _ (fun d hd => hpost d (List.mem_reverse.mp hd)),
      dropWhile_head_false isSpace (c :: cs).reverse
        (fun d hd => hlast d (by rw [← List.head?_reverse]; exact hd))]
    simp

theorem normalizeOperators_deleteSpaces (s : Str) :
    normalizeOperators (deleteSpaces s) = normalizeOperators s := by
  rw [normalizeOperators_eq, normalizeOperators_eq]
  simp [deleteSpaces, List.filter_filter]

/-! ## Arbitrary token sequences -/

theorem isOperator_iff (t : Str) :
    isOperator t = true ↔
      t = ['+'] ∨ t = ['-'] ∨ t = ['*'] ∨ t = ['/'] ∨ t = ['^'] := by
  unfold isOperator precedence
  by_cases h1 : t = ['+']
  · simp [h1]
  by_cases h2 : t = ['-']
  · simp [h2]
  by_cases h3 : t = ['*']
  · simp [h3]
  by_cases h4 : t = ['/']
  · simp [h4]
  by_cases h5 : t = ['^']
  · simp [h5]
  simp [h1, h2, h3, h4, h5]

theorem isOperandToken_iff (t : Str) :
    isOperandToken t = true ↔ t ≠ ['('] ∧ t ≠ [')'] ∧ isOperator t = false := by
  simp [isOperandToken, and_assoc]

theorem convertLoop_operand {w : Str} (hw : isOperandToken w = true)
    (rest stack output : List Str) :
    convertLoop (w :: rest) stack output = convertLoop rest stack (output ++ [w]) := by
  obtain ⟨h1, h2, h3⟩ := (isOperandToken_iff w).mp hw
  have h4 : ¬ (w = ['+'] ∨ w = ['-'] ∨ w = ['*'] ∨ w = ['/'] ∨ w = ['^']) := by
    intro h
    rw [(isOperator_iff w).mpr h] at h3
    exact Bool.noConfusion h3
  rw [convertLoop, if_neg h1, if_neg h2, if_neg h4]

theorem calcLoop_depth (L : Char → Bool) (vars : Store) (ts : List Str)
    (hts : ∀ t ∈ ts, t = ['+'] ∨ t = ['-'] ∨ t = ['*'] ∨
      (isOperator t = false ∧ ∃ v, getNumFromString L vars t = .ok v))
    (stack : List Int) :
    (depthOK stack.length ts = true → ∃ v, calcLoop L vars ts stack = .ok v) ∧
    (depthOK stack.length ts = false →
      calcLoop L vars ts stack = .error "invalid expression".toList) := by
  induction ts generalizing stack with
  | nil =>
    cases stack with
    | nil => simp [depthOK, calcLoop]
    | cons v rest =>
      cases rest with
      | nil => simp [depthOK, calcLoop]
      | cons w rest => simp [depthOK, calcLoop]
  | cons t ts ih =>
    have ih' := ih (fun u hu => hts u (by simp [hu]))
    rcases hts t (by simp) with h | h | h | ⟨hop, v, hv⟩
    · subst h
      cases stack with
      | nil => simp [depthOK, calcLoop, isOperator, precedence]
      | cons b rest =>
        cases rest with
        | nil => simp [depthOK, calcLoop, isOperator, precedence]
        | cons a below =>
          have := ih' (wrap (a + b) :: below)
          simpa [depthOK, calcLoop, isOperator, precedence] using this
    · subst h
      cases stack with
      | nil => simp [depthOK, calcLoop, isOperator, precedence]
      | cons b rest =>
        cases rest with
        | nil => simp [depthOK, calcLoop, isOperator, precedence]
        | cons a below =>
          have := ih' (wrap (a - b) :: below)
          simpa [depthOK, calcLoop, isOperator, precedence] using this
    · subst h
      cases stack with
      | nil => simp [depthOK, calcLoop, isOperator, precedence]
      | cons b rest =>
        cases rest with
        | nil => simp [depthOK, calcLoop, isOperator, precedence]
        | cons a below =>
          have := ih' (wrap (a * b) :: below)
          simpa [depthOK, calcLoop, isOperator, precedence] using this
    · have := ih' (v :: stack)
      simpa [depthOK, calcLoop, hop, hv] using this

/-! ## Truncating division -/

theorem tmod_natAbs (a b : Int) : (Int.tmod a b).natAbs = a.natAbs % b.natAbs := by
  cases a <;> cases b <;> simp [Int.tmod, Int.natAbs_neg] <;> rfl

theorem tmod_nonpos_of_nonpos {a : Int} (b : Int) (h : a ≤ 0) : Int.tmod a b ≤ 0 := by
  cases a with
  | ofNat m =>
    have hm : m = 0 := by
      have : (m : Int) ≤ 0 := h
      omega
    subst hm
    simp
  | negSucc m =>
    cases b with
    | ofNat n =>
      show -Int.ofNat (m.succ % n) ≤ 0
      exact Int.neg_nonpos_of_nonneg (Int.ofNat_nonneg _)
    | negSucc n =>
      show -Int.ofNat (m.succ % n.succ) ≤ 0
      exact Int.neg_nonpos_of_nonneg (Int.ofNat_nonneg _)

theorem wrap_of_range (x : Int) (h1 : -(2 ^ 63) ≤ x) (h2 : x < 2 ^ 63) : wrap x = x := by
  unfold wrap
  omega

theorem tdiv_range (a b : Int) (ha1 : -(2 ^ 63) ≤ a) (ha2 : a < 2 ^ 63) (hb : b ≠ 0)
    (hov : ¬ (a = -(2 ^ 63) ∧ b = -1)) :
    -(2 ^ 63) ≤ Int.tdiv a b ∧ Int.tdiv a b < 2 ^ 63 := by
  have h1 : (Int.tdiv a b).natAbs = a.natAbs / b.natAbs := Int.natAbs_tdiv a b
  have h2 : a.natAbs / b.natAbs ≤ a.natAbs := Nat.div_le_self _ _
  have h3 : a.natAbs ≤ 2 ^ 63 := by omega
  have hb' : 0 < b.natAbs := Int.natAbs_pos.mpr hb
  constructor
  · omega
  · by_contra hcon
    have h4 : (Int.tdiv a b).natAbs = 2 ^ 63 := by omega
    have h5 : a.natAbs = 2 ^ 63 := by omega
    have h6 : b.natAbs = 1 := by
      rw [h1, h5] at h4
      by_contra h7
      have h8 : 2 ≤ b.natAbs := by omega
      have : 2 ^ 63 / b.natAbs ≤ 2 ^ 63 / 2 := Nat.div_le_div_left h8 (by decide)
      omega
    have ha : a = -(2 ^ 63) := by omega
    have hbb : b = 1 ∨ b = -1 := by omega
    rcases hbb with hbb | hbb
    · subst hbb
      simp at hcon
      omega
    · exact hov ⟨ha, hbb⟩

theorem intLiteral_range {n : Str} (h : isIntLiteral n = true) :
    -(2 ^ 63) ≤ literalValue n ∧ literalValue n < 2 ^ 63 := by
  simp only [isIntLiteral, Bool.and_eq_true, decide_eq_true_eq] at h
  exact ⟨h.1.2, h.2⟩

theorem intLiteral_not_operator {n : Str} (h : isIntLiteral n = true) :
    isOperator n = false := by
  obtain ⟨_, _, c, hc, hd⟩ := intLiteral_chars h
  cases ho : isOperator n
  · rfl
  · exfalso
    rcases (isOperator_iff n).mp ho with e | e | e | e | e <;>
      · rw [e] at hc
        simp only [List.mem_singleton] at hc
        rw [hc] at hd
        revert hd
        decide

theorem calculatePostfix_div {L : Char → Bool} (hL : LetterTable L) (vars : Store)
    (ta tb : Str) (ha : isIntLiteral ta = true) (hb : isIntLiteral tb = true)
    (hb0 : literalValue tb ≠ 0) :
    calculatePostfix L vars [ta, tb, ['/']] =
      .ok (wrap (Int.tdiv (literalValue ta) (literalValue tb))) := by
  have step : ∀ (t : Str) (rest : List Str) (stack : List Int), isIntLiteral t = true →
      calcLoop L vars (t :: rest) stack = calcLoop L vars rest (literalValue t :: stack) := by
    intro t rest stack ht
    simp [calcLoop, intLiteral_not_operator ht, getNumFromString_intLiteral hL vars ht]
  unfold calculatePostfix
  rw [step ta _ _ ha, step tb _ _ hb]
  simp [calcLoop, isOperator, precedence, hb0]

/-! ## Signs in front of an operand -/

theorem collapseMinus_single (a b : Str) (ha : '-' ∉ a) (hb : '-' ∉ b) (hne : b ≠ []) :
    collapseMinus (a ++ '-' :: b) = a ++ '-' :: b := by
  cases b with
  | nil => exact absurd rfl hne
  | cons c cs =>
    have hc : c ≠ '-' := fun e => hb (by simp [e])
    have hcs : '-' ∉ cs := fun e => hb (by simp [e])
    have key : ∀ old new : Str,
        replaceFrom ('-' :: '-' :: old) new 0 (a ++ '-' :: c :: cs) = a ++ '-' :: c :: cs := by
      intro old new
      rw [replaceFrom_absent_append _ _ _ _ _ ha, replaceFrom_skip_second _ _ _ _ _ _ _ hc,
        replaceFrom_skip_first _ _ _ _ _ hc, replaceFrom_absent _ _ _ _ hcs]
    simp only [collapseMinus, ReplaceAll, List.cons_ne_nil, if_false]
    rw [key, key]

theorem processInput_tokens (L : Char → Bool) (vars : Store) (s : Str) (ts : List Str)
    (hpar : s.count '(' = s.count ')') (heq : '=' ∉ s)
    (hts : Fields (normalizeOperators s) = ts) :
    processInput L vars s =
      (vars, some (printed (calculatePostfix L vars (infixToPostfix ts).1))) := by
  rw [processInput_expression L vars s hpar heq, hts]

theorem operand_word {L : Char → Bool} (hL : LetterTable L) {vars : Store} {a : Expr}
    (ha : a.isOperand = true) (hok : a.operandsOK L vars = true) :
    ∃ (w : Str) (val : Int), a.text = w ∧ w ≠ [] ∧ isWord w = true ∧
      getNumFromString L vars w = .ok val := by
  cases a with
  | lit d =>
    have hd : isDecimalLiteral d = true := hok
    exact ⟨d, _, text_lit d, (lit_word hok).1, (lit_word hok).2,
      getNumFromString_decimal hL vars hd⟩
  | var v =>
    obtain ⟨hne, hv, hsome⟩ := var_ok hok
    obtain ⟨x, hx⟩ := Option.isSome_iff_exists.mp hsome
    refine ⟨v, x, text_var v, hne, letters_isWord hL hv, ?_⟩
    rw [getNumFromString_variable L vars hv, hx]
  | paren e => exact Bool.noConfusion ha
  | bin op l r => exact Bool.noConfusion ha

theorem decimal_negated {n : Str} (h : isDecimalLiteral n = true) :
    isIntLiteral ('-' :: n) = true ∧ literalValue ('-' :: n) = -(digitsVal n : Int) := by
  obtain ⟨hne, hd, hr⟩ := (isDecimalLiteral_iff n).mp h
  refine ⟨?_, by simp [literalValue]⟩
  simp only [isIntLiteral, literalDigits, literalValue, or_true, if_true, Bool.and_eq_true,
    decide_eq_true_eq, bne_iff_ne, ne_eq, List.all_eq_true]
  have : (digitsVal n : Int) < 2 ^ 63 := by exact_mod_cast hr
  exact ⟨⟨⟨hne, hd⟩, by omega⟩, by omega⟩

theorem processInput_assign_literal {L : Char → Bool} (hL : LetterTable L) (vars : Store)
    (v k : Str) (hv : ∀ c ∈ v, L c = true) (hk : isIntLiteral k = true) :
    processInput L vars (v ++ [' ', '=', ' '] ++ k) = (vars.set v (literalValue k), none) := by
  have hword := letters_isWord hL hv
  obtain ⟨_, hch, _⟩ := intLiteral_chars hk
  have hshape : v ++ [' ', '=', ' '] ++ k = (v ++ [' ']) ++ '=' :: (' ' :: k) := by simp
  have hvn : ∀ d : Char, isSpecial d = true → d ∉ v := fun d hd => word_not_mem hword hd
  have hpar : (v ++ [' ', '=', ' '] ++ k).count '(' = (v ++ [' ', '=', ' '] ++ k).count ')' := by
    have a1 : k.count '(' = 0 :=
      List.count_eq_zero_of_not_mem (fun hmem => (hch _ hmem).2.2.1 rfl)
    have a2 : k.count ')' = 0 :=
      List.count_eq_zero_of_not_mem (fun hmem => (hch _ hmem).2.2.2 rfl)
    have a3 : v.count '(' = 0 := List.count_eq_zero_of_not_mem (hvn _ (by decide))
    have a4 : v.count ')' = 0 := List.count_eq_zero_of_not_mem (hvn _ (by decide))
    simp [List.count_append, a1, a2, a3, a4, List.count_cons]
  rw [processInput_assignment L vars _ hpar (by simp), hshape]
  have hl : '=' ∉ v ++ [' '] := by
    simp only [List.mem_append, List.mem_singleton, not_or]
    exact ⟨hvn _ (by decide), by decide⟩
  have hr : '=' ∉ ' ' :: k := by
    simp only [List.mem_cons, not_or]
    exact ⟨by decide, fun hmem => (hch _ hmem).2.1 rfl⟩
  have t1 : TrimSpace (v ++ [' ']) = v := by
    have := TrimSpace_padded [] v [' '] (by simp) (by simp [isSpace]) (word_ne_nil_all hword)
    simpa using this
  have t2 : TrimSpace (' ' :: k) = k := by
    have := TrimSpace_padded [' '] k [] (by simp [isSpace]) (by simp)
      (fun d hd => (hch d hd).1)
    simpa using this
  have := handleAssignment_ok L vars (v ++ [' ']) (' ' :: k) (literalValue k) hl hr
    (by rw [t1]; exact letters_isValidVariable hv)
    (by rw [t2]; exact getNumFromString_intLiteral hL vars hk)
  rw [this, t1]

theorem processInput_lookup {L : Char → Bool} (hL : LetterTable L) (vars : Store) (v : Str)
    (hne : v ≠ []) (hv : ∀ c ∈ v, L c = true) (x : Int) :
    processInput L (vars.set v x) v = (vars.set v x, some (formatInt x)) := by
  rw [processInput_word L _ hne (letters_isWord hL hv), getNumFromString_variable L _ hv]
  simp [Store.set, printed]

theorem sign_line {L : Char → Bool} (hL : LetterTable L) (vars : Store) (op : Op) (n : Str)
    (hn : isDecimalLiteral n = true) (hcol : collapseMinus (op.symbol :: n) = op.symbol :: n) :
    processInput L vars (op.symbol :: n) = (vars, some "invalid expression".toList) := by
  obtain ⟨hne, hd, _⟩ := (isDecimalLiteral_iff n).mp hn
  have wn : isWord n = true := digits_isWord hd
  have nn : ∀ d : Char, isSpecial d = true → d ∉ n := fun d hd => word_not_mem wn hd
  have hfil : (op.symbol :: n).filter (fun c => c != ' ') = op.symbol :: n := by
    rw [List.filter_cons, filter_space_word wn]
    have : (op.symbol != ' ') = true := by cases op <;> decide
    simp [this]
  have hts : Fields (normalizeOperators (op.symbol :: n)) = [op.token, n] := by
    rw [normalizeOperators_eq, hfil, hcol]
    simp only [List.flatMap_cons, padChar_special (symbol_special op) (symbol_not_space op).2,
      flatMap_padChar_word wn, List.cons_append, List.nil_append, Fields]
    rw [fieldsFrom_padded _ (symbol_not_space op).1]
    have := Fields_word n hne (word_ne_nil_all wn)
    unfold Fields at this
    rw [this]
    rfl
  have hpar : (op.symbol :: n).count '(' = (op.symbol :: n).count ')' := by
    have a1 : n.count '(' = 0 := List.count_eq_zero_of_not_mem (nn _ (by decide))
    have a2 : n.count ')' = 0 := List.count_eq_zero_of_not_mem (nn _ (by decide))
    have b1 : (op.symbol == '(') = false := by cases op <;> decide
    have b2 : (op.symbol == ')') = false := by cases op <;> decide
    simp [List.count_cons, a1, a2, b1, b2]
  have heq : '=' ∉ op.symbol :: n := by
    simp only [List.mem_cons, not_or]
    exact ⟨by cases op <;> decide, nn _ (by decide)⟩
  rw [processInput_tokens L vars _ _ hpar heq hts]
  have hconv : infixToPostfix [op.token, n] = ([n, op.token], none) := by
    unfold infixToPostfix
    rw [convertLoop_op, convertLoop_word wn]
    simp [popOperators, convertLoop, drainStack, token_ne_lparen op]
  rw [hconv]
  unfold calculatePostfix
  rw [calcLoop_word L vars wn, getNumFromString_decimal hL vars hn]
  cases op <;> simp [calcLoop, isOperator, precedence, Op.token, Op.symbol, printed]

theorem product_sign_line {L : Char → Bool} (hL : LetterTable L) (vars : Store) (a : Expr)
    (n : Str) (ha : a.isOperand = true) (hok : a.operandsOK L vars = true)
    (hn : isDecimalLiteral n = true) :
    processInput L vars (a.text ++ [' ', '*', ' ', '-'] ++ n) =
      (vars, some "invalid expression".toList) := by
  obtain ⟨w, val, hw, hwne, ww, hval⟩ := operand_word hL ha hok
  obtain ⟨hne, hd, _⟩ := (isDecimalLiteral_iff n).mp hn
  have wn : isWord n = true := digits_isWord hd
  have nn : ∀ d : Char, isSpecial d = true → d ∉ n := fun d hd => word_not_mem wn hd
  have nw : ∀ d : Char, isSpecial d = true → d ∉ w := fun d hd => word_not_mem ww hd
  rw [hw]
  have hfil : (w ++ [' ', '*', ' ', '-'] ++ n).filter (fun c => c != ' ') =
      (w ++ ['*']) ++ '-' :: n := by
    simp only [List.filter_append, filter_space_word ww, filter_space_word wn]
    simp
  have hcol : collapseMinus ((w ++ ['*']) ++ '-' :: n) = (w ++ ['*']) ++ '-' :: n := by
    apply collapseMinus_single _ _ _ (nn _ (by decide)) hne
    simp only [List.mem_append, List.mem_singleton, not_or]
    exact ⟨nw _ (by decide), by decide⟩
  have hts : Fields (normalizeOperators (w ++ [' ', '*', ' ', '-'] ++ n)) =
      [w, ['*'], ['-'], n] := by
    rw [normalizeOperators_eq, hfil, hcol]
    simp only [List.flatMap_append, List.flatMap_cons, List.flatMap_nil, List.append_nil,
      flatMap_padChar_word ww, flatMap_padChar_word wn,
      padChar_special (c := '*') (by decide) (by decide),
      padChar_special (c := '-') (by decide) (by decide), List.cons_append, List.nil_append,
      List.append_assoc, Fields]
    rw [fieldsFrom_word_then w hwne ww _ (Or.inr ⟨_, rfl⟩), fieldsFrom_padded '*' (by decide),
      fieldsFrom_padded '-' (by decide)]
    have := Fields_word n hne (word_ne_nil_all wn)
    unfold Fields at this
    rw [this]
  have hpar : (w ++ [' ', '*', ' ', '-'] ++ n).count '(' =
      (w ++ [' ', '*', ' ', '-'] ++ n).count ')' := by
    have a1 : n.count '(' = 0 := List.count_eq_zero_of_not_mem (nn _ (by decide))
    have a2 : n.count ')' = 0 := List.count_eq_zero_of_not_mem (nn _ (by decide))
    have a3 : w.count '(' = 0 := List.count_eq_zero_of_not_mem (nw _ (by decide))
    have a4 : w.count ')' = 0 := List.count_eq_zero_of_not_mem (nw _ (by decide))
    simp [List.count_append, List.count_cons, a1, a2, a3, a4]
  have heq : '=' ∉ w ++ [' ', '*', ' ', '-'] ++ n := by
    simp only [List.mem_append, List.mem_cons, List.mem_singleton, List.not_mem_nil,
      or_false, not_or]
    exact ⟨⟨nw _ (by decide), by decide, by decide, by decide, by decide⟩, nn _ (by decide)⟩
  rw [processInput_tokens L vars _ _ hpar heq hts]
  have hconv : infixToPostfix [w, ['*'], ['-'], n] = ([w, ['*'], n, ['-']], none) := by
    have e1 : (['*'] : Str) = Op.mul.token := rfl
    have e2 : (['-'] : Str) = Op.sub.token := rfl
    unfold infixToPostfix
    rw [convertLoop_word ww, e1, convertLoop_op, e2, convertLoop_op, convertLoop_word wn]
    simp [popOperators, convertLoop, drainStack, Op.token, Op.symbol, precOf, precedence]
  rw [hconv]
  unfold calculatePostfix
  rw [calcLoop_word L vars ww, hval]
  simp [calcLoop, isOperator, precedence, printed]

/-! ## The converter loops as list operations -/

theorem popToParen_eq (stack output : List Str) :
    popToParen stack output =
      (stack.dropWhile notOpen,
        output ++ stack.takeWhile notOpen) := by
  induction stack generalizing output with
  | nil => simp [popToParen]
  | cons top st ih =>
    by_cases h : top = ['(']
    · simp [popToParen, h, notOpen]
    · simp [popToParen, h, ih, List.dropWhile_cons, List.takeWhile_cons, notOpen]

theorem popOperators_eq (token : Str) (stack output : List Str) :
    popOperators token stack output =
      (stack.dropWhile (popsBefore token),
        output ++ stack.takeWhile (popsBefore token)) := by
  induction stack generalizing output with
  | nil => simp [popOperators]
  | cons top st ih =>
    by_cases h : precOf token ≤ precOf top ∧ top ≠ ['(']
    · rw [popOperators, if_pos h, ih]
      simp [List.dropWhile_cons, List.takeWhile_cons, h, popsBefore]
    · rw [popOperators, if_neg h]
      simp [List.dropWhile_cons, List.takeWhile_cons, h, popsBefore]

theorem drainStack_eq (stack output : List Str) :
    drainStack stack output =
      if ['('] ∈ stack then ([], some "invalid expression".toList)
      else (output ++ stack, none) := by
  induction stack generalizing output with
  | nil => simp [drainStack]
  | cons top st ih =>
    by_cases h : top = ['(']
    · simp [drainStack, h]
    · have h' : ¬ ['('] = top := fun e => h e.symm
      rw [drainStack, if_neg h, ih]
      simp only [List.mem_cons, h', false_or]
      split <;> simp

theorem takeWhile_no_lparen (p : Str → Bool) (hp : ∀ t, p t = true → t ≠ ['('])
    (stack : List Str) : ['('] ∉ stack.takeWhile p := by
  intro hmem
  exact hp _ (List.mem_takeWhile_imp hmem) rfl

theorem dropWhile_head (p : Str → Bool) (stack : List Str) (t : Str) (rest : List Str)
    (h : stack.dropWhile p = t :: rest) : p t = false := by
  induction stack with
  | nil => simp at h
  | cons top st ih =>
    by_cases hp : p top = true
    · rw [List.dropWhile_cons, if_pos hp] at h
      exact ih h
    · rw [List.dropWhile_cons, if_neg hp] at h
      have : top = t := by injection h
      rw [← this]
      simpa using hp

theorem count_split (p : Str → Bool) (stack : List Str) (x : Str) :
    stack.count x = (stack.takeWhile p).count x + (stack.dropWhile p).count x := by
  rw [← List.count_append, List.takeWhile_append_dropWhile]

/-! ## Unmatched parentheses -/

theorem count_lparen_popToParen (stack output : List Str) :
    ((popToParen stack output).1.tail).count ['('] = stack.count ['('] - 1 := by
  rw [popToParen_eq]
  have hsplit := count_split notOpen stack ['(']
  have htw : (stack.takeWhile notOpen).count ['('] = 0 :=
    List.count_eq_zero_of_not_mem
      (takeWhile_no_lparen _ (fun t ht => by simpa [notOpen] using ht) stack)
  cases hdw : stack.dropWhile notOpen with
  | nil =>
    rw [hdw, htw] at hsplit
    simp [hsplit]
  | cons hd tl =>
    have hhd : hd = ['('] := by
      have := dropWhile_head _ stack hd tl hdw
      simpa [notOpen] using this
    rw [hdw, htw, hhd] at hsplit
    simp only [List.tail_cons]
    simp only [List.count_cons_self] at hsplit
    omega

theorem count_lparen_popOperators (token : Str) (stack output : List Str) :
    ((popOperators token stack output).1).count ['('] = stack.count ['('] := by
  rw [popOperators_eq]
  have hsplit := count_split (popsBefore token) stack ['(']
  have htw : (stack.takeWhile
      (popsBefore token)).count ['('] = 0 :=
    List.count_eq_zero_of_not_mem
      (takeWhile_no_lparen _ (fun t ht => by
        have : precOf token ≤ precOf t ∧ t ≠ ['('] := by simpa [popsBefore] using ht
        exact this.2) stack)
  simp only []
  omega

theorem convertLoop_open (tokens stack output : List Str)
    (h : 0 < tokenDepth (stack.count ['(']) tokens) :
    convertLoop tokens stack output = ([], some "invalid expression".toList) := by
  induction tokens generalizing stack output with
  | nil =>
    have hmem : ['('] ∈ stack := List.count_pos_iff.mp h
    rw [convertLoop, drainStack_eq, if_pos hmem]
  | cons t ts ih =>
    by_cases h1 : t = ['(']
    · rw [convertLoop, if_pos h1]
      apply ih
      rw [tokenDepth, if_pos h1] at h
      rw [h1, List.count_cons_self]
      exact h
    · by_cases h2 : t = [')']
      · rw [convertLoop, if_neg h1, if_pos h2]
        apply ih
        rw [tokenDepth, if_neg h1, if_pos h2] at h
        rw [count_lparen_popToParen]
        exact h
      · rw [tokenDepth, if_neg h1, if_neg h2] at h
        by_cases h3 : t = ['+'] ∨ t = ['-'] ∨ t = ['*'] ∨ t = ['/'] ∨ t = ['^']
        · rw [convertLoop, if_neg h1, if_neg h2, if_pos h3]
          apply ih
          have hne : ['('] ≠ t := fun e => h1 e.symm
          rw [List.count_cons_of_ne hne, count_lparen_popOperators]
          exact h
        · rw [convertLoop, if_neg h1, if_neg h2, if_neg h3]
          exact ih _ _ h

theorem tokenDepth_skip (d : Nat) (t : Str) (ts : List Str) (h1 : t ≠ ['(']) (h2 : t ≠ [')']) :
    tokenDepth d (t :: ts) = tokenDepth d ts := by
  rw [tokenDepth, if_neg h1, if_neg h2]

theorem tokenDepth_emit (d : Nat) (cur : Str) (ts : List Str)
    (hcur : ∀ x ∈ cur, x ≠ '(' ∧ x ≠ ')') :
    tokenDepth d (if cur = [] then ts else cur :: ts) = tokenDepth d ts := by
  split
  · rfl
  · apply tokenDepth_skip
    · intro e
      exact (hcur '(' (by simp [e])).1 rfl
    · intro e
      exact (hcur ')' (by simp [e])).2 rfl

theorem fieldsFrom_space_char (cur : Str) (c : Char) (hc : isSpace c = true) (cs : Str) :
    fieldsFrom cur (c :: cs) = if cur = [] then fieldsFrom [] cs else cur :: fieldsFrom [] cs := by
  simp [fieldsFrom, hc]

theorem fieldsFrom_padded_from (cur : Str) (c : Char) (hc : isSpace c = false) (cs : Str) :
    fieldsFrom cur (' ' :: c :: ' ' :: cs) =
      if cur = [] then [c] :: fieldsFrom [] cs else cur :: [c] :: fieldsFrom [] cs := by
  rw [fieldsFrom_space_char cur ' ' (by decide)]
  have : fieldsFrom [] (c :: ' ' :: cs) = [c] :: fieldsFrom [] cs := by
    have h := fieldsFrom_padded c hc cs
    rw [fieldsFrom_space_char [] ' ' (by decide)] at h
    simpa using h
  rw [this]

theorem padChar_cases (c : Char) :
    (padChar c = [' ', c, ' '] ∧ isSpace c = false ∧ isSpecial c = true) ∨ padChar c = [c] := by
  by_cases h : c = '+' ∨ c = '-' ∨ c = '=' ∨ c = '^' ∨ c = '*' ∨ c = '/' ∨ c = '(' ∨ c = ')'
  · left
    refine ⟨by rw [padChar, if_pos h], ?_, ?_⟩
    · rcases h with h | h | h | h | h | h | h | h <;> subst h <;> decide
    · rcases h with h | h | h | h | h | h | h | h <;> subst h <;> decide
  · right
    rw [padChar, if_neg h]

theorem tokenDepth_fields (t : Str) (cur : Str) (d : Nat)
    (hcur : ∀ x ∈ cur, x ≠ '(' ∧ x ≠ ')') :
    tokenDepth d (fieldsFrom cur (t.flatMap padChar)) = charDepth d t := by
  induction t generalizing cur d with
  | nil =>
    simp only [List.flatMap_nil, fieldsFrom, charDepth]
    have := tokenDepth_emit d cur [] hcur
    simpa [tokenDepth] using this
  | cons c cs ih =>
    rw [List.flatMap_cons]
    rcases padChar_cases c with ⟨hp, hsp, _⟩ | hp
    · rw [hp]
      simp only [List.cons_append, List.nil_append]
      rw [fieldsFrom_padded_from cur c hsp]
      have hemit := tokenDepth_emit d cur ([c] :: fieldsFrom [] (cs.flatMap padChar)) hcur
      have hif : (if cur = [] then [c] :: fieldsFrom [] (cs.flatMap padChar)
          else cur :: [c] :: fieldsFrom [] (cs.flatMap padChar)) =
          (if cur = [] then [c] :: fieldsFrom [] (cs.flatMap padChar)
            else cur :: ([c] :: fieldsFrom [] (cs.flatMap padChar))) := rfl
      rw [hif, hemit]
      have ih0 := fun d => ih [] d (by simp)
      by_cases h1 : c = '('
      · subst h1
        rw [tokenDepth, if_pos rfl, charDepth, if_pos rfl, ih0]
      · by_cases h2 : c = ')'
        · subst h2
          rw [tokenDepth, if_neg (by decide), if_pos rfl, charDepth, if_neg (by decide),
            if_pos rfl, ih0]
        · have e1 : ([c] : Str) ≠ ['('] := by simpa using h1
          have e2 : ([c] : Str) ≠ [')'] := by simpa using h2
          rw [tokenDepth_skip d _ _ e1 e2, charDepth, if_neg h1, if_neg h2, ih0]
    · have hpad : ¬ (c = '+' ∨ c = '-' ∨ c = '=' ∨ c = '^' ∨ c = '*' ∨ c = '/' ∨
          c = '(' ∨ c = ')') := by
        intro h
        have : padChar c = [' ', c, ' '] := by rw [padChar, if_pos h]
        rw [hp] at this
        simp at this
      have h1 : c ≠ '(' := fun e => hpad (by simp [e])
      have h2 : c ≠ ')' := fun e => hpad (by simp [e])
      rw [hp, charDepth, if_neg h1, if_neg h2]
      simp only [List.cons_append, List.nil_append]
      by_cases hs : isSpace c = true
      · rw [fieldsFrom_space_char cur c hs, tokenDepth_emit d cur _ hcur]
        exact ih [] d (by simp)
      · have hs' : isSpace c = false := by simpa using hs
        have : fieldsFrom cur (c :: cs.flatMap padChar) =
            fieldsFrom (cur ++ [c]) (cs.flatMap padChar) := by
          simp [fieldsFrom, hs']
        rw [this]
        apply ih
        intro x hx
        rcases List.mem_append.mp hx with hx | hx
        · exact hcur x hx
        · have : x = c := by simpa using hx
          rw [this]
          exact ⟨h1, h2⟩

theorem charDepth_filter (s : Str) (d : Nat) :
    charDepth d (s.filter (fun c => c != ' ')) = charDepth d s := by
  induction s generalizing d with
  | nil => rfl
  | cons c cs ih =>
    by_cases hc : c = ' '
    · subst hc
      simp [List.filter_cons, charDepth, ih]
    · have : (c != ' ') = true := by simpa using hc
      rw [List.filter_cons, this, if_pos rfl]
      simp only [charDepth, ih]

theorem charDepth_plain (c : Char) (h1 : c ≠ '(') (h2 : c ≠ ')') (cs : Str) (d : Nat) :
    charDepth d (c :: cs) = charDepth d cs := by
  rw [charDepth, if_neg h1, if_neg h2]

theorem charDepth_plain_append (w : Str) (hw : ∀ x ∈ w, x ≠ '(' ∧ x ≠ ')') (r : Str) (d : Nat) :
    charDepth d (w ++ r) = charDepth d r := by
  induction w with
  | nil => rfl
  | cons c cs ih =>
    rw [List.cons_append, charDepth_plain c (hw c (by simp)).1 (hw c (by simp)).2]
    exact ih (fun x hx => hw x (by simp [hx]))

theorem charDepth_replaceFrom (o : Char) (os new : Str)
    (hold : ∀ x ∈ o :: os, x ≠ '(' ∧ x ≠ ')') (hnew : ∀ x ∈ new, x ≠ '(' ∧ x ≠ ')')
    (s : Str) (k d : Nat) (hk : ∀ x ∈ s.take k, x ≠ '(' ∧ x ≠ ')') :
    charDepth d (replaceFrom (o :: os) new k s) = charDepth d s := by
  induction s generalizing k d with
  | nil => cases k <;> rfl
  | cons c cs ih =>
    cases k with
    | succ k =>
      have hc := hk c (by simp)
      rw [replaceFrom, charDepth_plain c hc.1 hc.2]
      exact ih k d (fun x hx => hk x (by simp [List.take_succ_cons, hx]))
    | zero =>
      by_cases hp : (o :: os).isPrefixOf (c :: cs) = true
      · rw [replaceFrom, if_pos hp, charDepth_plain_append new hnew]
        have hp' : o = c ∧ os.isPrefixOf cs = true := by
          simpa [List.isPrefixOf] using hp
        obtain ⟨rest, hrest⟩ := List.isPrefixOf_iff_prefix.mp hp'.2
        have hc := hold c (by simp [hp'.1])
        rw [charDepth_plain c hc.1 hc.2]
        apply ih
        intro x hx
        have : x ∈ os := by
          rw [← hrest] at hx
          simpa using hx
        exact hold x (by simp [this])
      · rw [replaceFrom, if_neg hp]
        have ih0 := fun d => ih 0 d (by simp)
        simp only [charDepth, ih0]

theorem charDepth_normalize (s : Str) (d : Nat) :
    tokenDepth d (Fields (normalizeOperators s)) = charDepth d s := by
  rw [normalizeOperators_eq, Fields, tokenDepth_fields _ [] d (by simp)]
  unfold collapseMinus ReplaceAll
  simp only [List.cons_ne_nil, if_false]
  rw [charDepth_replaceFrom '-' ['-'] ['+'] (by decide) (by decide) _ 0 d (by simp),
    charDepth_replaceFrom '-' ['-', '-'] ['-'] (by decide) (by decide) _ 0 d (by simp),
    charDepth_filter]

theorem charDepth_lower (s : Str) (d : Nat) :
    d + s.count '(' ≤ charDepth d s + s.count ')' := by
  induction s generalizing d with
  | nil => simp [charDepth]
  | cons c cs ih =>
    by_cases h1 : c = '('
    · subst h1
      have := ih (d + 1)
      rw [charDepth, if_pos rfl, List.count_cons_self,
        List.count_cons_of_ne (by decide : ')' ≠ '(')]
      omega
    · by_cases h2 : c = ')'
      · subst h2
        have := ih (d - 1)
        rw [charDepth, if_neg (by decide), if_pos rfl, List.count_cons_self,
          List.count_cons_of_ne (by decide : '(' ≠ ')')]
        omega
      · have := ih d
        rw [charDepth_plain c h1 h2,
          List.count_cons_of_ne (fun e : '(' = c => h1 e.symm),
          List.count_cons_of_ne (fun e : ')' = c => h2 e.symm)]
        exact this

theorem charDepth_strict (s : Str) (d k : Nat)
    (h : d + (s.take k).count '(' < (s.take k).count ')') :
    d + s.count '(' < charDepth d s + s.count ')' := by
  induction s generalizing d k with
  | nil => simp at h
  | cons c cs ih =>
    cases k with
    | zero => simp at h
    | succ k =>
      rw [List.take_succ_cons] at h
      by_cases h1 : c = '('
      · subst h1
        rw [List.count_cons_self, List.count_cons_of_ne (by decide : ')' ≠ '(')] at h
        have := ih (d + 1) k (by omega)
        rw [charDepth, if_pos rfl, List.count_cons_self,
          List.count_cons_of_ne (by decide : ')' ≠ '(')]
        omega
      · by_cases h2 : c = ')'
        · subst h2
          rw [List.count_cons_self, List.count_cons_of_ne (by decide : '(' ≠ ')')] at h
          rw [charDepth, if_neg (by decide), if_pos rfl, List.count_cons_self,
            List.count_cons_of_ne (by decide : '(' ≠ ')')]
          cases d with
          | zero =>
            have := charDepth_lower cs 0
            simp only [Nat.zero_sub]
            omega
          | succ d =>
            have := ih d k (by omega)
            simp only [Nat.add_sub_cancel]
            omega
        · rw [List.count_cons_of_ne (fun e : '(' = c => h1 e.symm),
            List.count_cons_of_ne (fun e : ')' = c => h2 e.symm)] at h
          have := ih d k h
          rw [charDepth_plain c h1 h2,
            List.count_cons_of_ne (fun e : '(' = c => h1 e.symm),
            List.count_cons_of_ne (fun e : ')' = c => h2 e.symm)]
          exact this

/-! ## What the converter keeps -/

theorem operator_classes {t : Str} (h : isOperator t = true) :
    isOperandToken t = false ∧ isParenToken t = false := by
  refine ⟨by simp [isOperandToken, h], ?_⟩
  rcases (isOperator_iff t).mp h with e | e | e | e | e <;> subst e <;> decide

theorem operators_filters (l : List Str) (h : ∀ t ∈ l, isOperator t = true) :
    l.filter isOperandToken = [] ∧ l.filter isParenToken = [] := by
  refine ⟨?_, ?_⟩
  · rw [List.filter_eq_nil_iff]
    intro t ht
    rw [(operator_classes (h t ht)).1]
    exact Bool.false_ne_true
  · rw [List.filter_eq_nil_iff]
    intro t ht
    rw [(operator_classes (h t ht)).2]
    exact Bool.false_ne_true

theorem count_filter_split (p : Str → Bool) (f : Str → Bool) (stack : List Str) (x : Str) :
    (stack.filter f).count x =
      ((stack.takeWhile p).filter f).count x + ((stack.dropWhile p).filter f).count x := by
  rw [← List.count_append, ← List.filter_append, List.takeWhile_append_dropWhile]

theorem convertLoop_preserves (tokens stack output res : List Str)
    (hst : ∀ t ∈ stack, t = ['('] ∨ isOperator t = true)
    (h : convertLoop tokens stack output = (res, none)) :
    res.filter isOperandToken =
      output.filter isOperandToken ++ tokens.filter isOperandToken ∧
    res.filter isParenToken = output.filter isParenToken ∧
    ∀ x : Str, (res.filter isOperator).count x =
      (output.filter isOperator).count x + (stack.filter isOperator).count x +
        (tokens.filter isOperator).count x := by
  induction tokens generalizing stack output with
  | nil =>
    rw [convertLoop, drainStack_eq] at h
    by_cases hmem : ['('] ∈ stack
    · rw [if_pos hmem] at h
      simp at h
    · rw [if_neg hmem] at h
      have hres : res = output ++ stack := by
        have := congrArg Prod.fst h
        exact this.symm
      have hops : ∀ t ∈ stack, isOperator t = true := by
        intro t ht
        rcases hst t ht with e | e
        · exact absurd (e ▸ ht) hmem
        · exact e
      obtain ⟨f1, f2⟩ := operators_filters stack hops
      subst hres
      refine ⟨by simp [List.filter_append, f1], by simp [List.filter_append, f2], ?_⟩
      intro x
      simp [List.filter_append, List.count_append]
  | cons t ts ih =>
    by_cases h1 : t = ['(']
    · subst h1
      rw [convertLoop, if_pos rfl] at h
      obtain ⟨r1, r2, r3⟩ := ih (['('] :: stack) output
        (by
          intro u hu
          rcases List.mem_cons.mp hu with e | e
          · exact Or.inl e
          · exact hst u e) h
      have c1 : isOperandToken ['('] = false := by decide
      have c2 : isOperator ['('] = false := by decide
      refine ⟨by rw [r1, List.filter_cons, c1]; rfl, r2, ?_⟩
      intro x
      rw [r3 x, List.filter_cons, c2, List.filter_cons, c2]
      rfl
    · by_cases h2 : t = [')']
      · subst h2
        rw [convertLoop, if_neg (by decide), if_pos rfl, popToParen_eq] at h
        simp only [] at h
        have htw : ∀ u ∈ stack.takeWhile notOpen, isOperator u = true := by
          intro u hu
          have hne : u ≠ ['('] := by simpa [notOpen] using List.mem_takeWhile_imp hu
          rcases hst u ((List.takeWhile_sublist _).subset hu) with e | e
          · exact absurd e hne
          · exact e
        have hdw : ∀ u ∈ (stack.dropWhile notOpen).tail,
            u = ['('] ∨ isOperator u = true := by
          intro u hu
          exact hst u ((List.dropWhile_sublist _).subset (List.mem_of_mem_tail hu))
        obtain ⟨r1, r2, r3⟩ := ih _ _ hdw h
        obtain ⟨f1, f2⟩ := operators_filters _ htw
        have c1 : isOperandToken [')'] = false := by decide
        have c2 : isOperator [')'] = false := by decide
        refine ⟨?_, ?_, ?_⟩
        · rw [r1, List.filter_append, f1, List.filter_cons, c1]
          simp
        · rw [r2, List.filter_append, f2]
          simp
        · intro x
          have hsplit := count_filter_split notOpen isOperator stack x
          have htail : ((stack.dropWhile notOpen).tail.filter
              isOperator).count x =
              ((stack.dropWhile notOpen).filter isOperator).count x := by
            cases hd : stack.dropWhile notOpen with
            | nil => rfl
            | cons a rest =>
              have ha : a = ['('] := by
                have := dropWhile_head _ stack a rest hd
                simpa [notOpen] using this
              subst ha
              simp only [List.tail_cons]
              rw [List.filter_cons]
              have c3 : isOperator ['('] = false := by decide
              rw [c3]
              rfl
          rw [r3 x, List.filter_append, List.count_append, htail, List.filter_cons, c2]
          simp only [Bool.false_eq_true, if_false]
          omega
      · by_cases h3 : t = ['+'] ∨ t = ['-'] ∨ t = ['*'] ∨ t = ['/'] ∨ t = ['^']
        · have hop : isOperator t = true := (isOperator_iff t).mpr h3
          rw [convertLoop, if_neg h1, if_neg h2, if_pos h3, popOperators_eq] at h
          simp only [] at h
          have htw : ∀ u ∈ stack.takeWhile
              (popsBefore t), isOperator u = true := by
            intro u hu
            have hne : precOf t ≤ precOf u ∧ u ≠ ['('] := by
              simpa [popsBefore] using List.mem_takeWhile_imp hu
            rcases hst u ((List.takeWhile_sublist _).subset hu) with e | e
            · exact absurd e hne.2
            · exact e
          have hdw : ∀ u ∈ t :: stack.dropWhile
              (popsBefore t),
              u = ['('] ∨ isOperator u = true := by
            intro u hu
            rcases List.mem_cons.mp hu with e | e
            · exact Or.inr (e ▸ hop)
            · exact hst u ((List.dropWhile_sublist _).subset e)
          obtain ⟨r1, r2, r3⟩ := ih _ _ hdw h
          obtain ⟨f1, f2⟩ := operators_filters _ htw
          refine ⟨?_, ?_, ?_⟩
          · rw [r1, List.filter_append, f1, List.filter_cons, (operator_classes hop).1]
            simp
          · rw [r2, List.filter_append, f2]
            simp
          · intro x
            have hsplit := count_filter_split
              (popsBefore t) isOperator stack x
            rw [r3 x, List.filter_append, List.count_append, List.filter_cons, hop, if_pos rfl,
              List.filter_cons, hop, if_pos rfl, List.count_cons, List.count_cons]
            omega
        · rw [convertLoop, if_neg h1, if_neg h2, if_neg h3] at h
          obtain ⟨r1, r2, r3⟩ := ih _ _ hst h
          have hnop : isOperator t = false := by
            cases ho : isOperator t
            · rfl
            · exact absurd ((isOperator_iff t).mp ho) h3
          have c1 : isOperandToken t = true :=
            (isOperandToken_iff t).mpr ⟨h1, h2, hnop⟩
          have c2 : isParenToken t = false := by simp [isParenToken, h1, h2]
          refine ⟨?_, ?_, ?_⟩
          · rw [r1, List.filter_append, List.filter_cons, c1, List.filter_cons, c1]
            simp
          · rw [r2, List.filter_append, List.filter_cons, c2]
            simp
          · intro x
            rw [r3 x, List.filter_append, List.count_append, List.filter_cons, hnop,
              List.filter_cons, hnop]
            simp

theorem length_three_way (l : List Str) :
    l.length =
      (l.filter isOperandToken).length + (l.filter isOperator).length +
        (l.count ['('] + l.count [')']) := by
  induction l with
  | nil => rfl
  | cons t ts ih =>
    by_cases h1 : t = ['(']
    · subst h1
      have c1 : isOperandToken ['('] = false := by decide
      have c2 : isOperator ['('] = false := by decide
      rw [List.filter_cons, c1, List.filter_cons, c2, List.count_cons_self,
        List.count_cons_of_ne (by decide : ([')'] : Str) ≠ ['('])]
      simp only [Bool.false_eq_true, if_false, List.length_cons]
      omega
    · by_cases h2 : t = [')']
      · subst h2
        have c1 : isOperandToken [')'] = false := by decide
        have c2 : isOperator [')'] = false := by decide
        rw [List.filter_cons, c1, List.filter_cons, c2, List.count_cons_self,
          List.count_cons_of_ne (by decide : (['('] : Str) ≠ [')'])]
        simp only [Bool.false_eq_true, if_false, List.length_cons]
        omega
      · rw [List.count_cons_of_ne (fun e : ['('] = t => h1 e.symm),
          List.count_cons_of_ne (fun e : [')'] = t => h2 e.symm)]
        cases ho : isOperator t
        · have c1 : isOperandToken t = true := (isOperandToken_iff t).mpr ⟨h1, h2, ho⟩
          rw [List.filter_cons, c1, List.filter_cons, ho]
          simp only [if_true, Bool.false_eq_true, if_false, List.length_cons]
          omega
        · rw [List.filter_cons, (operator_classes ho).1, List.filter_cons, ho]
          simp only [if_true, Bool.false_eq_true, if_false, List.length_cons]
          omega

theorem count_decidable_eq (x : Str) (l : List Str) :
    @List.count Str instBEqOfDecidableEq x l = List.count x l := by
  unfold List.count
  apply List.countP_congr
  intro y _
  simp

/-! ## White space other than U+0020 -/

theorem isPrefixOf_before (c : Char) (v : Str) (old u : Str) (hc : c ∉ old) :
    old.isPrefixOf (u ++ c :: v) = old.isPrefixOf u := by
  induction old generalizing u with
  | nil => simp [List.isPrefixOf]
  | cons o os ih =>
    have ho : o ≠ c := fun e => hc (by simp [e])
    have hos : c ∉ os := fun e => hc (by simp [e])
    cases u with
    | nil => simp [List.isPrefixOf, ho]
    | cons a rest =>
      have := ih rest hos
      rw [List.cons_append, List.isPrefixOf, List.isPrefixOf, this]

theorem replaceFrom_split (o : Char) (os new : Str) (c : Char) (hc : c ∉ o :: os)
    (v u : Str) (k : Nat) (hk : k ≤ u.length) :
    replaceFrom (o :: os) new k (u ++ c :: v) =
      replaceFrom (o :: os) new k u ++ c :: replaceFrom (o :: os) new 0 v := by
  induction u generalizing k with
  | nil =>
    have hk0 : k = 0 := by simpa using hk
    subst hk0
    have ho : o ≠ c := fun e => hc (by simp [e])
    simp [replaceFrom, List.isPrefixOf, ho]
  | cons x xs ih =>
    cases k with
    | succ k =>
      simp only [List.cons_append, replaceFrom]
      exact ih k (by simpa using hk)
    | zero =>
      have hpre := isPrefixOf_before c v (o :: os) (x :: xs) hc
      by_cases hp : (o :: os).isPrefixOf (x :: xs) = true
      · have hlen : (o :: os).length ≤ (x :: xs).length :=
          (List.isPrefixOf_iff_prefix.mp hp).length_le
        have hp' : (o :: os).isPrefixOf (x :: (xs ++ c :: v)) = true := by
          rw [← hp, ← hpre]
          rfl
        rw [List.cons_append, replaceFrom, if_pos hp', replaceFrom, if_pos hp,
          ih _ (by simpa using hlen)]
        simp
      · have hp' : ¬ (o :: os).isPrefixOf (x :: (xs ++ c :: v)) = true := by
          intro h
          apply hp
          rw [← hpre]
          exact h
        rw [List.cons_append, replaceFrom, if_neg hp', replaceFrom, if_neg hp,
          ih 0 (Nat.zero_le _)]
        rfl

theorem collapseMinus_split (c : Char) (hc : c ≠ '-') (u v : Str) :
    collapseMinus (u ++ c :: v) = collapseMinus u ++ c :: collapseMinus v := by
  simp only [collapseMinus, ReplaceAll, List.cons_ne_nil, if_false]
  rw [replaceFrom_split '-' ['-', '-'] ['-'] c (by simpa using hc) v u 0 (Nat.zero_le _),
    replaceFrom_split '-' ['-'] ['+'] c (by simpa using hc) _ _ 0 (Nat.zero_le _)]

theorem normalizeOperators_split (c : Char) (hsp : isSpace c = true) (hc : c ≠ ' ')
    (s1 s2 : Str) :
    normalizeOperators (s1 ++ c :: s2) = normalizeOperators s1 ++ c :: normalizeOperators s2 := by
  have hminus : c ≠ '-' := fun e => by
    rw [e] at hsp
    revert hsp
    decide
  have hpad : padChar c = [c] := by
    rcases padChar_cases c with ⟨_, h, _⟩ | h
    · rw [hsp] at h
      exact Bool.noConfusion h
    · exact h
  have hkeep : (c != ' ') = true := by simpa using hc
  rw [normalizeOperators_eq, normalizeOperators_eq, normalizeOperators_eq, List.filter_append,
    List.filter_cons, hkeep, if_pos rfl, collapseMinus_split c hminus, List.flatMap_append,
    List.flatMap_cons, hpad]
  rfl

theorem fieldsFrom_split (c : Char) (hsp : isSpace c = true) (y x cur : Str) :
    fieldsFrom cur (x ++ c :: y) = fieldsFrom cur x ++ fieldsFrom [] y := by
  induction x generalizing cur with
  | nil =>
    rw [List.nil_append, fieldsFrom_space_char cur c hsp]
    by_cases h : cur = []
    · simp [h, fieldsFrom]
    · simp [h, fieldsFrom]
  | cons a rest ih =>
    by_cases ha : isSpace a = true
    · rw [List.cons_append, fieldsFrom_space_char cur a ha, fieldsFrom_space_char cur a ha,
        ih []]
      by_cases h : cur = []
      · simp [h]
      · simp [h]
    · have ha' : isSpace a = false := by simpa using ha
      have e1 : fieldsFrom cur (a :: (rest ++ c :: y)) =
          fieldsFrom (cur ++ [a]) (rest ++ c :: y) := by
        simp [fieldsFrom, ha']
      have e2 : fieldsFrom cur (a :: rest) = fieldsFrom (cur ++ [a]) rest := by
        simp [fieldsFrom, ha']
      rw [List.cons_append, e1, e2, ih]

/-! # Properties of the program -/

/-- C1: on every well-formed infix expression over non-negative decimal literals that
fit `int`, letter-only variables present in the store, the operators `+ - * /` and
nested parentheses, written with U+0020 spaces placed anywhere, in which no division
has a divisor evaluating to 0, `processInput` leaves the store alone and prints the
value of the reference evaluator (precedence of `* /` over `+ -`, left association,
Go `int` arithmetic). -/
theorem expression_value (L : Char → Bool) (hL : LetterTable L) (vars : Store) (e : Expr)
    (hok : e.operandsOK L vars = true) (hfit : e.fits 1 = true) (h4 : e.fourOps = true)
    (hdz : e.dividesByZero vars = false) (s : Str)
    (hs : s.filter (fun c => c != ' ') = e.text) :
    (e.value vars).isSome = true ∧
      processInput L vars s = (vars, (e.value vars).map formatInt) := by
  have hv : e.value vars ≠ none := fun h => by
    rw [(dividesByZero_iff vars e hok h4).mpr h] at hdz
    exact Bool.noConfusion hdz
  obtain ⟨n, hn⟩ := Option.ne_none_iff_exists'.mp hv
  rw [processInput_expr hL vars e hok hfit s hs, outcome_fourOps vars e hok h4, hn]
  exact ⟨rfl, rfl⟩

/-- Witness for C1: `2 + 3 * 4` prints 14, and with `n` holding 7 the line
`( n-1 )*2 - 10 / 4` prints 10. -/
theorem expression_value_witness :
    processInput asciiLetter emptyStore "2 + 3 * 4".toList = (emptyStore, some "14".toList) ∧
    processInput asciiLetter (emptyStore.set "n".toList 7) "( n-1 )*2 - 10 / 4".toList =
      (emptyStore.set "n".toList 7, some "10".toList) :=
  ⟨(expression_value asciiLetter asciiLetter_table emptyStore
      (.bin .add (.lit "2".toList) (.bin .mul (.lit "3".toList) (.lit "4".toList)))
      (by decide) (by decide) (by decide) (by decide) "2 + 3 * 4".toList (by decide)).2,
    (expression_value asciiLetter asciiLetter_table (emptyStore.set "n".toList 7)
      (.bin .sub
        (.bin .mul (.paren (.bin .sub (.var "n".toList) (.lit "1".toList))) (.lit "2".toList))
        (.bin .div (.lit "10".toList) (.lit "4".toList)))
      (by decide) (by decide) (by decide) (by decide) "( n-1 )*2 - 10 / 4".toList
      (by decide)).2⟩

/-- C2: what the code does with `^`. For all non-negative decimal literals `a`, `b`,
`c` the line `a ^ b ^ c` prints `invalid operator ^`, where the specification gives
the value `(a^b)^c`: `calculatePostfix` has no case for `^`. -/
theorem power_operator_rejected (L : Char → Bool) (hL : LetterTable L) (vars : Store)
    (a b c : Str) (ha : isDecimalLiteral a = true) (hb : isDecimalLiteral b = true)
    (hc : isDecimalLiteral c = true) :
    processInput L vars (a ++ [' ', '^', ' '] ++ b ++ [' ', '^', ' '] ++ c) =
      (vars, some "invalid operator ^".toList) ∧
    (Expr.bin .pow (.bin .pow (.lit a) (.lit b)) (.lit c)).value vars =
      some (wrap (wrap ((digitsVal a : Int) ^ digitsVal b) ^ digitsVal c)) := by
  have wa : isWord a = true := digits_isWord ((isDecimalLiteral_iff a).mp ha).2.1
  have wb : isWord b = true := digits_isWord ((isDecimalLiteral_iff b).mp hb).2.1
  have wc : isWord c = true := digits_isWord ((isDecimalLiteral_iff c).mp hc).2.1
  refine ⟨?_, ?_⟩
  · have hs : (a ++ [' ', '^', ' '] ++ b ++ [' ', '^', ' '] ++ c).filter (fun x => x != ' ') =
        (Expr.bin .pow (.bin .pow (.lit a) (.lit b)) (.lit c)).text := by
      simp only [List.filter_append, filter_space_word wa, filter_space_word wb,
        filter_space_word wc, text_bin, text_lit, Op.symbol]
      simp
    rw [processInput_expr hL vars (Expr.bin .pow (.bin .pow (.lit a) (.lit b)) (.lit c))
      (by simp [Expr.operandsOK, ha, hb, hc]) rfl _ hs]
    rfl
  · simp [Expr.value, Op.apply]

/-- Witness for C2: `2 ^ 3 ^ 2` prints `invalid operator ^`; the reference value is 64. -/
theorem power_operator_rejected_witness :
    processInput asciiLetter emptyStore "2 ^ 3 ^ 2".toList =
      (emptyStore, some "invalid operator ^".toList) ∧
    (Expr.bin .pow (.bin .pow (.lit "2".toList) (.lit "3".toList))
      (.lit "2".toList)).value emptyStore = some 64 :=
  power_operator_rejected asciiLetter asciiLetter_table emptyStore "2".toList "3".toList
    "2".toList (by decide) (by decide) (by decide)

/-- C3: assignment round trip. For a non-empty letter-only name `v`, any store and
optionally signed decimal literals `n`, `m` within the range of `int`: the line `v = n`
prints nothing and afterwards the line `v` prints the value of `n`; after a further
line `v = m` the line `v` prints the value of `m`. -/
theorem assignment_round_trip (L : Char → Bool) (hL : LetterTable L) (vars : Store)
    (v n m : Str) (hne : v ≠ []) (hv : ∀ c ∈ v, L c = true)
    (hn : isIntLiteral n = true) (hm : isIntLiteral m = true) :
    (processInput L vars (v ++ [' ', '=', ' '] ++ n)).2 = none ∧
    processInput L (processInput L vars (v ++ [' ', '=', ' '] ++ n)).1 v =
      ((processInput L vars (v ++ [' ', '=', ' '] ++ n)).1,
        some (formatInt (literalValue n))) ∧
    (processInput L (processInput L vars (v ++ [' ', '=', ' '] ++ n)).1
      (v ++ [' ', '=', ' '] ++ m)).2 = none ∧
    processInput L
      (processInput L (processInput L vars (v ++ [' ', '=', ' '] ++ n)).1
        (v ++ [' ', '=', ' '] ++ m)).1 v =
      ((processInput L (processInput L vars (v ++ [' ', '=', ' '] ++ n)).1
        (v ++ [' ', '=', ' '] ++ m)).1, some (formatInt (literalValue m))) := by
  have hword := letters_isWord hL hv
  have assign : ∀ (st : Store) (k : Str), isIntLiteral k = true →
      processInput L st (v ++ [' ', '=', ' '] ++ k) = (st.set v (literalValue k), none) := by
    intro st k hk
    obtain ⟨_, hch, _⟩ := intLiteral_chars hk
    have hshape : v ++ [' ', '=', ' '] ++ k = (v ++ [' ']) ++ '=' :: (' ' :: k) := by simp
    have hvn : ∀ d : Char, isSpecial d = true → d ∉ v := fun d hd => word_not_mem hword hd
    have hpar : (v ++ [' ', '=', ' '] ++ k).count '(' = (v ++ [' ', '=', ' '] ++ k).count ')' := by
      have a1 : k.count '(' = 0 :=
        List.count_eq_zero_of_not_mem (fun hmem => (hch _ hmem).2.2.1 rfl)
      have a2 : k.count ')' = 0 :=
        List.count_eq_zero_of_not_mem (fun hmem => (hch _ hmem).2.2.2 rfl)
      have a3 : v.count '(' = 0 := List.count_eq_zero_of_not_mem (hvn _ (by decide))
      have a4 : v.count ')' = 0 := List.count_eq_zero_of_not_mem (hvn _ (by decide))
      simp [List.count_append, a1, a2, a3, a4, List.count_cons]
    rw [processInput_assignment L st _ hpar (by simp), hshape]
    have hl : '=' ∉ v ++ [' '] := by
      simp only [List.mem_append, List.mem_singleton, not_or]
      exact ⟨hvn _ (by decide), by decide⟩
    have hr : '=' ∉ ' ' :: k := by
      simp only [List.mem_cons, not_or]
      exact ⟨by decide, fun hmem => (hch _ hmem).2.1 rfl⟩
    have t1 : TrimSpace (v ++ [' ']) = v := by
      have := TrimSpace_padded [] v [' '] (by simp) (by simp [isSpace])
        (word_ne_nil_all hword)
      simpa using this
    have t2 : TrimSpace (' ' :: k) = k := by
      have := TrimSpace_padded [' '] k [] (by simp [isSpace]) (by simp)
        (fun d hd => (hch d hd).1)
      simpa using this
    have := handleAssignment_ok L st (v ++ [' ']) (' ' :: k) (literalValue k) hl hr
      (by rw [t1]; exact letters_isValidVariable hv)
      (by rw [t2]; exact getNumFromString_intLiteral hL st hk)
    rw [this, t1]
  have look : ∀ (st : Store) (x : Int),
      processInput L (st.set v x) v = (st.set v x, some (formatInt x)) := by
    intro st x
    rw [processInput_word L _ hne hword, getNumFromString_variable L _ hv]
    simp [Store.set, printed]
  rw [assign vars n hn]
  refine ⟨rfl, look vars _, ?_⟩
  rw [assign _ m hm]
  exact ⟨rfl, look _ _⟩

/-- Witness for C3: `x = 5` then `x` prints 5; then `x = 7` and `x` prints 7. -/
theorem assignment_round_trip_witness :
    LetterTable asciiLetter ∧
    (processInput asciiLetter emptyStore "x = 5".toList).2 = none ∧
    processInput asciiLetter (processInput asciiLetter emptyStore "x = 5".toList).1 "x".toList =
      ((processInput asciiLetter emptyStore "x = 5".toList).1, some "5".toList) ∧
    (processInput asciiLetter (processInput asciiLetter emptyStore "x = 5".toList).1
      "x = 7".toList).2 = none ∧
    processInput asciiLetter
      (processInput asciiLetter (processInput asciiLetter emptyStore "x = 5".toList).1
        "x = 7".toList).1 "x".toList =
      ((processInput asciiLetter (processInput asciiLetter emptyStore "x = 5".toList).1
        "x = 7".toList).1, some "7".toList) :=
  ⟨asciiLetter_table,
    assignment_round_trip asciiLetter asciiLetter_table emptyStore "x".toList "5".toList
      "7".toList (by decide) (by decide) (by decide) (by decide)⟩

/-- C4: division by zero. On every well-formed infix expression over non-negative
literals, defined letter-only variables, `+ - * /` and nested parentheses (spaces
anywhere), `processInput` prints `division by zero` exactly when the reference
evaluation reaches a division whose right operand evaluates to 0, and otherwise
prints the integer value; the store is unchanged. In particular `a / b` prints
`division by zero` for all operands `a`, `b` with `b` resolving to 0. -/
theorem division_by_zero (L : Char → Bool) (hL : LetterTable L) (vars : Store) :
    (∀ (e : Expr) (s : Str), e.operandsOK L vars = true → e.fits 1 = true →
      e.fourOps = true → s.filter (fun c => c != ' ') = e.text →
      (processInput L vars s).1 = vars ∧
      ((processInput L vars s).2 = some "division by zero".toList ↔
        e.dividesByZero vars = true) ∧
      (e.dividesByZero vars = false →
        ∃ n : Int, e.value vars = some n ∧ (processInput L vars s).2 = some (formatInt n))) ∧
    (∀ a b : Expr, a.isOperand = true → b.isOperand = true → a.operandsOK L vars = true →
      b.operandsOK L vars = true → b.value vars = some 0 →
      processInput L vars (a.text ++ [' ', '/', ' '] ++ b.text) =
        (vars, some "division by zero".toList)) := by
  have main : ∀ (e : Expr) (s : Str), e.operandsOK L vars = true → e.fits 1 = true →
      e.fourOps = true → s.filter (fun c => c != ' ') = e.text →
      processInput L vars s =
        (vars, some (match e.value vars with
          | some v => formatInt v
          | none => "division by zero".toList)) := by
    intro e s hok hfit h4 hs
    rw [processInput_expr hL vars e hok hfit s hs, outcome_fourOps vars e hok h4]
    cases e.value vars <;> rfl
  refine ⟨?_, ?_⟩
  · intro e s hok hfit h4 hs
    have hm := main e s hok hfit h4 hs
    have hiff := dividesByZero_iff vars e hok h4
    refine ⟨by rw [hm], ?_, ?_⟩
    · rw [hm, hiff]
      cases hv : e.value vars with
      | none => simp
      | some v =>
        simp only [Option.some.injEq, reduceCtorEq, iff_false]
        exact formatInt_ne_division v
    · intro hdz
      cases hv : e.value vars with
      | none =>
        rw [hiff.mpr hv] at hdz
        exact Bool.noConfusion hdz
      | some v => exact ⟨v, rfl, by rw [hm, hv]⟩
  · intro a b ha hb hoka hokb hzero
    have hfa : ∀ p, a.fits p = true := fun p => by
      cases a <;> first | rfl | exact Bool.noConfusion ha
    have hfb : ∀ p, b.fits p = true := fun p => by
      cases b <;> first | rfl | exact Bool.noConfusion hb
    have h4a : a.fourOps = true := by
      cases a <;> first | rfl | exact Bool.noConfusion ha
    have h4b : b.fourOps = true := by
      cases b <;> first | rfl | exact Bool.noConfusion hb
    have hsa : a.text.filter (fun c => c != ' ') = a.text := by
      rw [List.filter_eq_self]
      intro c hc
      have : c ≠ ' ' := fun e => (text_chars hL a hoka).2.1 (e ▸ hc)
      simpa using this
    have hsb : b.text.filter (fun c => c != ' ') = b.text := by
      rw [List.filter_eq_self]
      intro c hc
      have : c ≠ ' ' := fun e => (text_chars hL b hokb).2.1 (e ▸ hc)
      simpa using this
    have hs : (a.text ++ [' ', '/', ' '] ++ b.text).filter (fun c => c != ' ') =
        (Expr.bin .div a b).text := by
      simp only [List.filter_append, hsa, hsb, text_bin, Op.symbol]
      simp
    have hm := main (.bin .div a b) _ (by simp [Expr.operandsOK, hoka, hokb])
      (by simp [Expr.fits, Op.prec, hfa, hfb]) (by simp [Expr.fourOps, h4a, h4b]) hs
    rw [hm]
    have hav : ∃ x, a.value vars = some x := by
      cases a with
      | lit d => exact ⟨_, rfl⟩
      | var v => exact Option.isSome_iff_exists.mp (var_ok hoka).2.2
      | paren e => exact Bool.noConfusion ha
      | bin op l r => exact Bool.noConfusion ha
    obtain ⟨x, hx⟩ := hav
    simp [Expr.value, hx, hzero, Op.apply]

/-- Witness for C4: `10 / 0` prints `division by zero`, so does `7 / z` with `z`
holding 0; `1 + 6 / (2 - 2)` reaches a zero divisor and `(6 - 6) / 2` does not. -/
theorem division_by_zero_witness :
    processInput asciiLetter emptyStore "10 / 0".toList =
      (emptyStore, some "division by zero".toList) ∧
    processInput asciiLetter (emptyStore.set "z".toList 0) "7 / z".toList =
      (emptyStore.set "z".toList 0, some "division by zero".toList) ∧
    (processInput asciiLetter emptyStore "1 + 6 / (2 - 2)".toList).2 =
      some "division by zero".toList ∧
    (∃ n : Int, n = 0 ∧
      (processInput asciiLetter emptyStore "(6 - 6) / 2".toList).2 = some (formatInt n)) :=
  ⟨(division_by_zero asciiLetter asciiLetter_table emptyStore).2
      (.lit "10".toList) (.lit "0".toList) rfl rfl (by decide) (by decide) (by decide),
    (division_by_zero asciiLetter asciiLetter_table (emptyStore.set "z".toList 0)).2
      (.lit "7".toList) (.var "z".toList) rfl rfl (by decide) (by decide) (by decide),
    (((division_by_zero asciiLetter asciiLetter_table emptyStore).1
      (.bin .add (.lit "1".toList)
        (.bin .div (.lit "6".toList)
          (.paren (.bin .sub (.lit "2".toList) (.lit "2".toList)))))
      "1 + 6 / (2 - 2)".toList (by decide) (by decide) (by decide) (by decide)).2.1).mpr
      (by decide),
    by
      obtain ⟨n, hn, hp⟩ := ((division_by_zero asciiLetter asciiLetter_table emptyStore).1
        (.bin .div (.paren (.bin .sub (.lit "6".toList) (.lit "6".toList))) (.lit "2".toList))
        "(6 - 6) / 2".toList (by decide) (by decide) (by decide) (by decide)).2.2 (by decide)
      refine ⟨n, ?_, hp⟩
      have h0 : (Expr.bin .div (.paren (.bin .sub (.lit "6".toList) (.lit "6".toList)))
          (.lit "2".toList)).value emptyStore = some 0 := by decide
      rw [h0] at hn
      exact (Option.some.inj hn).symm⟩

/-- C5: global parenthesis check. Every line whose number of `(` differs from its
number of `)`, with or without `=`, prints exactly `invalid expression` and leaves
the store unchanged. -/
theorem paren_count_check (L : Char → Bool) (vars : Store) (s : Str)
    (h : Count s '(' ≠ Count s ')') :
    processInput L vars s = (vars, some "invalid expression".toList) := by
  unfold processInput
  rw [if_pos h]

/-- Witness for C5: the lines `(1 + 2` and `x = (5`. -/
theorem paren_count_check_witness :
    (Count "(1 + 2".toList '(' ≠ Count "(1 + 2".toList ')' ∧
      processInput asciiLetter emptyStore "(1 + 2".toList =
        (emptyStore, some "invalid expression".toList)) ∧
    (Count "x = (5".toList '(' ≠ Count "x = (5".toList ')' ∧
      processInput asciiLetter emptyStore "x = (5".toList =
        (emptyStore, some "invalid expression".toList)) :=
  ⟨⟨by decide, paren_count_check asciiLetter emptyStore "(1 + 2".toList (by decide)⟩,
    ⟨by decide, paren_count_check asciiLetter emptyStore "x = (5".toList (by decide)⟩⟩

/-- C6: minus-run normalization. For every line in which, after deleting U+0020
spaces, every maximal run of `-` has length 1, 2 or 3 (with or without `=`), the
token sequence produced by `normalizeOperators` and `strings.Fields` is the token
sequence of the line in which every run of exactly three `-` is replaced by a single
`-` and every run of exactly two `-` by a single `+`. Consequently, for non-negative
literals `a`, `b`, the line `a - -b` prints `a+b` and `a --- b` prints `a-b` (Go `int`
arithmetic). -/
theorem minus_run_normalization (L : Char → Bool) (hL : LetterTable L) (vars : Store) :
    (∀ s : Str, runsAtMost 3 0 (s.filter (fun c => c != ' ')) = true →
      normalizeOperators s = (collapseRuns (s.filter (fun c => c != ' '))).flatMap padChar ∧
      Fields (normalizeOperators s) =
        Fields (normalizeOperators (collapseRuns (s.filter (fun c => c != ' '))))) ∧
    (∀ a b : Str, isDecimalLiteral a = true → isDecimalLiteral b = true →
      processInput L vars (a ++ [' ', '-', ' ', '-'] ++ b) =
        (vars, some (formatInt (wrap ((digitsVal a : Int) + digitsVal b)))) ∧
      processInput L vars (a ++ [' ', '-', '-', '-', ' '] ++ b) =
        (vars, some (formatInt (wrap ((digitsVal a : Int) - digitsVal b))))) := by
  refine ⟨?_, ?_⟩
  · intro s h
    have h1 : normalizeOperators s =
        (collapseRuns (s.filter (fun c => c != ' '))).flatMap padChar := by
      have := collapseMinus_runs _ 0 h
      simp only [List.replicate_zero, List.nil_append] at this
      rw [normalizeOperators_eq, this]
      rfl
    have hsp : ' ' ∉ s.filter (fun c => c != ' ') := by simp [List.mem_filter]
    exact ⟨h1, by rw [normalizeOperators_collapsed _ hsp h, h1]⟩
  · intro a b ha hb
    obtain ⟨_, hda, _⟩ := (isDecimalLiteral_iff a).mp ha
    obtain ⟨hnb, hdb, _⟩ := (isDecimalLiteral_iff b).mp hb
    have wa : isWord a = true := digits_isWord hda
    have wb : isWord b = true := digits_isWord hdb
    have na : ∀ d : Char, isSpecial d = true → d ∉ a := fun d hd => word_not_mem wa hd
    have nb : ∀ d : Char, isSpecial d = true → d ∉ b := fun d hd => word_not_mem wb hd
    have ca : ∀ d : Char, isSpecial d = true → a.count d = 0 :=
      fun d hd => List.count_eq_zero_of_not_mem (na d hd)
    have cb : ∀ d : Char, isSpecial d = true → b.count d = 0 :=
      fun d hd => List.count_eq_zero_of_not_mem (nb d hd)
    have hok : ∀ op : Op, (Expr.bin op (.lit a) (.lit b)).operandsOK L vars = true :=
      fun op => by simp [Expr.operandsOK, ha, hb]
    refine ⟨?_, ?_⟩
    · have hs : collapseMinus
          ((a ++ [' ', '-', ' ', '-'] ++ b).filter (fun c => c != ' ')) =
          (Expr.bin .add (.lit a) (.lit b)).text := by
        have hf : (a ++ [' ', '-', ' ', '-'] ++ b).filter (fun c => c != ' ') =
            a ++ '-' :: '-' :: b := by
          simp only [List.filter_append, filter_space_word wa, filter_space_word wb]
          simp
        rw [hf, collapseMinus_double a b (na _ (by decide)) (nb _ (by decide)) hnb, text_bin,
          text_lit, text_lit]
        rfl
      rw [processInput_collapsed hL vars _ (hok .add) rfl _
        (by simp [List.count_append, List.count_cons, ca '(' (by decide), ca ')' (by decide),
          cb '(' (by decide), cb ')' (by decide)])
        (by simp [na '=' (by decide), nb '=' (by decide)]) hs]
      rfl
    · have hs : collapseMinus
          ((a ++ [' ', '-', '-', '-', ' '] ++ b).filter (fun c => c != ' ')) =
          (Expr.bin .sub (.lit a) (.lit b)).text := by
        have hf : (a ++ [' ', '-', '-', '-', ' '] ++ b).filter (fun c => c != ' ') =
            a ++ '-' :: '-' :: '-' :: b := by
          simp only [List.filter_append, filter_space_word wa, filter_space_word wb]
          simp
        rw [hf, collapseMinus_triple a b (na _ (by decide)) (nb _ (by decide)), text_bin,
          text_lit, text_lit]
        rfl
      rw [processInput_collapsed hL vars _ (hok .sub) rfl _
        (by simp [List.count_append, List.count_cons, ca '(' (by decide), ca ')' (by decide),
          cb '(' (by decide), cb ')' (by decide)])
        (by simp [na '=' (by decide), nb '=' (by decide)]) hs]
      rfl

/-- Witness for C6: `5 - -3` prints 8, `5 --- 3` prints 2, and `1---2 -- 3 - 4` has the
tokens of `1-2+3-4`. -/
theorem minus_run_normalization_witness :
    processInput asciiLetter emptyStore "5 - -3".toList = (emptyStore, some "8".toList) ∧
    processInput asciiLetter emptyStore "5 --- 3".toList = (emptyStore, some "2".toList) ∧
    Fields (normalizeOperators "1---2 -- 3 - 4".toList) =
      Fields (normalizeOperators "1-2+3-4".toList) :=
  ⟨((minus_run_normalization asciiLetter asciiLetter_table emptyStore).2 "5".toList
      "3".toList (by decide) (by decide)).1,
    ((minus_run_normalization asciiLetter asciiLetter_table emptyStore).2 "5".toList
      "3".toList (by decide) (by decide)).2,
    ((minus_run_normalization asciiLetter asciiLetter_table emptyStore).1
      "1---2 -- 3 - 4".toList (by decide)).2⟩

/-- C7: an invalid assignment is reported and atomic. A line with balanced parenthesis
counts that contains `=` is `lhs`, `=`, `rhs` with no `=` in `lhs`. If `rhs` contains
another `=`, or the trimmed `lhs` has a character that is neither a letter nor white
space, or operand resolution of the trimmed `rhs` fails, the line prints exactly
`Invalid assignment` and the store is unchanged. -/
theorem invalid_assignment_atomic (L : Char → Bool) (vars : Store) (lhs rhs : Str)
    (hpar : Count (lhs ++ '=' :: rhs) '(' = Count (lhs ++ '=' :: rhs) ')')
    (hl : '=' ∉ lhs)
    (h : '=' ∈ rhs ∨ (∃ c ∈ TrimSpace lhs, L c = false ∧ isSpace c = false) ∨
      ∃ err, getNumFromString L vars (TrimSpace rhs) = .error err) :
    processInput L vars (lhs ++ '=' :: rhs) = (vars, some "Invalid assignment".toList) := by
  rw [processInput_assignment L vars _ hpar (by simp)]
  apply handleAssignment_invalid L vars lhs rhs hl
  rcases h with h | ⟨c, hc, h1, h2⟩ | h
  · exact Or.inl h
  · exact Or.inr (Or.inl (isValidVariable_false L hc h1 h2))
  · exact Or.inr (Or.inr h)

/-- Witness for C7: the lines `1 = 2`, `x = 1 + 2`, `x = y` with `y` unassigned and
`x = 1 = 2`. -/
theorem invalid_assignment_atomic_witness :
    processInput asciiLetter emptyStore "1 = 2".toList =
      (emptyStore, some "Invalid assignment".toList) ∧
    processInput asciiLetter emptyStore "x = 1 + 2".toList =
      (emptyStore, some "Invalid assignment".toList) ∧
    processInput asciiLetter emptyStore "x = y".toList =
      (emptyStore, some "Invalid assignment".toList) ∧
    processInput asciiLetter emptyStore "x = 1 = 2".toList =
      (emptyStore, some "Invalid assignment".toList) :=
  ⟨invalid_assignment_atomic asciiLetter emptyStore "1 ".toList " 2".toList (by decide)
      (by decide) (Or.inr (Or.inl ⟨'1', by decide, by decide, by decide⟩)),
    invalid_assignment_atomic asciiLetter emptyStore "x ".toList " 1 + 2".toList (by decide)
      (by decide) (Or.inr (Or.inr ⟨"invalid identifier".toList, rfl⟩)),
    invalid_assignment_atomic asciiLetter emptyStore "x ".toList " y".toList (by decide)
      (by decide) (Or.inr (Or.inr ⟨"unknown variable".toList, rfl⟩)),
    invalid_assignment_atomic asciiLetter emptyStore "x ".toList " 1 = 2".toList
      (by decide) (by decide) (Or.inl (by decide))⟩

/-- C8: what the code does on an assignment whose left part is empty or only white
space (such as `= 5`) and whose right part resolves to `value`: it prints nothing and
stores `value` under the empty name, where a valid variable name is required to be
non-empty. -/
theorem empty_name_assignment_accepted (L : Char → Bool) (vars : Store) (lhs rhs : Str)
    (value : Int)
    (hpar : Count (lhs ++ '=' :: rhs) '(' = Count (lhs ++ '=' :: rhs) ')')
    (hl : ∀ c ∈ lhs, isSpace c = true) (hr : '=' ∉ rhs)
    (hv : getNumFromString L vars (TrimSpace rhs) = .ok value) :
    processInput L vars (lhs ++ '=' :: rhs) = (vars.set [] value, none) := by
  rw [processInput_assignment L vars _ hpar (by simp)]
  have t1 : TrimSpace lhs = [] := by
    have := TrimSpace_padded lhs [] [] hl (by simp) (by simp)
    simpa using this
  have hl' : '=' ∉ lhs := fun hmem => by
    have := hl _ hmem
    revert this
    decide
  have := handleAssignment_ok L vars lhs rhs value hl' hr (by rw [t1]; rfl) hv
  rw [this, t1]

/-- Witness for C8: the line `= 5` stores 5 under the empty name and prints nothing. -/
theorem empty_name_assignment_accepted_witness :
    processInput asciiLetter emptyStore "= 5".toList = (emptyStore.set [] 5, none) :=
  empty_name_assignment_accepted asciiLetter emptyStore [] " 5".toList 5 (by decide)
    (by decide) (by decide) rfl

/-- C9: unknown variable. For a non-empty letter-only name `v` and a store without
the key `v`, the line `v` prints exactly `unknown variable`. -/
theorem unknown_variable (L : Char → Bool) (hL : LetterTable L) (vars : Store) (v : Str)
    (hne : v ≠ []) (hv : ∀ c ∈ v, L c = true) (habs : vars v = none) :
    processInput L vars v = (vars, some "unknown variable".toList) := by
  rw [processInput_word L vars hne (letters_isWord hL hv), getNumFromString_variable L vars hv,
    habs]
  rfl

/-- Witness for C9: the line `y` with no prior assignment. -/
theorem unknown_variable_witness :
    LetterTable asciiLetter ∧
    processInput asciiLetter emptyStore "y".toList =
      (emptyStore, some "unknown variable".toList) :=
  ⟨asciiLetter_table,
    unknown_variable asciiLetter asciiLetter_table emptyStore "y".toList (by decide)
      (by decide) rfl⟩

/-- C10: invalid identifier. A line that is a single token (no white space, none of
`= + - * / ^ ( )`), has a character that is not a letter and is not a decimal literal
within the range of `int` prints exactly `invalid identifier`, whatever the store. -/
theorem invalid_identifier (L : Char → Bool) (vars : Store) (t : Str)
    (hword : isWord t = true) (hnl : ∃ c ∈ t, L c = false)
    (hlit : isDecimalLiteral t = false) :
    processInput L vars t = (vars, some "invalid identifier".toList) := by
  obtain ⟨c, hc, hcl⟩ := hnl
  have hne : t ≠ [] := List.ne_nil_of_mem hc
  have hv := isValidVariable_false L hc hcl (word_ne_nil_all hword c hc)
  rw [processInput_word L vars hne hword]
  simp only [getNumFromString, hv, Bool.false_eq_true, if_false]
  rw [TrimSpace_word t (word_ne_nil_all hword), Atoi_word_not_decimal hword hlit]
  rfl

/-- Witness for C10: the lines `3a`, `a1`, `1.5` and `9223372036854775808`. -/
theorem invalid_identifier_witness :
    processInput asciiLetter emptyStore "3a".toList =
      (emptyStore, some "invalid identifier".toList) ∧
    processInput asciiLetter emptyStore "a1".toList =
      (emptyStore, some "invalid identifier".toList) ∧
    processInput asciiLetter emptyStore "1.5".toList =
      (emptyStore, some "invalid identifier".toList) ∧
    processInput asciiLetter emptyStore "9223372036854775808".toList =
      (emptyStore, some "invalid identifier".toList) :=
  ⟨invalid_identifier asciiLetter emptyStore "3a".toList (by decide)
      ⟨'3', by decide, by decide⟩ (by decide),
    invalid_identifier asciiLetter emptyStore "a1".toList (by decide)
      ⟨'1', by decide, by decide⟩ (by decide),
    invalid_identifier asciiLetter emptyStore "1.5".toList (by decide)
      ⟨'1', by decide, by decide⟩ (by decide),
    invalid_identifier asciiLetter emptyStore "9223372036854775808".toList (by decide)
      ⟨'9', by decide, by decide⟩ (by decide)⟩

/-- C11: evaluation never mutates the store. For every line without `=`, well-formed or
not, and every store, `processInput` returns the store as it was, so processing the
same line a second time prints the same output and again leaves the store alone. -/
theorem evaluation_keeps_store (L : Char → Bool) (vars : Store) (s : Str) (heq : '=' ∉ s) :
    (processInput L vars s).1 = vars ∧
      processInput L (processInput L vars s).1 s = processInput L vars s := by
  have h := processInput_store_of_no_eq L vars s heq
  exact ⟨h, by rw [h]⟩

/-- Witness for C11: the well-formed line `2 + 3 * 4` and the malformed line `)1 + 2(`. -/
theorem evaluation_keeps_store_witness :
    ((processInput asciiLetter emptyStore "2 + 3 * 4".toList).1 = emptyStore ∧
      processInput asciiLetter (processInput asciiLetter emptyStore "2 + 3 * 4".toList).1
        "2 + 3 * 4".toList = processInput asciiLetter emptyStore "2 + 3 * 4".toList) ∧
    ((processInput asciiLetter emptyStore ")1 + 2(".toList).1 = emptyStore ∧
      processInput asciiLetter (processInput asciiLetter emptyStore ")1 + 2(".toList).1
        ")1 + 2(".toList = processInput asciiLetter emptyStore ")1 + 2(".toList) :=
  ⟨evaluation_keeps_store asciiLetter emptyStore "2 + 3 * 4".toList (by decide),
    evaluation_keeps_store asciiLetter emptyStore ")1 + 2(".toList (by decide)⟩

/-- C12: successful assignment frame. A line `lhs`, `=`, `rhs` with exactly one `=` and
no parenthesis, whose trimmed left part `k` is made only of letters and white space
and whose trimmed right part resolves to the integer `n`, prints nothing; the new
store maps `k` to `n` and agrees with the old store on every other key. -/
theorem assignment_frame (L : Char → Bool) (vars : Store) (lhs rhs : Str) (n : Int)
    (hl : '=' ∉ lhs) (hr : '=' ∉ rhs)
    (hopen : '(' ∉ lhs ++ '=' :: rhs) (hclose : ')' ∉ lhs ++ '=' :: rhs)
    (hk : ∀ c ∈ TrimSpace lhs, L c = true ∨ isSpace c = true)
    (hv : getNumFromString L vars (TrimSpace rhs) = .ok n) :
    (processInput L vars (lhs ++ '=' :: rhs)).2 = none ∧
    (processInput L vars (lhs ++ '=' :: rhs)).1 (TrimSpace lhs) = some n ∧
    ∀ k : Str, k ≠ TrimSpace lhs →
      (processInput L vars (lhs ++ '=' :: rhs)).1 k = vars k := by
  have hpar : (lhs ++ '=' :: rhs).count '(' = (lhs ++ '=' :: rhs).count ')' := by
    rw [List.count_eq_zero_of_not_mem hopen, List.count_eq_zero_of_not_mem hclose]
  have hvalid : isValidVariable L (TrimSpace lhs) = true := by
    simp only [isValidVariable, List.all_eq_true, Bool.or_eq_true]
    exact hk
  rw [processInput_assignment L vars _ hpar (by simp),
    handleAssignment_ok L vars lhs rhs n hl hr hvalid hv]
  refine ⟨rfl, by simp [Store.set], ?_⟩
  intro k hne
  simp [Store.set, hne]

/-- Witness for C12: `x = 5` on the empty store, and `my var = x` on a store in which
`x` holds 5. -/
theorem assignment_frame_witness :
    ((processInput asciiLetter emptyStore "x = 5".toList).2 = none ∧
      (processInput asciiLetter emptyStore "x = 5".toList).1 "x".toList = some 5 ∧
      ∀ k : Str, k ≠ "x".toList →
        (processInput asciiLetter emptyStore "x = 5".toList).1 k = emptyStore k) ∧
    ((processInput asciiLetter (emptyStore.set "x".toList 5) "my var = x".toList).2 = none ∧
      (processInput asciiLetter (emptyStore.set "x".toList 5) "my var = x".toList).1
        "my var".toList = some 5 ∧
      ∀ k : Str, k ≠ "my var".toList →
        (processInput asciiLetter (emptyStore.set "x".toList 5) "my var = x".toList).1 k =
          (emptyStore.set "x".toList 5) k) :=
  ⟨assignment_frame asciiLetter emptyStore "x ".toList " 5".toList 5 (by decide) (by decide)
      (by decide) (by decide) (by decide) rfl,
    assignment_frame asciiLetter (emptyStore.set "x".toList 5) "my var ".toList " x".toList 5
      (by decide) (by decide) (by decide) (by decide) (by decide) rfl⟩

/-- C17, as the code has it: the tokenizer deletes every U+0020 space before anything
else, and no other white space. For every line the tokens are those of the line
with all U+0020 spaces deleted; `1 2` gives the single token `12`, and `-`, space,
`-` is collapsed like `--`. Every other white-space character `c` (a tab, U+00A0, ...)
is kept where it stands by `normalizeOperators` and separates tokens: the tokens of
`s1`, `c`, `s2` are the tokens of `s1` followed by the tokens of `s2`, so neither an
operand nor a minus run reaches across `c`. -/
theorem tokenizer_deletes_spaces :
    (∀ s : Str, Fields (normalizeOperators s) = Fields (normalizeOperators (deleteSpaces s))) ∧
    Fields (normalizeOperators "1 2".toList) = ["12".toList] ∧
    Fields (normalizeOperators "5 - - 3".toList) = Fields (normalizeOperators "5--3".toList) ∧
    Fields (normalizeOperators "5 - - 3".toList) = ["5".toList, "+".toList, "3".toList] ∧
    (∀ (c : Char) (s1 s2 : Str), isSpace c = true → c ≠ ' ' →
      normalizeOperators (s1 ++ c :: s2) =
        normalizeOperators s1 ++ c :: normalizeOperators s2 ∧
      Fields (normalizeOperators (s1 ++ c :: s2)) =
        Fields (normalizeOperators s1) ++ Fields (normalizeOperators s2)) := by
  refine ⟨fun s => by rw [normalizeOperators_deleteSpaces], by decide, by decide, by decide, ?_⟩
  intro c s1 s2 hsp hc
  have h := normalizeOperators_split c hsp hc s1 s2
  refine ⟨h, ?_⟩
  rw [h]
  exact fieldsFrom_split c hsp _ _ []

/-- Witness for C17: a tab and U+00A0 are kept and separate tokens. `1`, tab, `2` and
`1`, U+00A0, `2` give the two tokens `1` and `2`; `5-`, U+00A0, `-3` keeps both `-`
tokens. -/
theorem tokenizer_deletes_spaces_witness :
    (isSpace '\t' = true ∧ '\t' ≠ ' ' ∧
      Fields (normalizeOperators ("1".toList ++ '\t' :: "2".toList)) =
        ["1".toList, "2".toList]) ∧
    (isSpace (Char.ofNat 0xA0) = true ∧ Char.ofNat 0xA0 ≠ ' ' ∧
      Fields (normalizeOperators ("1".toList ++ Char.ofNat 0xA0 :: "2".toList)) =
        ["1".toList, "2".toList]) ∧
    normalizeOperators ("5-".toList ++ Char.ofNat 0xA0 :: "-3".toList) =
      normalizeOperators "5-".toList ++ Char.ofNat 0xA0 :: normalizeOperators "-3".toList ∧
    Fields (normalizeOperators ("5-".toList ++ Char.ofNat 0xA0 :: "-3".toList)) =
      ["5".toList, "-".toList, "-".toList, "3".toList] :=
  ⟨⟨by decide, by decide,
      (tokenizer_deletes_spaces.2.2.2.2 '\t' "1".toList "2".toList (by decide) (by decide)).2⟩,
    ⟨by decide, by decide,
      (tokenizer_deletes_spaces.2.2.2.2 (Char.ofNat 0xA0) "1".toList "2".toList (by decide)
        (by decide)).2⟩,
    (tokenizer_deletes_spaces.2.2.2.2 (Char.ofNat 0xA0) "5-".toList "-3".toList (by decide)
      (by decide)).1,
    (tokenizer_deletes_spaces.2.2.2.2 (Char.ofNat 0xA0) "5-".toList "-3".toList (by decide)
      (by decide)).2⟩

/-- Counterexample for C17: a tab is white space but is not deleted. `1`, tab, `2` gives
the two tokens `1` and `2`, where the line without white space gives `12`; and `5-`,
tab, `-3` keeps two `-` tokens, where the line without white space gives `5 + 3`. -/
theorem tokenizer_keeps_tab :
    Fields (normalizeOperators "1\t2".toList) = ["1".toList, "2".toList] ∧
    Fields (normalizeOperators (deleteWhitespace "1\t2".toList)) = ["12".toList] ∧
    Fields (normalizeOperators "1\t2".toList) ≠
      Fields (normalizeOperators (deleteWhitespace "1\t2".toList)) ∧
    Fields (normalizeOperators "5-\t-3".toList) ≠
      Fields (normalizeOperators (deleteWhitespace "5-\t-3".toList)) := by
  decide

/-- C20: a name with an internal space cannot be read back. For non-empty letter-only
words `p`, `q` and an integer literal `n`, the line `p q = n` prints nothing and
stores the value of `n` under the key `p q`; the line `p q` afterwards resolves the
name `pq`: it prints `unknown variable` when `pq` is not in the store and the value
of `pq` otherwise, whatever is stored under `p q`. -/
theorem spaced_name_not_read_back (L : Char → Bool) (hL : LetterTable L) (vars : Store)
    (p q n : Str) (hp : p ≠ []) (hq : q ≠ []) (hpl : ∀ c ∈ p, L c = true)
    (hql : ∀ c ∈ q, L c = true) (hn : isIntLiteral n = true) :
    processInput L vars (p ++ [' '] ++ q ++ [' ', '=', ' '] ++ n) =
      (vars.set (p ++ [' '] ++ q) (literalValue n), none) ∧
    processInput L (vars.set (p ++ [' '] ++ q) (literalValue n)) (p ++ [' '] ++ q) =
      (vars.set (p ++ [' '] ++ q) (literalValue n),
        some (match vars (p ++ q) with
          | none => "unknown variable".toList
          | some v => formatInt v)) := by
  have wp := letters_isWord hL hpl
  have wq := letters_isWord hL hql
  have wpq : isWord (p ++ q) = true := by
    rw [isWord_iff]
    intro c hc
    rcases List.mem_append.mp hc with h | h
    · exact (isWord_iff p).mp wp c h
    · exact (isWord_iff q).mp wq c h
  have hpql : ∀ c ∈ p ++ q, L c = true := by
    intro c hc
    rcases List.mem_append.mp hc with h | h
    · exact hpl c h
    · exact hql c h
  obtain ⟨_, hch, _⟩ := intLiteral_chars hn
  have np : ∀ d : Char, isSpecial d = true → d ∉ p := fun d hd => word_not_mem wp hd
  have nq : ∀ d : Char, isSpecial d = true → d ∉ q := fun d hd => word_not_mem wq hd
  refine ⟨?_, ?_⟩
  · have hshape : p ++ [' '] ++ q ++ [' ', '=', ' '] ++ n =
        (p ++ [' '] ++ q ++ [' ']) ++ '=' :: (' ' :: n) := by simp
    have hpar : (p ++ [' '] ++ q ++ [' ', '=', ' '] ++ n).count '(' =
        (p ++ [' '] ++ q ++ [' ', '=', ' '] ++ n).count ')' := by
      have a1 : n.count '(' = 0 :=
        List.count_eq_zero_of_not_mem (fun hmem => (hch _ hmem).2.2.1 rfl)
      have a2 : n.count ')' = 0 :=
        List.count_eq_zero_of_not_mem (fun hmem => (hch _ hmem).2.2.2 rfl)
      have a3 : p.count '(' = 0 := List.count_eq_zero_of_not_mem (np _ (by decide))
      have a4 : p.count ')' = 0 := List.count_eq_zero_of_not_mem (np _ (by decide))
      have a5 : q.count '(' = 0 := List.count_eq_zero_of_not_mem (nq _ (by decide))
      have a6 : q.count ')' = 0 := List.count_eq_zero_of_not_mem (nq _ (by decide))
      simp [List.count_append, a1, a2, a3, a4, a5, a6, List.count_cons]
    rw [processInput_assignment L vars _ hpar (by simp), hshape]
    have hl : '=' ∉ p ++ [' '] ++ q ++ [' '] := by
      simp only [List.mem_append, List.mem_singleton, not_or]
      exact ⟨⟨⟨np _ (by decide), by decide⟩, nq _ (by decide)⟩, by decide⟩
    have hr : '=' ∉ ' ' :: n := by
      simp only [List.mem_cons, not_or]
      exact ⟨by decide, fun hmem => (hch _ hmem).2.1 rfl⟩
    have t1 : TrimSpace (p ++ [' '] ++ q ++ [' ']) = p ++ [' '] ++ q := by
      have := TrimSpace_ends [] (p ++ [' '] ++ q) [' '] (by simp) (by simp [isSpace])
        (fun c hc => by
          cases p with
          | nil => exact absurd rfl hp
          | cons x xs =>
            simp only [List.cons_append, List.head?_cons, Option.some.injEq] at hc
            exact letter_not_space hL (hpl c (by simp [hc])))
        (fun c hc => by
          rw [List.getLast?_append_of_ne_nil _ hq] at hc
          exact letter_not_space hL (hql c (List.mem_of_getLast?_eq_some hc)))
      simpa using this
    have t2 : TrimSpace (' ' :: n) = n := by
      have := TrimSpace_padded [' '] n [] (by simp [isSpace]) (by simp)
        (fun d hd => (hch d hd).1)
      simpa using this
    have hvalid : isValidVariable L (p ++ [' '] ++ q) = true := by
      simp only [isValidVariable, List.all_eq_true, Bool.or_eq_true, List.mem_append,
        List.mem_singleton]
      rintro c ((h | h) | h)
      · exact Or.inl (hpl c h)
      · exact Or.inr (by rw [h]; decide)
      · exact Or.inl (hql c h)
    have := handleAssignment_ok L vars (p ++ [' '] ++ q ++ [' ']) (' ' :: n) (literalValue n)
      hl hr (by rw [t1]; exact hvalid)
      (by rw [t2]; exact getNumFromString_intLiteral hL vars hn)
    rw [this, t1]
  · have hs : (p ++ [' '] ++ q).filter (fun c => c != ' ') = (Expr.var (p ++ q)).text := by
      simp only [List.filter_append, filter_space_word wp, filter_space_word wq, text_var]
      simp
    have hne : p ++ q ≠ [] := by simp [hp]
    have hkey : p ++ q ≠ p ++ [' '] ++ q := by
      intro h
      simp at h
    have hlook : (vars.set (p ++ [' '] ++ q) (literalValue n)) (p ++ q) = vars (p ++ q) := by
      simp [Store.set, hkey]
    have hpar : (p ++ [' '] ++ q).count '(' = (p ++ [' '] ++ q).count ')' := by
      have a3 : p.count '(' = 0 := List.count_eq_zero_of_not_mem (np _ (by decide))
      have a4 : p.count ')' = 0 := List.count_eq_zero_of_not_mem (np _ (by decide))
      have a5 : q.count '(' = 0 := List.count_eq_zero_of_not_mem (nq _ (by decide))
      have a6 : q.count ')' = 0 := List.count_eq_zero_of_not_mem (nq _ (by decide))
      simp [List.count_append, a3, a4, a5, a6, List.count_cons]
    have heq : '=' ∉ p ++ [' '] ++ q := by
      simp only [List.mem_append, List.mem_singleton, not_or]
      exact ⟨⟨np _ (by decide), by decide⟩, nq _ (by decide)⟩
    have hnorm : normalizeOperators (p ++ [' '] ++ q) = p ++ q := by
      rw [normalizeOperators_eq, hs, text_var,
        collapseMinus_absent (word_not_mem wpq (by decide)), flatMap_padChar_word wpq]
    rw [processInput_expression L _ _ hpar heq, hnorm, Fields_word _ hne (word_ne_nil_all wpq)]
    have h1 : infixToPostfix [p ++ q] = ([p ++ q], none) := by
      unfold infixToPostfix
      rw [convertLoop_word wpq]
      simp [convertLoop, drainStack]
    rw [h1]
    unfold calculatePostfix
    rw [calcLoop_word L _ wpq, getNumFromString_variable L _ hpql, hlook]
    cases vars (p ++ q) <;> simp [calcLoop, printed]

/-- Witness for C20: after `a b = 5` the line `a b` prints `unknown variable` on a store
without `ab`, and prints 9 on a store in which `ab` holds 9. -/
theorem spaced_name_not_read_back_witness :
    (processInput asciiLetter emptyStore "a b = 5".toList =
        (emptyStore.set "a b".toList 5, none) ∧
      processInput asciiLetter (emptyStore.set "a b".toList 5) "a b".toList =
        (emptyStore.set "a b".toList 5, some "unknown variable".toList)) ∧
    (processInput asciiLetter (emptyStore.set "ab".toList 9) "a b = 5".toList =
        ((emptyStore.set "ab".toList 9).set "a b".toList 5, none) ∧
      processInput asciiLetter ((emptyStore.set "ab".toList 9).set "a b".toList 5)
        "a b".toList =
        ((emptyStore.set "ab".toList 9).set "a b".toList 5, some "9".toList)) :=
  ⟨spaced_name_not_read_back asciiLetter asciiLetter_table emptyStore "a".toList "b".toList
      "5".toList (by decide) (by decide) (by decide) (by decide) (by decide),
    spaced_name_not_read_back asciiLetter asciiLetter_table (emptyStore.set "ab".toList 9)
      "a".toList "b".toList "5".toList (by decide) (by decide) (by decide) (by decide)
      (by decide)⟩

/-- C13: converter tie-break. For operand tokens `a`, `b`, `c` and operators `op1`,
`op2` among `+ - * / ^`, `infixToPostfix` on `[a, op1, b, op2, c]` returns
`[a, b, op1, c, op2]` when `precedence[op1] >= precedence[op2]` (a tie pops, so every
operator, `^` included, associates to the left) and `[a, b, c, op2, op1]` when
`precedence[op1] < precedence[op2]`; the precedences are 1 for `+ -`, 2 for `* /`
and 3 for `^`. -/
theorem converter_tie_break (a b c : Str) (op1 op2 : Op) (ha : isOperandToken a = true)
    (hb : isOperandToken b = true) (hc : isOperandToken c = true) :
    (precOf op2.token ≤ precOf op1.token →
      infixToPostfix [a, op1.token, b, op2.token, c] =
        ([a, b, op1.token, c, op2.token], none)) ∧
    (precOf op1.token < precOf op2.token →
      infixToPostfix [a, op1.token, b, op2.token, c] =
        ([a, b, c, op2.token, op1.token], none)) ∧
    infixToPostfix [a, ['^'], b, ['^'], c] = ([a, b, ['^'], c, ['^']], none) ∧
    (precOf ['+'] = 1 ∧ precOf ['-'] = 1 ∧ precOf ['*'] = 2 ∧ precOf ['/'] = 2 ∧
      precOf ['^'] = 3) := by
  have run : infixToPostfix [a, op1.token, b, op2.token, c] =
      drainStack (op2.token :: (popOperators op2.token [op1.token] [a, b]).1)
        ((popOperators op2.token [op1.token] [a, b]).2 ++ [c]) := by
    unfold infixToPostfix
    rw [convertLoop_operand ha, convertLoop_op, convertLoop_operand hb, convertLoop_op,
      convertLoop_operand hc]
    simp [popOperators, convertLoop]
  have d1 := token_ne_lparen op1
  have d2 := token_ne_lparen op2
  have both : ∀ o1 o2 : Op, (precOf o2.token ≤ precOf o1.token →
      drainStack (o2.token :: (popOperators o2.token [o1.token] [a, b]).1)
        ((popOperators o2.token [o1.token] [a, b]).2 ++ [c]) =
        ([a, b, o1.token, c, o2.token], none)) := by
    intro o1 o2 h
    have e1 := token_ne_lparen o1
    have e2 := token_ne_lparen o2
    simp [popOperators, h, e1, e2, drainStack]
  refine ⟨?_, ?_, ?_, by decide⟩
  · intro h
    rw [run]
    exact both op1 op2 h
  · intro h
    rw [run]
    have h' : ¬ precOf op2.token ≤ precOf op1.token := by omega
    simp [popOperators, h', d1, d2, drainStack]
  · have := both .pow .pow (Nat.le_refl _)
    unfold infixToPostfix
    have hh : ([ '^' ] : Str) = Op.pow.token := rfl
    rw [hh, convertLoop_operand ha, convertLoop_op, convertLoop_operand hb, convertLoop_op,
      convertLoop_operand hc]
    simpa [popOperators, convertLoop] using this

/-- Witness for C13: `1 - 2 + 3`, `1 ^ 2 ^ 3` and `1 + 2 * 3`. -/
theorem converter_tie_break_witness :
    infixToPostfix ["1".toList, "-".toList, "2".toList, "+".toList, "3".toList] =
      (["1".toList, "2".toList, "-".toList, "3".toList, "+".toList], none) ∧
    infixToPostfix ["x".toList, "^".toList, "y".toList, "^".toList, "z".toList] =
      (["x".toList, "y".toList, "^".toList, "z".toList, "^".toList], none) ∧
    infixToPostfix ["1".toList, "+".toList, "2".toList, "*".toList, "3".toList] =
      (["1".toList, "2".toList, "3".toList, "*".toList, "+".toList], none) :=
  ⟨(converter_tie_break "1".toList "2".toList "3".toList .sub .add (by decide) (by decide)
      (by decide)).1 (by decide),
    (converter_tie_break "x".toList "y".toList "z".toList .pow .pow (by decide) (by decide)
      (by decide)).1 (by decide),
    (converter_tie_break "1".toList "2".toList "3".toList .add .mul (by decide) (by decide)
      (by decide)).2.1 (by decide)⟩

/-- C15: evaluator well-formedness. On a postfix sequence in which every token is one
of `+ - *` or an operand that resolves to an integer, `calculatePostfix` succeeds
exactly when the value-stack depth is at least 2 immediately before every operator
and exactly 1 after the last token; in every other case, the empty sequence
included, it fails with `invalid expression`. -/
theorem evaluator_well_formedness (L : Char → Bool) (vars : Store) (ts : List Str)
    (hts : ∀ t ∈ ts, t = ['+'] ∨ t = ['-'] ∨ t = ['*'] ∨
      (isOperator t = false ∧ ∃ v, getNumFromString L vars t = .ok v)) :
    ((∃ v, calculatePostfix L vars ts = .ok v) ↔ depthOK 0 ts = true) ∧
    (depthOK 0 ts = false →
      calculatePostfix L vars ts = .error "invalid expression".toList) := by
  have h := calcLoop_depth L vars ts hts []
  simp only [List.length_nil] at h
  refine ⟨⟨?_, h.1⟩, h.2⟩
  rintro ⟨v, hv⟩
  cases hd : depthOK 0 ts
  · have := h.2 hd
    unfold calculatePostfix at hv
    rw [this] at hv
    exact Except.noConfusion hv
  · rfl

/-- Witness for C15: `1 2 +` succeeds; the empty sequence, `1 +`, `+` and `1 2` fail
with `invalid expression`. -/
theorem evaluator_well_formedness_witness :
    (∃ v, calculatePostfix asciiLetter emptyStore ["1".toList, "2".toList, "+".toList] =
      .ok v) ∧
    calculatePostfix asciiLetter emptyStore [] = .error "invalid expression".toList ∧
    calculatePostfix asciiLetter emptyStore ["1".toList, "+".toList] =
      .error "invalid expression".toList ∧
    calculatePostfix asciiLetter emptyStore ["+".toList] =
      .error "invalid expression".toList ∧
    calculatePostfix asciiLetter emptyStore ["1".toList, "2".toList] =
      .error "invalid expression".toList :=
  ⟨(evaluator_well_formedness asciiLetter emptyStore ["1".toList, "2".toList, "+".toList]
      (by
        intro t ht
        simp only [List.mem_cons, List.mem_singleton, List.not_mem_nil, or_false] at ht
        rcases ht with h | h | h
        · exact Or.inr (Or.inr (Or.inr ⟨by rw [h]; decide, 1, by rw [h]; rfl⟩))
        · exact Or.inr (Or.inr (Or.inr ⟨by rw [h]; decide, 2, by rw [h]; rfl⟩))
        · exact Or.inl h)).1.mpr (by decide),
    (evaluator_well_formedness asciiLetter emptyStore [] (by simp)).2 (by decide),
    (evaluator_well_formedness asciiLetter emptyStore ["1".toList, "+".toList]
      (by
        intro t ht
        simp only [List.mem_cons, List.mem_singleton, List.not_mem_nil, or_false] at ht
        rcases ht with h | h
        · exact Or.inr (Or.inr (Or.inr ⟨by rw [h]; decide, 1, by rw [h]; rfl⟩))
        · exact Or.inl h)).2 (by decide),
    (evaluator_well_formedness asciiLetter emptyStore ["+".toList]
      (by
        intro t ht
        simp only [List.mem_singleton] at ht
        exact Or.inl ht)).2 (by decide),
    (evaluator_well_formedness asciiLetter emptyStore ["1".toList, "2".toList]
      (by
        intro t ht
        simp only [List.mem_cons, List.mem_singleton, List.not_mem_nil, or_false] at ht
        rcases ht with h | h
        · exact Or.inr (Or.inr (Or.inr ⟨by rw [h]; decide, 1, by rw [h]; rfl⟩))
        · exact Or.inr (Or.inr (Or.inr ⟨by rw [h]; decide, 2, by rw [h]; rfl⟩)))).2
      (by decide)⟩

/-- C16: division truncates toward zero. For decimal tokens `a`, `b`, optionally signed
and within the range of `int`, with `b` non-zero and not the overflow case of the
minimum `int` divided by -1, `calculatePostfix` on `[a, b, "/"]` returns the quotient
`q` with `a = q*b + r`, `|r| < |b|` and `r` zero or of the sign of `a`; end to end the
line `(1 - 8) / 2` prints -3. -/
theorem division_truncates (L : Char → Bool) (hL : LetterTable L) (vars : Store)
    (ta tb : Str) (ha : isIntLiteral ta = true) (hb : isIntLiteral tb = true)
    (hb0 : literalValue tb ≠ 0)
    (hov : ¬ (literalValue ta = -(2 ^ 63) ∧ literalValue tb = -1)) :
    calculatePostfix L vars [ta, tb, ['/']] =
      .ok (Int.tdiv (literalValue ta) (literalValue tb)) ∧
    literalValue ta =
      Int.tdiv (literalValue ta) (literalValue tb) * literalValue tb +
        Int.tmod (literalValue ta) (literalValue tb) ∧
    (Int.tmod (literalValue ta) (literalValue tb)).natAbs < (literalValue tb).natAbs ∧
    (Int.tmod (literalValue ta) (literalValue tb) = 0 ∨
      (0 < Int.tmod (literalValue ta) (literalValue tb) ∧ 0 < literalValue ta) ∨
      (Int.tmod (literalValue ta) (literalValue tb) < 0 ∧ literalValue ta < 0)) ∧
    processInput L vars "(1 - 8) / 2".toList = (vars, some "-3".toList) := by
  obtain ⟨a1, a2⟩ := intLiteral_range ha
  obtain ⟨q1, q2⟩ := tdiv_range _ _ a1 a2 hb0 hov
  refine ⟨?_, (Int.tdiv_add_tmod' _ _).symm, ?_, ?_, ?_⟩
  · rw [calculatePostfix_div hL vars ta tb ha hb hb0, wrap_of_range _ q1 q2]
  · rw [tmod_natAbs]
    exact Nat.mod_lt _ (Int.natAbs_pos.mpr hb0)
  · rcases Int.lt_trichotomy (literalValue ta) 0 with h | h | h
    · have := tmod_nonpos_of_nonpos (literalValue tb) (Int.le_of_lt h)
      omega
    · rw [h]
      exact Or.inl (Int.zero_tmod _)
    · have := Int.tmod_nonneg (literalValue tb) (Int.le_of_lt h)
      omega
  · have hs : "(1 - 8) / 2".toList.filter (fun c => c != ' ') =
        (Expr.bin .div (.paren (.bin .sub (.lit "1".toList) (.lit "8".toList)))
          (.lit "2".toList)).text := by decide
    rw [processInput_expr hL vars
      (Expr.bin .div (.paren (.bin .sub (.lit "1".toList) (.lit "8".toList)))
        (.lit "2".toList)) rfl rfl _ hs]
    rfl

/-- Witness for C16: `-7 / 2` and `7 / -2` both give -3, not the floor -4, and the line
`(1 - 8) / 2` prints -3. -/
theorem division_truncates_witness :
    calculatePostfix asciiLetter emptyStore ["-7".toList, "2".toList, "/".toList] =
      .ok (-3) ∧
    calculatePostfix asciiLetter emptyStore ["7".toList, "-2".toList, "/".toList] =
      .ok (-3) ∧
    processInput asciiLetter emptyStore "(1 - 8) / 2".toList =
      (emptyStore, some "-3".toList) :=
  ⟨(division_truncates asciiLetter asciiLetter_table emptyStore "-7".toList "2".toList
      (by decide) (by decide) (by decide) (by decide)).1,
    (division_truncates asciiLetter asciiLetter_table emptyStore "7".toList "-2".toList
      (by decide) (by decide) (by decide) (by decide)).1,
    (division_truncates asciiLetter asciiLetter_table emptyStore "7".toList "-2".toList
      (by decide) (by decide) (by decide) (by decide)).2.2.2.2⟩

/-- C19, as the code has it: no unary sign in expressions. For a non-negative integer
literal `n` and an operand `a` that resolves to an integer (a literal that fits `int`
or a variable present in the store), the lines `-n`, `+n` and `a * -n` print
`invalid expression`, although the assignment `x = -n` is accepted and the line `x`
afterwards prints the negative value `-n`. -/
theorem unary_sign_rejected (L : Char → Bool) (hL : LetterTable L) (vars : Store)
    (n x : Str) (a : Expr) (hn : isDecimalLiteral n = true) (ha : a.isOperand = true)
    (hok : a.operandsOK L vars = true) (hx : x ≠ []) (hxl : ∀ c ∈ x, L c = true) :
    processInput L vars ('-' :: n) = (vars, some "invalid expression".toList) ∧
    processInput L vars ('+' :: n) = (vars, some "invalid expression".toList) ∧
    processInput L vars (a.text ++ [' ', '*', ' ', '-'] ++ n) =
      (vars, some "invalid expression".toList) ∧
    processInput L vars (x ++ [' ', '=', ' '] ++ '-' :: n) =
      (vars.set x (-(digitsVal n : Int)), none) ∧
    processInput L (vars.set x (-(digitsVal n : Int))) x =
      (vars.set x (-(digitsVal n : Int)), some (formatInt (-(digitsVal n : Int)))) := by
  obtain ⟨hne, hd, _⟩ := (isDecimalLiteral_iff n).mp hn
  have wn : isWord n = true := digits_isWord hd
  have hminus : '-' ∉ n := word_not_mem wn (by decide)
  refine ⟨?_, ?_, product_sign_line hL vars a n ha hok hn, ?_,
    processInput_lookup hL vars x hx hxl _⟩
  · exact sign_line hL vars .sub n hn (by
      have := collapseMinus_single [] n (by simp) hminus hne
      simpa using this)
  · exact sign_line hL vars .add n hn (by
      apply collapseMinus_absent
      simp only [Op.symbol, List.mem_cons, not_or]
      exact ⟨by decide, hminus⟩)
  · obtain ⟨h1, h2⟩ := decimal_negated hn
    rw [processInput_assign_literal hL vars x ('-' :: n) hxl h1, h2]

/-- Witness for C19: `-3`, `+3` and `2 * -3` print `invalid expression`; `x = -3` is
accepted and `x` then prints -3. -/
theorem unary_sign_rejected_witness :
    processInput asciiLetter emptyStore "-3".toList =
      (emptyStore, some "invalid expression".toList) ∧
    processInput asciiLetter emptyStore "+3".toList =
      (emptyStore, some "invalid expression".toList) ∧
    processInput asciiLetter emptyStore "2 * -3".toList =
      (emptyStore, some "invalid expression".toList) ∧
    processInput asciiLetter emptyStore "x = -3".toList = (emptyStore.set "x".toList (-3), none) ∧
    processInput asciiLetter (emptyStore.set "x".toList (-3)) "x".toList =
      (emptyStore.set "x".toList (-3), some "-3".toList) :=
  unary_sign_rejected asciiLetter asciiLetter_table emptyStore "3".toList "x".toList
    (.lit "2".toList) (by decide) (by decide) (by decide) (by decide) (by decide)

/-- Counterexample for C19: the operand `y` is a variable name, but with `y` unassigned
the line `y * -3` prints `unknown variable`, not `invalid expression`: the operand
is resolved before the operator is reached. -/
theorem unary_sign_unknown_operand :
    (processInput asciiLetter emptyStore "y * -3".toList).2 =
      some "unknown variable".toList ∧
    (processInput asciiLetter emptyStore "y * -3".toList).2 ≠
      some "invalid expression".toList := by
  decide

/-- C14: mismatched parentheses that pass the count check are still rejected. For every
line without `=` whose counts of `(` and `)` are equal but in which some prefix has
more `)` than `(`, a `)` met on a stack without `(` changes nothing, `infixToPostfix`
then fails on a leftover `(`, and `processInput` prints exactly `invalid expression`
although it drops the converter's error. -/
theorem mismatched_parens_rejected (L : Char → Bool) (vars : Store) (s : Str) (k : Nat)
    (heq : '=' ∉ s) (hpar : Count s '(' = Count s ')')
    (hpre : Count (s.take k) '(' < Count (s.take k) ')') :
    (∀ output : List Str, popToParen [] output = ([], output)) ∧
    infixToPostfix (Fields (normalizeOperators s)) = ([], some "invalid expression".toList) ∧
    processInput L vars s = (vars, some "invalid expression".toList) := by
  have hdepth : 0 < charDepth 0 s := by
    have := charDepth_strict s 0 k (by simpa [Count] using hpre)
    simp only [Count] at hpar
    omega
  have hconv : infixToPostfix (Fields (normalizeOperators s)) =
      ([], some "invalid expression".toList) := by
    unfold infixToPostfix
    apply convertLoop_open
    rw [List.count_nil, charDepth_normalize]
    exact hdepth
  refine ⟨fun output => rfl, hconv, ?_⟩
  rw [processInput_expression L vars s hpar heq, hconv]
  rfl

/-- Witness for C14: the lines `)1 + 2(` and `(1 + 2))(`. -/
theorem mismatched_parens_rejected_witness :
    (infixToPostfix (Fields (normalizeOperators ")1 + 2(".toList)) =
        ([], some "invalid expression".toList) ∧
      processInput asciiLetter emptyStore ")1 + 2(".toList =
        (emptyStore, some "invalid expression".toList)) ∧
    (infixToPostfix (Fields (normalizeOperators "(1 + 2))(".toList)) =
        ([], some "invalid expression".toList) ∧
      processInput asciiLetter emptyStore "(1 + 2))(".toList =
        (emptyStore, some "invalid expression".toList)) :=
  ⟨(mismatched_parens_rejected asciiLetter emptyStore ")1 + 2(".toList 1 (by decide)
      (by decide) (by decide)).2,
    (mismatched_parens_rejected asciiLetter emptyStore "(1 + 2))(".toList 8 (by decide)
      (by decide) (by decide)).2⟩

/-- C18: converter output preservation. Whenever `infixToPostfix` succeeds, its output
holds no `(` and no `)` token, its length is the input length minus the number of
parenthesis tokens, the operand tokens stand in the output in their input order, and
the operator tokens of the output are a permutation of those of the input. -/
theorem converter_output_preservation (tokens output : List Str)
    (h : infixToPostfix tokens = (output, none)) :
    ['('] ∉ output ∧ [')'] ∉ output ∧
    output.length = tokens.length - (tokens.count ['('] + tokens.count [')']) ∧
    output.filter isOperandToken = tokens.filter isOperandToken ∧
    (output.filter isOperator).Perm (tokens.filter isOperator) := by
  obtain ⟨r1, r2, r3⟩ := convertLoop_preserves tokens [] [] output (by simp) h
  simp only [List.filter_nil, List.nil_append, List.count_nil, Nat.zero_add] at r1 r2 r3
  have hperm : (output.filter isOperator).Perm (tokens.filter isOperator) :=
    List.perm_iff_count.mpr (fun x => by
      rw [count_decidable_eq, count_decidable_eq]
      exact r3 x)
  have hnone : ∀ t ∈ output, isParenToken t = false := by
    intro t ht
    have := List.filter_eq_nil_iff.mp r2 t ht
    simpa using this
  have hopen : ['('] ∉ output := fun hm => by
    have := hnone _ hm
    revert this
    decide
  have hclose : [')'] ∉ output := fun hm => by
    have := hnone _ hm
    revert this
    decide
  refine ⟨hopen, hclose, ?_, r1, hperm⟩
  have l1 := length_three_way output
  have l2 := length_three_way tokens
  rw [List.count_eq_zero_of_not_mem hopen, List.count_eq_zero_of_not_mem hclose, r1,
    hperm.length_eq] at l1
  omega

/-- Witness for C18: the tokens of `(1 + 2) * 3 - x`. -/
theorem converter_output_preservation_witness :
    infixToPostfix ["(".toList, "1".toList, "+".toList, "2".toList, ")".toList, "*".toList,
        "3".toList, "-".toList, "x".toList] =
      (["1".toList, "2".toList, "+".toList, "3".toList, "*".toList, "x".toList, "-".toList],
        none) ∧
    (["1".toList, "2".toList, "+".toList, "3".toList, "*".toList, "x".toList,
        "-".toList].filter isOperandToken =
      ["(".toList, "1".toList, "+".toList, "2".toList, ")".toList, "*".toList, "3".toList,
        "-".toList, "x".toList].filter isOperandToken) ∧
    (["1".toList, "2".toList, "+".toList, "3".toList, "*".toList, "x".toList,
        "-".toList].filter isOperator).Perm
      (["(".toList, "1".toList, "+".toList, "2".toList, ")".toList, "*".toList, "3".toList,
        "-".toList, "x".toList].filter isOperator) :=
  ⟨by decide,
    (converter_output_preservation
      ["(".toList, "1".toList, "+".toList, "2".toList, ")".toList, "*".toList, "3".toList,
        "-".toList, "x".toList]
      ["1".toList, "2".toList, "+".toList, "3".toList, "*".toList, "x".toList, "-".toList]
      (by decide)).2.2.2.1,
    (converter_output_preservation
      ["(".toList, "1".toList, "+".toList, "2".toList, ")".toList, "*".toList, "3".toList,
        "-".toList, "x".toList]
      ["1".toList, "2".toList, "+".toList, "3".toList, "*".toList, "x".toList, "-".toList]
      (by decide)).2.2.2.2⟩

end SmartCalc
